import Mathlib

/-!
Mount resolver (pkg/security/resolvers/mount/resolver.go)

Shallow embedding of the mount resolver: a cache of mount records keyed by
mount ID, with delayed deletion through a delete queue, a redemption LRU whose
eviction callback finalizes a mount together with its children and overlay
siblings, lazy memoised path construction and a procfs fallback.

Conventions of the embedding.

* Records are reached through pointers in the Go code (`*model.Mount`), and the
  code compares pointers (`prev == req.mount`) and writes through them
  (`mount.Path = ...`).  The resolver state therefore carries a heap, a list of
  records, and a pointer is an index into it.  Allocation appends to the heap.
* `uint32` identifiers are natural numbers; the code only compares them.
* Time is a natural number of nanoseconds.
* The resolver lock is not modelled: every operation is one atomic step.
* The work stack of `finalize` and the eviction list of the LRU are lists whose
  head is the top of the stack, respectively the most recently used entry.
* The loop of `finalize` and the recursion of `_getMountPath` are run with fuel;
  `finalizeLoop_complete` and `getMountPath_total` show that the fuel granted
  is never used up (on a well-formed map for `finalize`).
* What the file does not find in the sources at hand (the mount map, the
  overlay test, the fallback limiter) is modelled from the specification and
  marked so; the LRU and the path functions follow the libraries they come from.
-/

namespace MountResolver

/-! ## Records, errors, collaborators -/

/-- Pointer to a mount record: an index into the resolver heap. -/
abbrev Ptr := Nat

/-- The fields of `model.Mount` that the resolver reads or writes. -/
structure Mount where
  MountID : Nat
  Device : Nat
  ParentMountID : Nat
  FSType : String
  MountPointStr : String
  Path : String
  RootStr : String
deriving DecidableEq, Repr, Inhabited

/-- Modelled from the spec: `Mount.IsOverlayFS` is declared in the `model`
package, which is not part of the sources at hand; the spec says the filesystem
type indicates an overlay filesystem, whose type name is "overlay". -/
def Mount.IsOverlayFS (m : Mount) : Bool := m.FSType == "overlay"

/-- Getter of the filesystem type (`Mount.GetFSType`). -/
def Mount.GetFSType (m : Mount) : String := m.FSType

/-- Sentinel returned by `ResolveFilesystem` next to an error (`model.UnknownFS`). -/
def UnknownFS : String := "unknown"

/-- The errors returned by the resolver.  `ErrProcScan pid` stands for the I/O
error of a failed read of the mount table of process `pid`. -/
inductive MountError where
  | ErrMountUndefined
  | ErrMountKernelID
  | ErrMountNotFound (MountID : Nat)
  | ErrMountLoop
  | ErrMountPathEmpty
  | ErrProcScan (pid : Nat)
deriving DecidableEq, Repr

deriving instance DecidableEq for Except

/-- Dereference a pointer.  A pointer outside the heap reads the zero record;
the resolver never stores such a pointer. -/
def deref (heap : List Mount) (p : Ptr) : Mount := heap.getD p default

/-- The fields of a parsed line of a mount table (`mountinfo.Info`). -/
structure MountInfo where
  ID : Nat
  Parent : Nat
  Major : Nat
  Minor : Nat
  Root : String
  Mountpoint : String
  FSType : String
deriving DecidableEq, Repr, Inhabited

/-- Device number composed from major and minor numbers (`unix.Mkdev`). -/
def Mkdev (major minor : Nat) : Nat :=
  (((major &&& 0x00000fff) <<< 8) ||| ((major &&& 0xfffff000) <<< 32)
    ||| (minor &&& 0x000000ff) ||| ((minor &&& 0xffffff00) <<< 12)) % 2 ^ 64

/-- Source lines 39-50: a record made from a parsed mount table line. -/
def newMountFromMountInfo (mnt : MountInfo) : Mount :=
  { MountID := mnt.ID % 2 ^ 32
    Device := Mkdev (mnt.Major % 2 ^ 32) (mnt.Minor % 2 ^ 32) % 2 ^ 32
    ParentMountID := mnt.Parent % 2 ^ 32
    FSType := mnt.FSType
    MountPointStr := mnt.Mountpoint
    Path := mnt.Mountpoint
    RootStr := mnt.Root }

/-- The delay between a `Delete` and the moment the sweep may act on it: 5 seconds. -/
def deleteDelayTime : Nat := 5 * 1000000000

/-- A queued deletion: the record and its deadline. -/
structure deleteRequest where
  mount : Ptr
  timeoutAt : Nat
deriving DecidableEq, Repr

/-- Resolver options. -/
structure ResolverOpts where
  UseProcFS : Bool
deriving DecidableEq, Repr

/-! ## Mount map -/

/-- Modelled from the spec: the Mount Map (`MountMap`, declared in a file of the
package that is not part of the sources at hand) stores mount records keyed by
mount ID and supports insertion, deletion, lookup, containment check, count and
full iteration with a visitor that can stop early.  It is a list of bindings
from mount ID to record pointer; iteration follows the list. -/
structure MountMap where
  entries : List (Nat × Ptr)
deriving DecidableEq, Repr

/-- The empty map. -/
def NewMountMap : MountMap := ⟨[]⟩

/-- Lookup by mount ID; `none` is the nil pointer. -/
def MountMap.Get (m : MountMap) (id : Nat) : Option Ptr := m.entries.lookup id

/-- Containment check. -/
def MountMap.Contains (m : MountMap) (id : Nat) : Bool := (m.Get id).isSome

/-- Removal of the binding of a mount ID. -/
def MountMap.Delete (m : MountMap) (id : Nat) : MountMap :=
  ⟨m.entries.filter (fun e => e.1 != id)⟩

/-- Insertion; a binding already present under the ID is replaced. -/
def MountMap.Insert (m : MountMap) (id : Nat) (p : Ptr) : MountMap :=
  ⟨(m.Delete id).entries ++ [(id, p)]⟩

/-- Number of live records. -/
def MountMap.RealLen (m : MountMap) : Nat := m.entries.length

/-- Iteration over a list of bindings; the visitor returns the new accumulator
and whether to go on. -/
def forEachLoop {σ : Type} (visit : σ → Nat → Ptr → σ × Bool) : List (Nat × Ptr) → σ → σ
  | [], acc => acc
  | e :: rest, acc =>
    if (visit acc e.1 e.2).2 then forEachLoop visit rest (visit acc e.1 e.2).1
    else (visit acc e.1 e.2).1

/-- Full iteration with a visitor that can stop early. -/
def MountMap.ForEach {σ : Type} (m : MountMap) (visit : σ → Nat → Ptr → σ × Bool) (init : σ) : σ :=
  forEachLoop visit m.entries init

/-! ## Redemption cache -/

/-- The LRU of `hashicorp/golang-lru/v2/simplelru`, a library outside the
repository, as far as the resolver uses it.  `items` is the eviction list, most
recently used first.  The eviction callback is run by the caller on the entry
that an operation returns as evicted: `Add` evicts the oldest entry when the
size is exceeded, and `Remove` runs the callback on the entry it removes (the
comment in `insert` relies on it: when the previous record is present in the
redemption, the evict function is what removes the entry). -/
structure LRU where
  size : Nat
  items : List (Nat × Ptr)
deriving DecidableEq, Repr

/-- Whether a key is cached. -/
def LRU.Contains (c : LRU) (key : Nat) : Bool := (c.items.lookup key).isSome

/-- Value cached under a key, without touching recency (`Peek`). -/
def LRU.Peek (c : LRU) (key : Nat) : Option Ptr := c.items.lookup key

/-- Add: an existing key is moved to the front with the new value and nothing is
evicted; a new key is pushed to the front and the oldest entry is evicted when
the list is longer than `size`.  Returns the cache and the evicted entry. -/
def LRU.Add (c : LRU) (key : Nat) (value : Ptr) : LRU × Option (Nat × Ptr) :=
  if c.Contains key then
    ({ c with items := (key, value) :: c.items.filter (fun e => e.1 != key) }, none)
  else if (c.items.length + 1 > c.size) then
    ({ c with items := ((key, value) :: c.items).dropLast }, ((key, value) :: c.items).getLast?)
  else
    ({ c with items := (key, value) :: c.items }, none)

/-- Get: a cached key is moved to the front; returns the cache and the value. -/
def LRU.Get (c : LRU) (key : Nat) : LRU × Option Ptr :=
  match c.items.lookup key with
  | some v => ({ c with items := (key, v) :: c.items.filter (fun e => e.1 != key) }, some v)
  | none => (c, none)

/-- Remove: a cached key is removed and returned as evicted (the callback runs
on it); `none` means the key was not present. -/
def LRU.Remove (c : LRU) (key : Nat) : LRU × Option (Nat × Ptr) :=
  match c.items.lookup key with
  | some v => ({ c with items := c.items.filter (fun e => e.1 != key) }, some (key, v))
  | none => (c, none)

/-! ## Fallback limiter and environment -/

/-- Modelled from the spec: the fallback limiter (`utils.Limiter`, not part of
the sources at hand) is a per-mount-ID rate limiter; `IsAllowed` checks and
records an attempt, `Count` records a denied attempt.  Its policy is not fixed
by the spec, so the state is the log of the calls made (`true` marks `Count`)
and the decision is taken by the environment from that log. -/
structure Limiter where
  log : List (Bool × Nat)
deriving DecidableEq, Repr

/-- What the resolver consults outside itself during one operation: the
workload resolver (`GetWorkload` followed by `GetPIDs`; `none` when the
container is unknown), the mount table of a process
(`kernel.ParseMountInfoFile`; `none` when the read fails) and the decision of
the fallback limiter. -/
structure Env where
  GetWorkload : String → Option (List Nat)
  ParseMountInfoFile : Nat → Option (List MountInfo)
  limiterAllows : Limiter → Nat → Bool

/-- Check and record an attempt. -/
def Limiter.IsAllowed (l : Limiter) (env : Env) (id : Nat) : Bool × Limiter :=
  (env.limiterAllows l id, ⟨l.log ++ [(false, id)]⟩)

/-- Record a denied attempt. -/
def Limiter.Count (l : Limiter) (id : Nat) : Limiter := ⟨l.log ++ [(true, id)]⟩

/-! ## Resolver state -/

/-- The resolver state (source lines 63-79).  `heap` holds the records that
pointers refer to.  `procScans` is a ghost field: the log of the process IDs
whose mount table was read. -/
structure Resolver where
  opts : ResolverOpts
  heap : List Mount
  mounts : MountMap
  deleteQueue : List deleteRequest
  minMountID : Nat
  redemption : LRU
  fallbackLimiter : Limiter
  cacheHitsStats : Nat
  cacheMissStats : Nat
  procHitsStats : Nat
  procMissStats : Nat
  procScans : List Nat
deriving DecidableEq, Repr

/-- Source lines 580-608: a fresh resolver; the redemption LRU holds 1024 entries. -/
def NewResolver (opts : ResolverOpts) : Resolver :=
  { opts := opts
    heap := []
    mounts := NewMountMap
    deleteQueue := []
    minMountID := 0
    redemption := ⟨1024, []⟩
    fallbackLimiter := ⟨[]⟩
    cacheHitsStats := 0
    cacheMissStats := 0
    procHitsStats := 0
    procMissStats := 0
    procScans := [] }

/-- Source lines 82-92: validity of a mount ID.  The function reads `minMountID`
only and returns no new state. -/
def Resolver.IsMountIDValid (mr : Resolver) (mountID : Nat) : Bool × Option MountError :=
  if mountID == 0 then (false, some MountError.ErrMountUndefined)
  else if mountID < mr.minMountID then (false, some MountError.ErrMountKernelID)
  else (true, none)

/-! ## Strings and paths -/

/-- Removal of a leading string when it is there (`strings.TrimPrefix`). -/
def TrimPrefix (s pre : String) : String :=
  if pre.data.isPrefixOf s.data then String.mk (s.data.drop pre.data.length) else s

/-- The elements of a path: the pieces between the separators. -/
def splitSlash : List Char → List (List Char)
  | [] => [[]]
  | c :: cs =>
    if c == '/' then [] :: splitSlash cs
    else match splitSlash cs with
      | [] => [[c]]
      | x :: xs => (c :: x) :: xs

/-- Backtracking of `path.Clean` over the reversed output buffer: after one
byte was dropped (the byte `last`), bytes are dropped while the buffer is longer
than `dotdot` and the byte dropped last is not a separator. -/
def backtrackLoop (dotdot : Nat) : List Char → Char → List Char
  | [], _ => []
  | c :: r, last =>
    if (c :: r).length > dotdot && last != '/' then backtrackLoop dotdot r c else c :: r

/-- One round of the loop of `path.Clean` on one path element.  The state is
the reversed output buffer and the index `dotdot`. -/
def cleanStep (rooted : Bool) (st : List Char × Nat) (comp : List Char) : List Char × Nat :=
  if comp == [] then st
  else if comp == ['.'] then st
  else if comp == ['.', '.'] then
    if st.1.length > st.2 then
      match st.1 with
      | [] => st
      | last :: r => (backtrackLoop st.2 r last, st.2)
    else if !rooted then
      let out := if st.1.length > 0 then '/' :: st.1 else st.1
      ('.' :: '.' :: out, ('.' :: '.' :: out).length)
    else st
  else
    let out := if (rooted && st.1.length != 1) || (!rooted && st.1.length != 0) then '/' :: st.1 else st.1
    (comp.reverse ++ out, st.2)

/-- The loop of `path.Clean` over the elements of a non-empty path; returns the
reversed output buffer.  A rooted path starts with the separator in the buffer
and `dotdot` at 1. -/
def cleanLoop (path : List Char) : List Char :=
  ((splitSlash path).foldl (cleanStep (path.head? == some '/'))
    (if path.head? == some '/' then (['/'], 1) else ([], 0))).1

/-- Shortest equivalent path (`path.Clean` of the Go standard library), run
element by element: empty and "." elements are dropped, ".." removes the
element before it, a rooted path keeps its leading separator, and the empty
result is ".". -/
def Clean (path : String) : String :=
  if path.data == [] then "."
  else if (cleanLoop path.data).length == 0 then "."
  else String.mk (cleanLoop path.data).reverse

/-- Join of path elements (`path.Join`): leading empty elements are ignored, the
others are joined with separators and the result is cleaned; the join of
nothing but empty elements is the empty string. -/
def Join (elem : List String) : String :=
  match elem.dropWhile (fun e => e.data == []) with
  | [] => ""
  | e :: rest => Clean (String.mk (List.intercalate ['/'] ((e :: rest).map String.data)))

/-! ## Finalization -/

/-- One round of the loop of `finalize` (source lines 150-176): `curr` was
popped and `rest` is what is left of the work stack.  The mount is deleted from
the map, its children still in the map are pushed, and for an overlay mount the
other mounts of the same device are pushed. -/
def finalizeStep (heap : List Mount) (curr : Ptr) (rest : List Ptr) (mounts : MountMap) :
    List Ptr × MountMap :=
  let mounts := mounts.Delete (deref heap curr).MountID
  let open_queue := mounts.ForEach (fun (q : List Ptr) _ child =>
    if (deref heap child).ParentMountID == (deref heap curr).MountID then
      if mounts.Contains (deref heap child).MountID then (child :: q, true) else (q, true)
    else (q, true)) rest
  if !(deref heap curr).IsOverlayFS then (open_queue, mounts)
  else
    (mounts.ForEach (fun (q : List Ptr) _ deviceMount =>
      if (deref heap curr).Device == (deref heap deviceMount).Device
          && (deref heap curr).MountID != (deref heap deviceMount).MountID then
        (deviceMount :: q, true)
      else (q, true)) open_queue, mounts)

/-- The loop of `finalize`, run for at most `fuel` rounds; returns the work
stack and the map. -/
def finalizeLoop (heap : List Mount) : Nat → List Ptr → MountMap → List Ptr × MountMap
  | 0, open_queue, mounts => (open_queue, mounts)
  | _ + 1, [], mounts => ([], mounts)
  | fuel + 1, curr :: rest, mounts =>
    finalizeLoop heap fuel (finalizeStep heap curr rest mounts).1 (finalizeStep heap curr rest mounts).2

/-- Number of rounds granted to the loop of `finalize` on a map of `n` records;
`finalizeLoop_complete` shows that the work stack is empty by then. -/
def finalizeFuel (n : Nat) : Nat := 2 * n * n + 2 * n + 1

/-- Finalization on the map alone. -/
def finalizeMap (heap : List Mount) (mounts : MountMap) (first : Ptr) : MountMap :=
  (finalizeLoop heap (finalizeFuel mounts.RealLen) [first] mounts).2

/-- Source lines 145-178. -/
def Resolver.finalize (mr : Resolver) (first : Ptr) : Resolver :=
  { mr with mounts := finalizeMap mr.heap mr.mounts first }

/-- The eviction callback of the redemption LRU (source lines 593-595), run on
the entry an LRU operation evicted, if any. -/
def Resolver.onEvict (mr : Resolver) (evicted : Option (Nat × Ptr)) : Resolver :=
  match evicted with
  | some e => mr.finalize e.2
  | none => mr

/-! ## Deletion and insertion -/

/-- Source lines 180-184: the record live under the ID of `mount` is added to the
redemption LRU. -/
def Resolver.delete (mr : Resolver) (mount : Ptr) : Resolver :=
  match mr.mounts.Get (deref mr.heap mount).MountID with
  | some m =>
    ({ mr with redemption := (mr.redemption.Add (deref mr.heap mount).MountID m).1 }).onEvict
      (mr.redemption.Add (deref mr.heap mount).MountID m).2
  | none => mr

/-- Source lines 187-199: `Delete` at time `now`. -/
def Resolver.Delete (mr : Resolver) (now : Nat) (mountID : Nat) : Resolver × Option MountError :=
  match mr.mounts.Get mountID with
  | none => (mr, some (MountError.ErrMountNotFound mountID))
  | some mount =>
    ({ mr with deleteQueue := mr.deleteQueue ++ [⟨mount, now + deleteDelayTime⟩] }, none)

/-- The part of `insert` that unmounts the previous record (source lines 232-237). -/
def Resolver.insertUmount (mr : Resolver) (m : Ptr) : Resolver :=
  match mr.mounts.Get (deref mr.heap m).MountID with
  | some prev =>
    if ((mr.redemption.Remove (deref mr.heap prev).MountID).2).isSome then
      ({ mr with redemption := (mr.redemption.Remove (deref mr.heap prev).MountID).1 }).onEvict
        (mr.redemption.Remove (deref mr.heap prev).MountID).2
    else
      ({ mr with redemption := (mr.redemption.Remove (deref mr.heap prev).MountID).1 }).finalize prev
  | none => mr

/-- The mount point as `insert` stores it (source lines 241-243). -/
def normalizeMount (m : Mount) : Mount :=
  if m.Path.length == 0 && m.MountPointStr != "/" then
    { m with MountPointStr := TrimPrefix m.MountPointStr "/" }
  else m

/-- Source lines 228-250.  The debug print of line 229 is left out. -/
def Resolver.insert (mr : Resolver) (m : Ptr) : Resolver :=
  let mr1 := mr.insertUmount m
  let mr2 := { mr1 with heap := mr1.heap.set m (normalizeMount (deref mr1.heap m)) }
  let mr3 := { mr2 with mounts := mr2.mounts.Insert (deref mr2.heap m).MountID m }
  if mr3.minMountID > (deref mr3.heap m).MountID then
    { mr3 with minMountID := (deref mr3.heap m).MountID }
  else mr3

/-- Allocation of a record: it is appended to the heap, and its pointer is the
former length of the heap. -/
def Resolver.alloc (mr : Resolver) (e : Mount) : Resolver × Ptr :=
  ({ mr with heap := mr.heap ++ [e] }, mr.heap.length)

/-- Source lines 215-226: the record is copied to the heap and inserted. -/
def Resolver.Insert (mr : Resolver) (e : Mount) : Resolver × Option MountError :=
  if e.MountID == 0 then (mr, some MountError.ErrMountUndefined)
  else ((mr.alloc e).1.insert (mr.alloc e).2, none)

/-! ## Path construction -/

/-- Source lines 252-294, run for at most `fuel` nested calls (`none` when the
fuel is used up).  `cache` is the set of the mount IDs visited so far.  On
success the path is written to the record, hence the new state. -/
def Resolver._getMountPath (mr : Resolver) :
    Nat → Nat → List Nat → Option (Resolver × Except MountError String)
  | 0, _, _ => none
  | fuel + 1, mountID, cache =>
    match (mr.IsMountIDValid mountID).2 with
    | some err => some (mr, Except.error err)
    | none =>
      match mr.mounts.Get mountID with
      | none => some (mr, Except.error (MountError.ErrMountNotFound mountID))
      | some mount =>
        if (deref mr.heap mount).Path.length > 0 then
          some (mr, Except.ok (deref mr.heap mount).Path)
        else if (deref mr.heap mount).MountPointStr == "/" then
          some (mr, Except.ok (deref mr.heap mount).MountPointStr)
        else if cache.contains mountID then some (mr, Except.error MountError.ErrMountLoop)
        else if (deref mr.heap mount).ParentMountID == 0 then
          some (mr, Except.error MountError.ErrMountUndefined)
        else
          match mr._getMountPath fuel (deref mr.heap mount).ParentMountID (mountID :: cache) with
          | none => none
          | some (mr1, Except.error err) => some (mr1, Except.error err)
          | some (mr1, Except.ok parentMountPath) =>
            if (Join [parentMountPath, (deref mr.heap mount).MountPointStr]).length == 0 then
              some (mr1, Except.error MountError.ErrMountPathEmpty)
            else
              some ({ mr1 with heap := mr1.heap.set mount { deref mr1.heap mount with
                        Path := Join [parentMountPath, (deref mr.heap mount).MountPointStr] } },
                    Except.ok (Join [parentMountPath, (deref mr.heap mount).MountPointStr]))

/-- Source lines 296-298.  Every nested call but the last adds a live mount ID
that was not yet in `cache`, so one call more than there are live records is
enough; the fallback is never taken. -/
def Resolver.getMountPath (mr : Resolver) (mountID : Nat) : Resolver × Except MountError String :=
  match mr._getMountPath (mr.mounts.RealLen + 1) mountID [] with
  | some r => r
  | none => (mr, Except.error MountError.ErrMountLoop)

/-! ## The sweep -/

/-- The handling of one due request (source lines 312-315): the record is moved
to the redemption cache when the map still binds its mount ID to it. -/
def dequeueHandle (mr : Resolver) (req : deleteRequest) : Resolver :=
  if mr.mounts.Get (deref mr.heap req.mount).MountID == some req.mount then
    mr.delete req.mount
  else mr

/-- The loop of `dequeue` (source lines 306-318) over the requests not yet
visited; returns the number of requests handled and the state. -/
def dequeueLoop (now : Nat) : List deleteRequest → Resolver → Nat × Resolver
  | [], mr => (0, mr)
  | req :: rest, mr =>
    if req.timeoutAt > now then (0, mr)
    else
      ((dequeueLoop now rest (dequeueHandle mr req)).1 + 1,
       (dequeueLoop now rest (dequeueHandle mr req)).2)

/-- Source lines 300-327. -/
def Resolver.dequeue (mr : Resolver) (now : Nat) : Resolver :=
  if (dequeueLoop now mr.deleteQueue mr).1 ≥ mr.deleteQueue.length then
    { (dequeueLoop now mr.deleteQueue mr).2 with deleteQueue := [] }
  else if (dequeueLoop now mr.deleteQueue mr).1 > 0 then
    { (dequeueLoop now mr.deleteQueue mr).2 with
        deleteQueue := mr.deleteQueue.drop (dequeueLoop now mr.deleteQueue mr).1 }
  else (dequeueLoop now mr.deleteQueue mr).2

/-! ## Procfs synchronisation -/

/-- The loop of `syncPid` (source lines 120-127): a scanned mount whose ID is
live is skipped, any other is allocated and inserted. -/
def syncPidLoop : List MountInfo → Resolver → Resolver
  | [], mr => mr
  | mnt :: rest, mr =>
    if mr.mounts.Contains (mnt.ID % 2 ^ 32) then syncPidLoop rest mr
    else syncPidLoop rest ((mr.alloc (newMountFromMountInfo mnt)).1.insert
      (mr.alloc (newMountFromMountInfo mnt)).2)

/-- Source lines 114-130.  The read of the mount table is logged in `procScans`. -/
def Resolver.syncPid (mr : Resolver) (env : Env) (pid : Nat) : Resolver × Option MountError :=
  match env.ParseMountInfoFile pid with
  | none => ({ mr with procScans := mr.procScans ++ [pid] }, some (MountError.ErrProcScan pid))
  | some mnts => (syncPidLoop mnts { mr with procScans := mr.procScans ++ [pid] }, none)

/-- The loop of `syncCache`; `err` is the error of the last failed scan. -/
def syncCacheLoop (env : Env) : List Nat → Resolver → Option MountError → Resolver × Option MountError
  | [], mr, err => (mr, err)
  | pid :: rest, mr, _ =>
    match (mr.syncPid env pid).2 with
    | none => ((mr.syncPid env pid).1, none)
    | some err => syncCacheLoop env rest (mr.syncPid env pid).1 (some err)

/-- Source lines 133-143: the cache is updated from the first process whose scan succeeds. -/
def Resolver.syncCache (mr : Resolver) (env : Env) (pids : List Nat) : Resolver × Option MountError :=
  syncCacheLoop env pids mr none

/-- Source lines 95-112. -/
def Resolver.SyncCache (mr : Resolver) (env : Env) (pid : Nat) : Resolver × Option MountError :=
  if pid == 1 then
    ({ (mr.syncCache env [pid]).1 with
        minMountID := (mr.syncCache env [pid]).1.mounts.ForEach (fun (min : Nat) mountID _ =>
          if min == 0 || min > mountID then (mountID, true) else (min, true))
          (mr.syncCache env [pid]).1.minMountID },
     (mr.syncCache env [pid]).2)
  else mr.syncCache env [pid]

/-- Source lines 370-375. -/
def Resolver.syncCacheMiss (mr : Resolver) (mountID : Nat) : Resolver :=
  { mr with procMissStats := mr.procMissStats + 1, fallbackLimiter := mr.fallbackLimiter.Count mountID }

/-! ## Resolution -/

/-- The part of the resolution that follows a cache miss in `resolveMount`
(source lines 456-478); `pids` are the candidate processes. -/
def Resolver.resolveMountMiss (mr : Resolver) (env : Env) (mountID : Nat) (pids : List Nat) :
    Resolver × Except MountError Ptr :=
  if !mr.opts.UseProcFS then
    ({ mr with cacheMissStats := mr.cacheMissStats + 1 },
      Except.error (MountError.ErrMountNotFound mountID))
  else if !(mr.fallbackLimiter.IsAllowed env mountID).1 then
    ({ mr with cacheMissStats := mr.cacheMissStats + 1,
               fallbackLimiter := (mr.fallbackLimiter.IsAllowed env mountID).2 },
      Except.error (MountError.ErrMountNotFound mountID))
  else
    match Resolver.syncCache
        { mr with
          cacheMissStats := mr.cacheMissStats + 1
          fallbackLimiter := (mr.fallbackLimiter.IsAllowed env mountID).2 } env pids with
    | (mr1, some err) => (mr1.syncCacheMiss mountID, Except.error err)
    | (mr1, none) =>
      match mr1.mounts.Get mountID with
      | some mount => ({ mr1 with procMissStats := mr1.procMissStats + 1 }, Except.ok mount)
      | none => ({ mr1 with procMissStats := mr1.procMissStats + 1 },
                  Except.error (MountError.ErrMountNotFound mountID))

/-- Source lines 434-479. -/
def Resolver.resolveMount (mr : Resolver) (env : Env) (mountID : Nat) (containerID : String)
    (pids : List Nat) : Resolver × Except MountError Ptr :=
  match (mr.IsMountIDValid mountID).2 with
  | some err => (mr, Except.error err)
  | none =>
    match mr.mounts.Get mountID with
    | some mount =>
      ({ mr with cacheHitsStats := mr.cacheHitsStats + 1,
                 redemption := (mr.redemption.Get mountID).1 }, Except.ok mount)
    | none =>
      mr.resolveMountMiss env mountID
        (match env.GetWorkload containerID with
         | some workloadPIDs => pids ++ workloadPIDs
         | none => if containerID.length == 0 then pids ++ [1] else pids)

/-- Source lines 427-432. -/
def Resolver.ResolveMount (mr : Resolver) (env : Env) (mountID pid : Nat) (containerID : String) :
    Resolver × Except MountError Ptr :=
  mr.resolveMount env mountID containerID [pid]

/-- Source lines 202-212. -/
def Resolver.ResolveFilesystem (mr : Resolver) (env : Env) (mountID pid : Nat)
    (containerID : String) : Resolver × String × Option MountError :=
  match mr.resolveMount env mountID containerID [pid] with
  | (mr1, Except.error err) => (mr1, UnknownFS, some err)
  | (mr1, Except.ok mount) => (mr1, (deref mr1.heap mount).GetFSType, none)

/-- Source lines 347-360. -/
def Resolver.ResolveMountRoot (mr : Resolver) (env : Env) (mountID pid : Nat)
    (containerID : String) : Resolver × Except MountError String :=
  match mr.resolveMount env mountID containerID [pid] with
  | (mr1, Except.error err) => (mr1, Except.error err)
  | (mr1, Except.ok mount) => (mr1, Except.ok (deref mr1.heap mount).RootStr)

/-- The part of `resolveMountPath` that follows a failed path construction
(source lines 401-423). -/
def Resolver.resolveMountPathMiss (mr : Resolver) (env : Env) (mountID : Nat) (pids : List Nat) :
    Resolver × Except MountError String :=
  if !mr.opts.UseProcFS then
    ({ mr with cacheMissStats := mr.cacheMissStats + 1 },
      Except.error (MountError.ErrMountNotFound mountID))
  else if !(mr.fallbackLimiter.IsAllowed env mountID).1 then
    ({ mr with cacheMissStats := mr.cacheMissStats + 1,
               fallbackLimiter := (mr.fallbackLimiter.IsAllowed env mountID).2 },
      Except.error (MountError.ErrMountNotFound mountID))
  else
    match Resolver.syncCache
        { mr with
          cacheMissStats := mr.cacheMissStats + 1
          fallbackLimiter := (mr.fallbackLimiter.IsAllowed env mountID).2 } env pids with
    | (mr1, some err) => (mr1.syncCacheMiss mountID, Except.error err)
    | (mr1, none) =>
      match mr1.getMountPath mountID with
      | (mr2, Except.ok path) => ({ mr2 with procHitsStats := mr2.procHitsStats + 1 }, Except.ok path)
      | (mr2, Except.error err) =>
        ({ mr2 with procMissStats := mr2.procMissStats + 1 }, Except.error err)

/-- Source lines 377-424. -/
def Resolver.resolveMountPath (mr : Resolver) (env : Env) (mountID : Nat) (containerID : String)
    (pid : Nat) : Resolver × Except MountError String :=
  match (mr.IsMountIDValid mountID).2 with
  | some err => (mr, Except.error err)
  | none =>
    match mr.getMountPath mountID with
    | (mr1, Except.ok path) =>
      ({ mr1 with cacheHitsStats := mr1.cacheHitsStats + 1,
                  redemption := (mr1.redemption.Get mountID).1 }, Except.ok path)
    | (mr1, Except.error _) =>
      mr1.resolveMountPathMiss env mountID
        (match env.GetWorkload containerID with
         | some workloadPIDs => [pid] ++ workloadPIDs
         | none => if containerID.length == 0 && pid != 1 then [pid] ++ [1] else [pid])

/-- Source lines 363-368. -/
def Resolver.ResolveMountPath (mr : Resolver) (env : Env) (mountID pid : Nat)
    (containerID : String) : Resolver × Except MountError String :=
  mr.resolveMountPath env mountID containerID pid

/-- Source lines 556-577: the counters are read and reset one after the other;
a failure of the metrics client stops the function after the counter it was
given has been reset.  `fails n` tells whether call number `n` of the metrics
client fails; the gauge of the map size is call number 4. -/
def Resolver.SendStats (mr : Resolver) (fails : Nat → Bool) : Resolver × Bool :=
  if fails 0 then ({ mr with cacheHitsStats := 0 }, true)
  else if fails 1 then ({ mr with cacheHitsStats := 0, cacheMissStats := 0 }, true)
  else if fails 2 then
    ({ mr with cacheHitsStats := 0, cacheMissStats := 0, procHitsStats := 0 }, true)
  else
    ({ mr with cacheHitsStats := 0, cacheMissStats := 0, procHitsStats := 0, procMissStats := 0 },
      fails 3 || fails 4)

/-! ## Notions used in the statements -/

/-- The states a resolver goes through: a fresh resolver, then any sequence of
the public operations and of sweeps of the background task. -/
inductive Reachable : Resolver → Prop where
  | init (opts : ResolverOpts) : Reachable (NewResolver opts)
  | Insert (mr : Resolver) (e : Mount) : Reachable mr → Reachable (mr.Insert e).1
  | Delete (mr : Resolver) (now id : Nat) : Reachable mr → Reachable (mr.Delete now id).1
  | dequeue (mr : Resolver) (now : Nat) : Reachable mr → Reachable (mr.dequeue now)
  | SyncCache (mr : Resolver) (env : Env) (pid : Nat) :
      Reachable mr → Reachable (mr.SyncCache env pid).1
  | ResolveMount (mr : Resolver) (env : Env) (id pid : Nat) (containerID : String) :
      Reachable mr → Reachable (mr.ResolveMount env id pid containerID).1
  | ResolveMountPath (mr : Resolver) (env : Env) (id pid : Nat) (containerID : String) :
      Reachable mr → Reachable (mr.ResolveMountPath env id pid containerID).1
  | ResolveMountRoot (mr : Resolver) (env : Env) (id pid : Nat) (containerID : String) :
      Reachable mr → Reachable (mr.ResolveMountRoot env id pid containerID).1
  | ResolveFilesystem (mr : Resolver) (env : Env) (id pid : Nat) (containerID : String) :
      Reachable mr → Reachable (mr.ResolveFilesystem env id pid containerID).1
  | SendStats (mr : Resolver) (fails : Nat → Bool) :
      Reachable mr → Reachable (mr.SendStats fails).1

/-- Two records that differ at most in their cached path. -/
def SameButPath (a b : Mount) : Prop :=
  a.MountID = b.MountID ∧ a.Device = b.Device ∧ a.ParentMountID = b.ParentMountID ∧
    a.FSType = b.FSType ∧ a.MountPointStr = b.MountPointStr ∧ a.RootStr = b.RootStr

/-- Keys of a map. -/
def MountMap.keys (m : MountMap) : List Nat := m.entries.map Prod.fst

/-- Number of bindings of the map whose mount ID was not visited yet. -/
def unvisited (m : MountMap) (cache : List Nat) : Nat :=
  (m.keys.filter (fun k => !cache.contains k)).length

/-- Well-formed map: one binding per mount ID, and every binding is keyed by the
mount ID of its record. -/
def MapWF (heap : List Mount) (m : MountMap) : Prop :=
  m.keys.Nodup ∧ ∀ e ∈ m.entries, (deref heap e.2).MountID = e.1

/-- The test of the first visitor of `finalize` (source lines 158-159). -/
def isChildOf (heap : List Mount) (mounts : MountMap) (id : Nat) (e : Nat × Ptr) : Bool :=
  (deref heap e.2).ParentMountID == id && mounts.Contains (deref heap e.2).MountID

/-- The test of the second visitor of `finalize` (source line 172). -/
def isDeviceSibling (heap : List Mount) (curr : Ptr) (e : Nat × Ptr) : Bool :=
  (deref heap curr).Device == (deref heap e.2).Device
    && (deref heap curr).MountID != (deref heap e.2).MountID

/-- What one round of `finalize` pushes on the work stack, top first. -/
def pushList (heap : List Mount) (curr : Ptr) (mounts : MountMap) : List Ptr :=
  (if (deref heap curr).IsOverlayFS then
      ((mounts.entries.filter (isDeviceSibling heap curr)).map Prod.snd).reverse else [])
    ++ ((mounts.entries.filter (isChildOf heap mounts (deref heap curr).MountID)).map Prod.snd).reverse

/-- A record of the work stack is live when the map binds its mount ID to it. -/
def LiveIn (heap : List Mount) (m : MountMap) (x : Ptr) : Prop :=
  ((deref heap x).MountID, x) ∈ m.entries

/-- Invariant of the work stack of `finalize` after its first round: a record on
the stack is live, or its mount ID is gone from the map and whatever it would
push is on the stack above it. -/
def GoodStack (heap : List Mount) (q : List Ptr) (m : MountMap) : Prop :=
  ∀ above x below, q = above ++ x :: below →
    LiveIn heap m x ∨
      ((deref heap x).MountID ∉ m.keys ∧ ∀ c ∈ pushList heap x m, c ∈ above)

/-- Invariant of the loop of `finalize` for a set `dead` of mount IDs: none is
in the map, and every live record whose parent is dead is on the work stack. -/
def DeadInv (heap : List Mount) (dead : List Nat) (q : List Ptr) (m : MountMap) : Prop :=
  (∀ k ∈ dead, k ∉ m.keys) ∧
    ∀ e ∈ m.entries, (deref heap e.2).ParentMountID ∈ dead → e.2 ∈ q

/-- The mount ID `k` is live in the map and its chain of parent mount IDs,
followed in the map, reaches the mount ID `target`. -/
inductive ChainTo (heap : List Mount) (m : MountMap) (target : Nat) : Nat → Prop where
  | child (k : Nat) (p : Ptr) : m.Get k = some p → (deref heap p).ParentMountID = target →
      ChainTo heap m target k
  | step (k : Nat) (p : Ptr) : m.Get k = some p →
      ChainTo heap m target (deref heap p).ParentMountID → ChainTo heap m target k

instance (heap : List Mount) (m : MountMap) : Decidable (MapWF heap m) :=
  inferInstanceAs (Decidable (m.keys.Nodup ∧ ∀ e ∈ m.entries, (deref heap e.2).MountID = e.1))

/-- A map `r` is closed in `m` when it is a part of `m` and no record of `r` has
a parent mount ID that is live in `m` and gone from `r`. -/
def ClosedIn (heap : List Mount) (m r : MountMap) : Prop :=
  (∀ e ∈ r.entries, e ∈ m.entries) ∧
    ∀ k ∈ m.keys, k ∉ r.keys → ∀ e ∈ r.entries, (deref heap e.2).ParentMountID ≠ k

/-- Well-formed resolver state: the mount map is well formed, and the map and
the redemption LRU hold pointers into the heap, each redemption entry being
keyed by the mount ID of its record. -/
def Resolver.WF (mr : Resolver) : Prop :=
  MapWF mr.heap mr.mounts ∧
  (∀ e ∈ mr.mounts.entries, e.2 < mr.heap.length) ∧
  (∀ e ∈ mr.redemption.items, (deref mr.heap e.2).MountID = e.1 ∧ e.2 < mr.heap.length)

instance (mr : Resolver) : Decidable mr.WF :=
  inferInstanceAs (Decidable (MapWF mr.heap mr.mounts ∧
    (∀ e ∈ mr.mounts.entries, e.2 < mr.heap.length) ∧
    (∀ e ∈ mr.redemption.items, (deref mr.heap e.2).MountID = e.1 ∧ e.2 < mr.heap.length)))

/-- The link from a mount `a` to the next mount `b` down a chain: `a` is the
parent of `b`, which is not a root and has no cached path. -/
def ChildLink (mr : Resolver) (a b : Nat × Ptr) : Prop :=
  (deref mr.heap b.2).ParentMountID = a.1 ∧ (deref mr.heap b.2).MountPointStr ≠ "/" ∧
    (deref mr.heap b.2).Path = ""

instance (mr : Resolver) (a b : Nat × Ptr) : Decidable (ChildLink mr a b) :=
  inferInstanceAs (Decidable ((deref mr.heap b.2).ParentMountID = a.1 ∧
    (deref mr.heap b.2).MountPointStr ≠ "/" ∧ (deref mr.heap b.2).Path = ""))

/-- A chain of live mounts `m_0, ..., m_k`, root first, given by mount ID and
record: distinct valid mount IDs, `m_0` has mount point "/" and no cached path
other than "/", and every other mount is linked to the one before it. -/
structure PathChain (mr : Resolver) (chain : List (Nat × Ptr)) : Prop where
  distinct : (chain.map Prod.fst).Nodup
  live : ∀ m ∈ chain, (mr.IsMountIDValid m.1).2 = none ∧ mr.mounts.Get m.1 = some m.2
  root : ∃ m0, chain.head? = some m0 ∧ (deref mr.heap m0.2).MountPointStr = "/" ∧
    ((deref mr.heap m0.2).Path = "" ∨ (deref mr.heap m0.2).Path = "/")
  links : chain.Chain' (ChildLink mr)

/-- The join, cleaned at every step, of "/" with the mount points of
`m_1, ..., m_k` in that order. -/
def chainPath (mr : Resolver) (chain : List (Nat × Ptr)) : String :=
  (chain.tail.map (fun m => (deref mr.heap m.2).MountPointStr)).foldl
    (fun acc point => Join [acc, point]) "/"

/-- A path element that `path.Clean` keeps: not empty, without separator,
neither "." nor "..". -/
def RealElem (c : List Char) : Prop := c ≠ [] ∧ '/' ∉ c ∧ c ≠ ['.'] ∧ c ≠ ['.', '.']

/-- Reversed output buffer of `path.Clean` on a rooted path whose elements kept
so far are `stack`, the last one first. -/
def rootedBuf : List (List Char) → List Char
  | [] => ['/']
  | [c] => c.reverse ++ ['/']
  | c :: d :: rest => c.reverse ++ '/' :: rootedBuf (d :: rest)

/-- What one path element does to the elements kept so far. -/
def stackStep (stack : List (List Char)) (comp : List Char) : List (List Char) :=
  if comp == [] then stack
  else if comp == ['.'] then stack
  else if comp == ['.', '.'] then stack.tail
  else comp :: stack

/-! ## Operations, elementary steps and what they preserve -/

/-- The candidate processes that `resolveMount` offers to the proc scan (source
lines 439-445), from the processes it was called with. -/
def resolveMountCandidates (env : Env) (containerID : String) (pids : List Nat) : List Nat :=
  match env.GetWorkload containerID with
  | some workloadPIDs => pids ++ workloadPIDs
  | none => if containerID.length == 0 then pids ++ [1] else pids

/-- The candidate processes that `resolveMountPath` offers to the proc scan
(source lines 382-390). -/
def resolveMountPathCandidates (env : Env) (containerID : String) (pid : Nat) : List Nat :=
  match env.GetWorkload containerID with
  | some workloadPIDs => [pid] ++ workloadPIDs
  | none => if containerID.length == 0 && pid != 1 then [pid] ++ [1] else [pid]

/-- A state with its delete queue replaced. -/
def Resolver.withDeleteQueue (mr : Resolver) (q : List deleteRequest) : Resolver :=
  { mr with deleteQueue := q }

/-- Whether a delete request is due at `now`. -/
def deleteRequest.due (now : Nat) (r : deleteRequest) : Bool := decide (r.timeoutAt ≤ now)

/-- A mount on which path construction goes on to the parent unless the mount
was already visited: valid, live, without cached path and with a mount point
other than "/". -/
def LoopNode (mr : Resolver) (id : Nat) : Prop :=
  (mr.IsMountIDValid id).2 = none ∧
  ∃ p, mr.mounts.Get id = some p ∧ (deref mr.heap p).Path = "" ∧
    (deref mr.heap p).MountPointStr ≠ "/"

/-- Parent chain that returns to a mount already visited: `chain` lists the
mount IDs from the starting one on, without repetition, each the parent of the
one before; every mount of the chain is live, valid, without cached path, with
a mount point other than "/" and a non-zero parent, and the parent of the last
one is in the chain. -/
structure LoopChain (mr : Resolver) (chain : List Nat) : Prop where
  distinct : chain.Nodup
  nodes : ∀ id ∈ chain, LoopNode mr id
  parents : ∀ id ∈ chain, ∀ p, mr.mounts.Get id = some p → (deref mr.heap p).ParentMountID ≠ 0
  links : List.Chain' (fun a b => ∀ p, mr.mounts.Get a = some p →
    (deref mr.heap p).ParentMountID = b) chain
  back : ∃ last p, chain.getLast? = some last ∧ mr.mounts.Get last = some p ∧
    (deref mr.heap p).ParentMountID ∈ chain

/-- The public operations of the resolver and the sweep of its background task,
with their arguments and the environment they run in. -/
inductive Op where
  | Insert (e : Mount)
  | Delete (now id : Nat)
  | dequeue (now : Nat)
  | SyncCache (env : Env) (pid : Nat)
  | ResolveMount (env : Env) (id pid : Nat) (containerID : String)
  | ResolveMountPath (env : Env) (id pid : Nat) (containerID : String)
  | ResolveMountRoot (env : Env) (id pid : Nat) (containerID : String)
  | ResolveFilesystem (env : Env) (id pid : Nat) (containerID : String)
  | SendStats (fails : Nat → Bool)

/-- The state after an operation. -/
def Resolver.perform (mr : Resolver) : Op → Resolver
  | Op.Insert e => (mr.Insert e).1
  | Op.Delete now id => (mr.Delete now id).1
  | Op.dequeue now => mr.dequeue now
  | Op.SyncCache env pid => (mr.SyncCache env pid).1
  | Op.ResolveMount env id pid containerID => (mr.ResolveMount env id pid containerID).1
  | Op.ResolveMountPath env id pid containerID => (mr.ResolveMountPath env id pid containerID).1
  | Op.ResolveMountRoot env id pid containerID => (mr.ResolveMountRoot env id pid containerID).1
  | Op.ResolveFilesystem env id pid containerID => (mr.ResolveFilesystem env id pid containerID).1
  | Op.SendStats fails => (mr.SendStats fails).1

/-- The mount IDs that a list of parsed mount table lines brings. -/
def scannedIDs (mnts : List MountInfo) (k : Nat) : Prop := ∃ mnt ∈ mnts, k = mnt.ID % 2 ^ 32

/-- The mount IDs that the readable mount tables of an environment list. -/
def Env.lists (env : Env) (k : Nat) : Prop :=
  ∃ pid mnts, env.ParseMountInfoFile pid = some mnts ∧ scannedIDs mnts k

/-- The mount IDs that an operation can insert: that of the record for `Insert`,
which refuses the mount ID 0, and those of the readable mount tables for the
operations that may scan. -/
def Op.inserts : Op → Nat → Prop
  | Op.Insert e, k => k = e.MountID ∧ k ≠ 0
  | Op.Delete _ _, _ => False
  | Op.dequeue _, _ => False
  | Op.SyncCache env _, k => env.lists k
  | Op.ResolveMount env _ _ _, k => env.lists k
  | Op.ResolveMountPath env _ _ _, k => env.lists k
  | Op.ResolveMountRoot env _ _ _, k => env.lists k
  | Op.ResolveFilesystem env _ _ _, k => env.lists k
  | Op.SendStats _, _ => False

/-- What every operation guarantees between the state `s` before and the state
`t` after, `ins` being the mount IDs it can insert: records are only added to
the heap, a record with a cached path is never written again, a live mount ID
was live before or was inserted, and the floor of the mount IDs is what it was, or
a mount ID that was live, or an inserted one. -/
structure Evolves (ins : Nat → Prop) (s t : Resolver) : Prop where
  heapLen : s.heap.length ≤ t.heap.length
  cached : ∀ ptr, ptr < s.heap.length → (deref s.heap ptr).Path ≠ "" →
    deref t.heap ptr = deref s.heap ptr
  keys : ∀ k ∈ t.mounts.keys, k ∈ s.mounts.keys ∨ ins k
  floor : t.minMountID = s.minMountID ∨ t.minMountID ∈ s.mounts.keys ∨ ins t.minMountID

/-- The visitor of `SyncCache` (source lines 103-108). -/
def floorVisit (min mountID : Nat) (_ : Ptr) : Nat × Bool :=
  if min == 0 || min > mountID then (mountID, true) else (min, true)

/-- The elementary steps that the operations are made of, `ins` being the mount
IDs that may be inserted: a step that writes no record, keeps the floor of the
mount IDs and removes bindings from the map (it may change the redemption
cache, the delete queue, the limiter and the counters); the allocation of a
record; `insert` of an allocated record; the computation of the floor by
`SyncCache`; a path construction. -/
inductive Steps (ins : Nat → Prop) : Resolver → Resolver → Prop where
  | refl (s : Resolver) : Steps ins s s
  | trans (s t u : Resolver) : Steps ins s t → Steps ins t u → Steps ins s u
  | shrink (s t : Resolver) : t.heap = s.heap → t.minMountID = s.minMountID →
      t.mounts.entries.Sublist s.mounts.entries → Steps ins s t
  | alloc (s : Resolver) (e : Mount) : Steps ins s (s.alloc e).1
  | insert (s : Resolver) (m : Ptr) : m < s.heap.length → ins (deref s.heap m).MountID →
      Steps ins s (s.insert m)
  | floor (s : Resolver) :
      Steps ins s { s with minMountID := s.mounts.ForEach floorVisit s.minMountID }
  | path (s : Resolver) (id : Nat) : Steps ins s (s.getMountPath id).1

/-- The floor of the mount IDs is below every live mount ID, and no live mount
has the ID 0. -/
def FloorInv (s : Resolver) : Prop := ∀ k ∈ s.mounts.keys, k ≠ 0 ∧ s.minMountID ≤ k

/-- What a proc merge guarantees between the state `s` before and the state `t`
after: the records are kept and records are only added, every binding of the
map is kept, the floor of the mount IDs is only lowered, an unset floor stays
unset, and a lowered floor is a live mount ID. -/
structure Grows (s t : Resolver) : Prop where
  heapLen : s.heap.length ≤ t.heap.length
  records : ∀ ptr, ptr < s.heap.length → deref t.heap ptr = deref s.heap ptr
  bindings : ∀ k p, s.mounts.Get k = some p → t.mounts.Get k = some p
  floorLe : t.minMountID ≤ s.minMountID
  unset : s.minMountID = 0 → t.minMountID = 0
  floor : t.minMountID = s.minMountID ∨ t.minMountID ∈ t.mounts.keys

/-- Path resolution of `id` in the state `t` returns `p` from the record: the
first call of the path construction returns it, without a call on the parent,
and changes nothing, and so do `getMountPath` and `ResolveMountPath`. -/
def ReturnsCached (t : Resolver) (id : Nat) (p : String) : Prop :=
  (∀ cache, t._getMountPath 1 id cache = some (t, Except.ok p)) ∧
  t.getMountPath id = (t, Except.ok p) ∧
  ∀ (env : Env) (pid : Nat) (containerID : String),
    (t.ResolveMountPath env id pid containerID).2 = Except.ok p

/-- The state `t` has the options, the delete queue, the limiter and the four
counters of the state `s`. -/
def SameCounters (s t : Resolver) : Prop :=
  t.opts = s.opts ∧ t.deleteQueue = s.deleteQueue ∧ t.fallbackLimiter = s.fallbackLimiter ∧
  t.cacheHitsStats = s.cacheHitsStats ∧ t.cacheMissStats = s.cacheMissStats ∧
  t.procHitsStats = s.procHitsStats ∧ t.procMissStats = s.procMissStats

/-! ## Example states -/

/-- A record with no cached path, as a kernel event delivers it. -/
def mountOf (id parent device : Nat) (fstype point : String) : Mount :=
  { MountID := id, Device := device, ParentMountID := parent, FSType := fstype,
    MountPointStr := point, Path := "", RootStr := "/" }

/-- Environment with no workload, no readable mount table and a limiter that denies. -/
def quietEnv : Env :=
  { GetWorkload := fun _ => none, ParseMountInfoFile := fun _ => none,
    limiterAllows := fun _ _ => false }

/-- A state with a full redemption cache.  It is reached from `NewResolver` by
inserting mount 3000 and its children 1 to 1024, deleting the children at time
0, sweeping at 5 s (the 1024 children fill the redemption cache, 1 being the
oldest entry), inserting mount 3000 again (which finalizes the first record of
3000 and with it the children, that stay in the redemption cache), inserting
mount 2000 as a child of mount ID 1, and deleting 3000 at 6 s. -/
def fullRedemption : Resolver :=
  { opts := ⟨false⟩
    heap := [mountOf 3000 0 0 "ext4" ""]
      ++ (List.range 1024).map (fun j => mountOf (j + 1) 3000 0 "ext4" "x")
      ++ [mountOf 3000 0 0 "ext4" "", mountOf 2000 1 0 "ext4" "data"]
    mounts := ⟨[(3000, 1025), (2000, 1026)]⟩
    deleteQueue := [⟨1025, 11000000000⟩]
    minMountID := 0
    redemption := ⟨1024, (List.range 1024).reverse.map (fun j => (j + 1, j + 1))⟩
    fallbackLimiter := ⟨[]⟩
    cacheHitsStats := 0
    cacheMissStats := 0
    procHitsStats := 0
    procMissStats := 0
    procScans := [] }

/-- A root with a cached path: mount 1 has mount point "/" and cached path
"/foo", and mount 2 is its child with mount point "data". -/
def cachedRoot : Resolver :=
  (((NewResolver ⟨false⟩).Insert
    { mountOf 1 0 0 "ext4" "/" with Path := "/foo" }).1.Insert (mountOf 2 1 0 "ext4" "data")).1

/-- The scenario of the spec: root mount 1 with mount point "/" and its child
mount 2 with mount point "data", inserted in a fresh resolver. -/
def rootAndData : Resolver :=
  (((NewResolver ⟨false⟩).Insert (mountOf 1 0 0 "ext4" "/")).1.Insert
    (mountOf 2 1 0 "ext4" "data")).1

/-- Three levels and a bystander: mount 1, its child 2, the child 3 of 2, and an
unrelated mount 4. -/
def threeLevels : Resolver :=
  (((((NewResolver ⟨false⟩).Insert (mountOf 1 0 0 "ext4" "/")).1.Insert
    (mountOf 2 1 0 "ext4" "a")).1.Insert (mountOf 3 2 0 "ext4" "b")).1.Insert
    (mountOf 4 0 0 "ext4" "c")).1

/-- Two overlay mounts 1 and 2 on device 7, unrelated by parent chain, and a
mount 3 on device 8. -/
def overlayPair : Resolver :=
  ((((NewResolver ⟨false⟩).Insert (mountOf 1 0 7 "overlay" "/")).1.Insert
    (mountOf 2 0 7 "overlay" "/merged")).1.Insert (mountOf 3 0 8 "ext4" "/var")).1

/-- Environment whose limiter allows every scan and where no mount table can be read. -/
def unreadableEnv : Env :=
  { GetWorkload := fun _ => none, ParseMountInfoFile := fun _ => none,
    limiterAllows := fun _ _ => true }

/-- Environment whose limiter allows every scan and where the mount table of
process 7 alone can be read; it lists mount 5. -/
def listingEnv : Env :=
  { GetWorkload := fun _ => none
    ParseMountInfoFile := fun pid =>
      if pid == 7 then some [⟨5, 1, 8, 0, "/", "/data", "ext4"⟩] else none
    limiterAllows := fun _ _ => true }

/-- The state after `Insert` of a mount of ID 3 whose parent is itself, and of
two mounts 4 and 6 that are parents of each other. -/
def loopedMounts : Resolver :=
  ((((NewResolver ⟨false⟩).Insert (mountOf 3 3 8 "ext4" "a")).1.Insert
    (mountOf 4 6 8 "ext4" "b")).1.Insert (mountOf 6 4 8 "ext4" "c")).1

/-- Environment where the mount table of process 1 alone can be read; it lists
mount 20, the root. -/
def bootEnv : Env :=
  { GetWorkload := fun _ => none
    ParseMountInfoFile := fun pid =>
      if pid == 1 then some [⟨20, 1, 8, 0, "/", "/", "ext4"⟩] else none
    limiterAllows := fun _ _ => true }

/-- The state after `SyncCache(1)` on a fresh resolver in `bootEnv`: mount 20 is
live and the floor of the mount IDs is 20. -/
def booted : Resolver := ((NewResolver ⟨false⟩).SyncCache bootEnv 1).1

/-- Environment where the mount table of process 1 lists the mounts 23, 20 and 25. -/
def threeMountsEnv : Env :=
  { GetWorkload := fun _ => none
    ParseMountInfoFile := fun pid =>
      if pid == 1 then
        some [⟨23, 20, 8, 1, "/", "/home", "ext4"⟩, ⟨20, 1, 8, 0, "/", "/", "ext4"⟩,
          ⟨25, 20, 0, 5, "/", "/proc", "proc"⟩]
      else none
    limiterAllows := fun _ _ => true }

/-- The state after a scan of process 1 that lists mount 20, the insertion of
mount 30 and of its child 5, and a second insertion of mount 30, which
finalizes the first record of mount 30 with its child: the floor of the mount
IDs is 5 and the mounts 20 and 30 are live. -/
def staleFloor : Resolver :=
  [Op.SyncCache bootEnv 1, Op.Insert (mountOf 30 20 8 "ext4" "data"),
    Op.Insert (mountOf 5 30 8 "ext4" "sub"),
    Op.Insert (mountOf 30 20 8 "ext4" "data")].foldl Resolver.perform (NewResolver ⟨false⟩)

/-! ## Timestamps (`pkg/network/http/model_windows.go`) -/

/-- Source line 258 of `model_windows.go`: `1 << 10`. -/
def roundMask : Nat := 1 <<< 10

/-- The loop of `nsTimestampToFloat` (source lines 263-266 of
`model_windows.go`), run for at most `fuel` rounds: `ns` is halved and `shift`
counted up while `ns` is above `roundMask`.  Returns `ns` and `shift`. -/
def nsTimestampLoop : Nat → Nat → Nat → Nat × Nat
  | 0, ns, shift => (ns, shift)
  | fuel + 1, ns, shift =>
    if ns > roundMask then nsTimestampLoop fuel (ns >>> 1) (shift + 1) else (ns, shift)

/-- The unsigned 64-bit integer that `nsTimestampToFloat` converts to a float
(source line 267 of `model_windows.go`): `ns << shift` after the loop.  A 64-bit
value is at most `roundMask` after 54 halvings, so 64 rounds are enough
(`nsTimestampLoop_spec`). -/
def nsTimestampTrunc (ns : Nat) : Nat :=
  ((nsTimestampLoop 64 ns 0).1 <<< (nsTimestampLoop 64 ns 0).2) % 2 ^ 64

/-! ## Notions used in the statements on the delete queue, finalization and the redemption cache -/

/-- The time that an operation reads from the clock to set a deadline: `Delete`
alone does. -/
def Op.deleteTime : Op → Option Nat
  | Op.Delete now _ => some now
  | _ => none

/-- The operations of a sequence that read the clock to set a deadline read
non-decreasing times. -/
def ClockOrdered (ops : List Op) : Prop :=
  (ops.filterMap Op.deleteTime).Pairwise (fun a b => a ≤ b)

/-- The deadlines of a delete queue are non-decreasing from head to tail. -/
def DeadlineOrdered (q : List deleteRequest) : Prop :=
  q.Pairwise (fun a b => a.timeoutAt ≤ b.timeoutAt)

/-- The records that can be reached from the record `first` in the map `m`: the
record itself, the records of `m` whose parent mount ID is the mount ID of a
reached record, and the records of `m` that share the device number of a
reached overlay record. -/
inductive FinReach (heap : List Mount) (m : MountMap) (first : Ptr) : Ptr → Prop where
  | first : FinReach heap m first first
  | child (x : Ptr) (e : Nat × Ptr) : FinReach heap m first x → e ∈ m.entries →
      (deref heap e.2).ParentMountID = (deref heap x).MountID → FinReach heap m first e.2
  | device (x : Ptr) (e : Nat × Ptr) : FinReach heap m first x →
      (deref heap x).IsOverlayFS = true → e ∈ m.entries →
      (deref heap x).Device = (deref heap e.2).Device → FinReach heap m first e.2

/-- Every entry of the redemption cache is the record that the map binds to its key. -/
def RedemptionLive (s : Resolver) : Prop :=
  ∀ e ∈ s.redemption.items, s.mounts.Get e.1 = some e.2

instance (s : Resolver) : Decidable (RedemptionLive s) :=
  inferInstanceAs (Decidable (∀ e ∈ s.redemption.items, s.mounts.Get e.1 = some e.2))

/-- From the state `s` to the state `t` every binding of the map is kept and no
entry is added to the redemption cache. -/
def Keeps (s t : Resolver) : Prop :=
  (∀ k p, s.mounts.Get k = some p → t.mounts.Get k = some p) ∧
    ∀ e ∈ t.redemption.items, e ∈ s.redemption.items

/-- An operation that runs no finalization in the state `s`: an `Insert` of a
mount ID that is not live, a sweep for which the redemption cache has room, or
any other operation. -/
def Op.quiet (s : Resolver) : Op → Prop
  | Op.Insert e => s.mounts.Get e.MountID = none
  | Op.dequeue _ => s.redemption.items.length + s.deleteQueue.length ≤ s.redemption.size
  | _ => True

/-- A sequence of operations none of which runs a finalization, from the state `s`. -/
def QuietRun : Resolver → List Op → Prop
  | _, [] => True
  | s, op :: rest => op.quiet s ∧ QuietRun (s.perform op) rest

instance (s : Resolver) : (op : Op) → Decidable (op.quiet s)
  | Op.Insert e => inferInstanceAs (Decidable (s.mounts.Get e.MountID = none))
  | Op.dequeue _ => inferInstanceAs
      (Decidable (s.redemption.items.length + s.deleteQueue.length ≤ s.redemption.size))
  | Op.Delete _ _ => isTrue trivial
  | Op.SyncCache _ _ => isTrue trivial
  | Op.ResolveMount _ _ _ _ => isTrue trivial
  | Op.ResolveMountPath _ _ _ _ => isTrue trivial
  | Op.ResolveMountRoot _ _ _ _ => isTrue trivial
  | Op.ResolveFilesystem _ _ _ _ => isTrue trivial
  | Op.SendStats _ => isTrue trivial

/-- Decision of `QuietRun`. -/
def QuietRun.decide : (ops : List Op) → (s : Resolver) → Decidable (QuietRun s ops)
  | [], _ => isTrue trivial
  | op :: rest, s => @instDecidableAnd _ _ inferInstance (QuietRun.decide rest (s.perform op))

instance (s : Resolver) (ops : List Op) : Decidable (QuietRun s ops) := QuietRun.decide ops s

/-! ## More example states -/

/-- Environment where the mount table of process 1 lists a mount of ID 0 and
the mount 7. -/
def zeroMountEnv : Env :=
  { GetWorkload := fun _ => none
    ParseMountInfoFile := fun pid =>
      if pid == 1 then
        some [⟨0, 0, 0, 1, "/", "/", "rootfs"⟩, ⟨7, 1, 8, 0, "/", "/mnt", "ext4"⟩]
      else none
    limiterAllows := fun _ _ => true }

/-- Three overlay mounts on device 7: mount 3 is its own parent, and the mounts 4
and 6 are parents of each other. -/
def tangledOverlays : Resolver :=
  ((((NewResolver ⟨false⟩).Insert (mountOf 3 3 7 "overlay" "a")).1.Insert
    (mountOf 4 6 7 "overlay" "b")).1.Insert (mountOf 6 4 7 "overlay" "c")).1

/-- Environment where the mount table of process 7 alone can be read; it lists
mount 1 with another mount point, and mount 5 twice with two mount points. -/
def repeatingEnv : Env :=
  { GetWorkload := fun _ => none
    ParseMountInfoFile := fun pid =>
      if pid == 7 then
        some [⟨1, 0, 8, 0, "/", "/other", "ext4"⟩, ⟨5, 1, 8, 0, "/", "/data", "ext4"⟩,
          ⟨5, 1, 8, 0, "/", "/again", "ext4"⟩]
      else none
    limiterAllows := fun _ _ => true }

/-- The state after mount 1 and its child 2 are inserted, mount 2 is deleted at
time 0 and swept at 5 s, and mount 1 is inserted again: the second `Insert` of
mount 1 finalizes the first record of mount 1 and with it mount 2, whose record
stays in the redemption cache. -/
def staleRedemption : Resolver :=
  [Op.Insert (mountOf 1 0 8 "ext4" "/"), Op.Insert (mountOf 2 1 8 "ext4" "data"),
    Op.Delete 0 2, Op.dequeue deleteDelayTime,
    Op.Insert (mountOf 1 0 8 "ext4" "/")].foldl Resolver.perform (NewResolver ⟨false⟩)

/-- The state after the same insertions as `loopedMounts` in a resolver whose
proc fallback is enabled. -/
def loopedMountsProc : Resolver :=
  ((((NewResolver ⟨true⟩).Insert (mountOf 3 3 8 "ext4" "a")).1.Insert
    (mountOf 4 6 8 "ext4" "b")).1.Insert (mountOf 6 4 8 "ext4" "c")).1

/-! ## Heap and map lemmas -/

theorem deref_alloc (h : List Mount) (e : Mount) : deref (h ++ [e]) h.length = e := by
  simp [deref, List.getD]

theorem deref_set_self (h : List Mount) (p : Ptr) (x : Mount) (hp : p < h.length) :
    deref (h.set p x) p = x := by
  simp [deref, List.getD, hp]

theorem deref_set_other (h : List Mount) (p q : Ptr) (x : Mount) (hpq : p ≠ q) :
    deref (h.set p x) q = deref h q := by
  simp [deref, List.getD, List.getElem?_set_ne hpq]

theorem deref_append_old (h : List Mount) (e : Mount) (p : Ptr) (hp : p < h.length) :
    deref (h ++ [e]) p = deref h p := by
  simp [deref, List.getD, List.getElem?_append_left hp]

theorem lookup_filter_ne (l : List (Nat × Ptr)) (id k : Nat) :
    (l.filter (fun e => e.1 != id)).lookup k = if k = id then none else l.lookup k := by
  induction l with
  | nil => simp
  | cons e rest ih =>
    obtain ⟨a, b⟩ := e
    by_cases h : a = id
    · subst h
      by_cases hk : k = a
      · simp [List.filter, hk] at ih ⊢
        simpa [hk] using ih
      · have h2 : (k == a) = false := by simpa using hk
        simp [List.filter, List.lookup_cons, h2, ih, hk]
    · have h1 : (a != id) = true := by simpa using h
      by_cases hk : k = a
      · subst hk
        simp [List.filter, h1, h]
      · have h2 : (k == a) = false := by simpa using hk
        simp [List.filter, h1, List.lookup_cons, h2, ih]

theorem Get_Delete (m : MountMap) (id k : Nat) :
    (m.Delete id).Get k = if k = id then none else m.Get k := by
  simp [MountMap.Delete, MountMap.Get, lookup_filter_ne]

theorem Get_Insert (m : MountMap) (id k : Nat) (p : Ptr) :
    (m.Insert id p).Get k = if k = id then some p else m.Get k := by
  simp only [MountMap.Insert, MountMap.Get, MountMap.Delete, List.lookup_append, lookup_filter_ne]
  by_cases hk : k = id
  · simp [hk]
  · have h2 : (k == id) = false := by simpa using hk
    simp [hk, List.lookup_cons, h2]

/-! ## Frame lemmas of insertion -/

@[simp] theorem finalize_heap (mr : Resolver) (p : Ptr) : (mr.finalize p).heap = mr.heap := rfl
@[simp] theorem finalize_minMountID (mr : Resolver) (p : Ptr) : (mr.finalize p).minMountID = mr.minMountID := rfl
@[simp] theorem onEvict_heap (mr : Resolver) (ev : Option (Nat × Ptr)) : (mr.onEvict ev).heap = mr.heap := by
  cases ev <;> rfl
@[simp] theorem onEvict_minMountID (mr : Resolver) (ev : Option (Nat × Ptr)) : (mr.onEvict ev).minMountID = mr.minMountID := by
  cases ev <;> rfl
@[simp] theorem insertUmount_heap (mr : Resolver) (m : Ptr) : (mr.insertUmount m).heap = mr.heap := by
  unfold Resolver.insertUmount
  split
  · split <;> simp
  · rfl
@[simp] theorem insertUmount_minMountID (mr : Resolver) (m : Ptr) : (mr.insertUmount m).minMountID = mr.minMountID := by
  unfold Resolver.insertUmount
  split
  · split <;> simp
  · rfl

theorem insert_heap (mr : Resolver) (m : Ptr) :
    (mr.insert m).heap = mr.heap.set m (normalizeMount (deref mr.heap m)) := by
  unfold Resolver.insert
  simp only []
  split <;> simp

theorem normalizeMount_MountID (e : Mount) : (normalizeMount e).MountID = e.MountID := by
  unfold normalizeMount; split <;> rfl

theorem insert_Get (mr : Resolver) (m : Ptr) (hm : m < mr.heap.length) :
    (mr.insert m).mounts.Get (deref mr.heap m).MountID = some m := by
  unfold Resolver.insert
  simp only []
  split <;> simp [deref_set_self, hm, normalizeMount_MountID, Get_Insert]

theorem insert_minMountID_le (mr : Resolver) (m : Ptr) (hm : m < mr.heap.length) :
    (mr.insert m).minMountID ≤ (deref mr.heap m).MountID := by
  unfold Resolver.insert
  simp only []
  split
  · simp [deref_set_self, hm, normalizeMount_MountID]
  · rename_i h
    simp [deref_set_self, hm, normalizeMount_MountID] at h ⊢
    exact h

/-! ## The loop of finalize -/

theorem forEachLoop_push (c : Nat × Ptr → Bool) (visit : List Ptr → Nat → Ptr → List Ptr × Bool)
    (hv : ∀ q k p, visit q k p = (if c (k, p) then p :: q else q, true))
    (l : List (Nat × Ptr)) (q : List Ptr) :
    forEachLoop visit l q = ((l.filter c).map Prod.snd).reverse ++ q := by
  induction l generalizing q with
  | nil => simp [forEachLoop]
  | cons e rest ih =>
    obtain ⟨k, p⟩ := e
    simp only [forEachLoop, hv, if_true, ih]
    by_cases hc : c (k, p) <;> simp [List.filter, hc]

theorem finalizeStep_eq (heap : List Mount) (curr : Ptr) (rest : List Ptr) (mounts : MountMap) :
    finalizeStep heap curr rest mounts =
      (pushList heap curr (mounts.Delete (deref heap curr).MountID) ++ rest,
        mounts.Delete (deref heap curr).MountID) := by
  unfold finalizeStep pushList MountMap.ForEach
  simp only []
  have h1 : ∀ q, forEachLoop (fun (q : List Ptr) _ child =>
      if (deref heap child).ParentMountID == (deref heap curr).MountID then
        if (mounts.Delete (deref heap curr).MountID).Contains (deref heap child).MountID then
          (child :: q, true) else (q, true)
      else (q, true)) (mounts.Delete (deref heap curr).MountID).entries q
      = (((mounts.Delete (deref heap curr).MountID).entries.filter
          (isChildOf heap (mounts.Delete (deref heap curr).MountID) (deref heap curr).MountID)).map
            Prod.snd).reverse ++ q := by
    intro q
    apply forEachLoop_push
    intro q k p
    unfold isChildOf
    by_cases ha : (deref heap p).ParentMountID == (deref heap curr).MountID <;>
      by_cases hb : (mounts.Delete (deref heap curr).MountID).Contains (deref heap p).MountID <;>
      simp [ha, hb]
  have h2 : ∀ q, forEachLoop (fun (q : List Ptr) _ deviceMount =>
      if (deref heap curr).Device == (deref heap deviceMount).Device
          && (deref heap curr).MountID != (deref heap deviceMount).MountID then
        (deviceMount :: q, true)
      else (q, true)) (mounts.Delete (deref heap curr).MountID).entries q
      = (((mounts.Delete (deref heap curr).MountID).entries.filter
          (isDeviceSibling heap curr)).map Prod.snd).reverse ++ q := by
    intro q
    apply forEachLoop_push
    intro q k p
    unfold isDeviceSibling
    split <;> simp_all
  rw [h1, h2]
  by_cases ho : (deref heap curr).IsOverlayFS <;> simp [ho]

theorem mem_Delete (m : MountMap) (id : Nat) (e : Nat × Ptr) :
    e ∈ (m.Delete id).entries ↔ e ∈ m.entries ∧ e.1 ≠ id := by
  simp [MountMap.Delete]

theorem mem_keys (m : MountMap) (k : Nat) : k ∈ m.keys ↔ ∃ p, (k, p) ∈ m.entries := by
  simp [MountMap.keys]

theorem keys_Delete (m : MountMap) (id k : Nat) :
    k ∈ (m.Delete id).keys ↔ k ∈ m.keys ∧ k ≠ id := by
  simp only [mem_keys, mem_Delete]
  constructor
  · rintro ⟨p, hp, hk⟩; exact ⟨⟨p, hp⟩, hk⟩
  · rintro ⟨⟨p, hp⟩, hk⟩; exact ⟨p, hp, hk⟩

theorem Get_eq_none_iff (m : MountMap) (k : Nat) : m.Get k = none ↔ k ∉ m.keys := by
  simp only [MountMap.Get, List.lookup_eq_none_iff, mem_keys]
  constructor
  · rintro h ⟨p, hp⟩
    have := h _ hp
    simp at this
  · intro h e he
    simp only [bne_iff_ne, ne_eq]
    intro hk
    exact h ⟨e.2, by rw [hk]; exact he⟩

theorem keys_nodup_Delete (m : MountMap) (id : Nat) (h : m.keys.Nodup) : (m.Delete id).keys.Nodup := by
  unfold MountMap.keys MountMap.Delete
  exact List.Nodup.sublist (List.Sublist.map _ (List.filter_sublist _)) h

theorem MapWF_Delete (heap : List Mount) (m : MountMap) (id : Nat) (h : MapWF heap m) :
    MapWF heap (m.Delete id) :=
  ⟨keys_nodup_Delete m id h.1, fun e he => h.2 e ((mem_Delete m id e).1 he).1⟩

theorem entry_unique (m : MountMap) (h : m.keys.Nodup) (k : Nat) (p q : Ptr)
    (hp : (k, p) ∈ m.entries) (hq : (k, q) ∈ m.entries) : p = q := by
  unfold MountMap.keys at h
  have := List.inj_on_of_nodup_map h hp hq rfl
  exact (Prod.mk.inj this).2

theorem Get_of_mem (m : MountMap) (h : m.keys.Nodup) (k : Nat) (p : Ptr)
    (hp : (k, p) ∈ m.entries) : m.Get k = some p := by
  cases hg : m.Get k with
  | none =>
    exact absurd ((mem_keys m k).2 ⟨p, hp⟩) ((Get_eq_none_iff m k).1 hg)
  | some q =>
    have hq : (k, q) ∈ m.entries := by
      obtain ⟨l1, l2, hl, _⟩ := List.lookup_eq_some_iff.1 hg
      rw [hl]; simp
    rw [entry_unique m h k p q hp hq]

theorem mem_of_Get (m : MountMap) (k : Nat) (p : Ptr) (hg : m.Get k = some p) :
    (k, p) ∈ m.entries := by
  obtain ⟨l1, l2, hl, _⟩ := List.lookup_eq_some_iff.1 hg
  rw [hl]; simp

theorem Delete_of_not_mem (m : MountMap) (id : Nat) (h : id ∉ m.keys) : m.Delete id = m := by
  unfold MountMap.Delete
  have : m.entries.filter (fun e => e.1 != id) = m.entries := by
    apply List.filter_eq_self.2
    intro e he
    simp only [bne_iff_ne, ne_eq]
    intro hk
    exact h ((mem_keys m id).2 ⟨e.2, by rw [← hk]; exact he⟩)
  rw [this]

theorem RealLen_Delete_le (m : MountMap) (id : Nat) : (m.Delete id).RealLen ≤ m.RealLen := by
  unfold MountMap.Delete MountMap.RealLen
  exact List.length_filter_le _ _

theorem RealLen_Delete_lt (m : MountMap) (id : Nat) (h : id ∈ m.keys) :
    (m.Delete id).RealLen < m.RealLen := by
  unfold MountMap.Delete MountMap.RealLen
  obtain ⟨p, hp⟩ := (mem_keys m id).1 h
  apply List.length_filter_lt_length_iff_exists.2
  exact ⟨(id, p), hp, by simp⟩

theorem mem_pushList (heap : List Mount) (curr : Ptr) (m : MountMap) (c : Ptr) :
    c ∈ pushList heap curr m ↔ ∃ e ∈ m.entries, e.2 = c ∧
      (isChildOf heap m (deref heap curr).MountID e = true ∨
        ((deref heap curr).IsOverlayFS = true ∧ isDeviceSibling heap curr e = true)) := by
  unfold pushList
  by_cases ho : (deref heap curr).IsOverlayFS
  · simp only [ho, if_true, List.mem_append, List.mem_reverse, List.mem_map, List.mem_filter]
    constructor
    · rintro (⟨e, ⟨he, hc⟩, rfl⟩ | ⟨e, ⟨he, hc⟩, rfl⟩)
      · exact ⟨e, he, rfl, Or.inr ⟨trivial, hc⟩⟩
      · exact ⟨e, he, rfl, Or.inl hc⟩
    · rintro ⟨e, he, rfl, (hc | ⟨_, hc⟩)⟩
      · exact Or.inr ⟨e, ⟨he, hc⟩, rfl⟩
      · exact Or.inl ⟨e, ⟨he, hc⟩, rfl⟩
  · simp only [ho, List.mem_append, List.mem_reverse, List.mem_map, List.mem_filter]
    constructor
    · rintro (h | ⟨e, ⟨he, hc⟩, rfl⟩)
      · simp at h
      · exact ⟨e, he, rfl, Or.inl hc⟩
    · rintro ⟨e, he, rfl, (hc | ⟨h, _⟩)⟩
      · exact Or.inr ⟨e, ⟨he, hc⟩, rfl⟩
      · exact absurd h (by simp)

theorem pushList_length_le (heap : List Mount) (curr : Ptr) (m : MountMap) :
    (pushList heap curr m).length ≤ 2 * m.RealLen := by
  unfold pushList MountMap.RealLen
  have h1 := List.length_filter_le (isDeviceSibling heap curr) m.entries
  have h2 := List.length_filter_le (isChildOf heap m (deref heap curr).MountID) m.entries
  split <;> simp <;> omega

theorem pushList_mono (heap : List Mount) (x : Ptr) (m : MountMap) (id : Nat) (c : Ptr)
    (hc : c ∈ pushList heap x (m.Delete id)) : c ∈ pushList heap x m := by
  rw [mem_pushList] at hc ⊢
  obtain ⟨e, he, hec, h⟩ := hc
  refine ⟨e, ((mem_Delete m id e).1 he).1, hec, ?_⟩
  rcases h with h | h
  · left
    unfold isChildOf at h ⊢
    simp only [Bool.and_eq_true] at h ⊢
    refine ⟨h.1, ?_⟩
    have h2 := h.2
    unfold MountMap.Contains at h2 ⊢
    rw [Get_Delete] at h2
    split at h2
    · simp at h2
    · exact h2
  · right; exact h

theorem pushList_LiveIn (heap : List Mount) (x : Ptr) (m : MountMap) (hwf : MapWF heap m) (c : Ptr)
    (hc : c ∈ pushList heap x m) : LiveIn heap m c := by
  rw [mem_pushList] at hc
  obtain ⟨e, he, hec, _⟩ := hc
  unfold LiveIn
  have := hwf.2 e he
  rw [← hec, this]
  exact he

theorem GoodStack_step_rest (heap : List Mount) (t : Ptr) (rest : List Ptr) (m : MountMap)
    (hwf : MapWF heap m) (hg : GoodStack heap (t :: rest) m) (a2 : List Ptr) (x : Ptr)
    (below : List Ptr) (hr : rest = a2 ++ x :: below) :
    LiveIn heap (m.Delete (deref heap t).MountID) x ∨
      ((deref heap x).MountID ∉ (m.Delete (deref heap t).MountID).keys ∧
        ∀ c ∈ pushList heap x (m.Delete (deref heap t).MountID),
          c ∈ pushList heap t (m.Delete (deref heap t).MountID) ++ a2) := by
  have hwf2 := MapWF_Delete heap m (deref heap t).MountID hwf
  have hdec : t :: rest = (t :: a2) ++ x :: below := by rw [hr]; rfl
  -- a record pushed from the smaller map is not `t`
  have hnot : ∀ c, c ∈ pushList heap x (m.Delete (deref heap t).MountID) → c ∈ t :: a2 →
      c ∈ pushList heap t (m.Delete (deref heap t).MountID) ++ a2 := by
    intro c hc hc1
    have hcl := pushList_LiveIn heap x _ hwf2 c hc
    unfold LiveIn at hcl
    have hne := ((mem_Delete m _ _).1 hcl).2
    rcases List.mem_cons.1 hc1 with h | h
    · rw [h] at hne; exact absurd rfl hne
    · exact List.mem_append_right _ h
  by_cases hid : (deref heap x).MountID = (deref heap t).MountID
  · right
    refine ⟨fun h => ((keys_Delete m _ _).1 h).2 hid, ?_⟩
    rcases hg (t :: a2) x below hdec with hl | ⟨_, hsub⟩
    · -- x is live, so t is live as well and is the same record
      have ht : LiveIn heap m t := by
        rcases hg [] t rest rfl with h | ⟨h, _⟩
        · exact h
        · exact absurd ((mem_keys m _).2 ⟨x, by rw [← hid]; exact hl⟩) h
      have hxt : x = t := by
        unfold LiveIn at hl ht
        rw [hid] at hl
        exact entry_unique m hwf.1 _ x t hl ht
      intro c hc
      rw [hxt] at hc
      exact List.mem_append_left _ hc
    · intro c hc
      exact hnot c hc (hsub c (pushList_mono heap x m _ c hc))
  · rcases hg (t :: a2) x below hdec with hl | ⟨hn, hsub⟩
    · left
      exact (mem_Delete m _ _).2 ⟨hl, hid⟩
    · right
      refine ⟨fun h => hn ((keys_Delete m _ _).1 h).1, ?_⟩
      intro c hc
      exact hnot c hc (hsub c (pushList_mono heap x m _ c hc))

theorem GoodStack_step (heap : List Mount) (t : Ptr) (rest : List Ptr) (m : MountMap)
    (hwf : MapWF heap m) (hg : GoodStack heap (t :: rest) m) :
    GoodStack heap (pushList heap t (m.Delete (deref heap t).MountID) ++ rest)
      (m.Delete (deref heap t).MountID) := by
  intro above x below hq
  have hwf2 := MapWF_Delete heap m (deref heap t).MountID hwf
  rcases List.append_eq_append_iff.1 hq with ⟨a2, ha, hr⟩ | ⟨c2, hp, hx⟩
  · rw [ha]
    exact GoodStack_step_rest heap t rest m hwf hg a2 x below hr
  · cases c2 with
    | nil =>
      simp only [List.nil_append] at hx
      simp only [List.append_nil] at hp
      have := GoodStack_step_rest heap t rest m hwf hg [] x below hx.symm
      rw [List.append_nil, hp] at this
      exact this
    | cons y c3 =>
      simp only [List.cons_append, List.cons.injEq] at hx
      left
      apply pushList_LiveIn heap t _ hwf2
      rw [hp, hx.1]
      simp

theorem GoodStack_of_live (heap : List Mount) (q : List Ptr) (m : MountMap)
    (h : ∀ x ∈ q, LiveIn heap m x) : GoodStack heap q m := by
  intro above x below hq
  left
  apply h
  rw [hq]; simp

theorem finalizeLoop_nil (heap : List Mount) (fuel : Nat) (m : MountMap) :
    finalizeLoop heap fuel [] m = ([], m) := by
  cases fuel <;> rfl

theorem finalizeLoop_cons (heap : List Mount) (fuel : Nat) (t : Ptr) (rest : List Ptr)
    (m : MountMap) :
    finalizeLoop heap (fuel + 1) (t :: rest) m =
      finalizeLoop heap fuel (pushList heap t (m.Delete (deref heap t).MountID) ++ rest)
        (m.Delete (deref heap t).MountID) := by
  simp only [finalizeLoop, finalizeStep_eq]

/-- With a stack that satisfies the invariant, `|q| + 2 |m|^2` rounds empty the stack. -/
theorem finalizeLoop_empty (heap : List Mount) :
    ∀ (fuel : Nat) (q : List Ptr) (m : MountMap), MapWF heap m → GoodStack heap q m →
      q.length + 2 * m.RealLen * m.RealLen ≤ fuel → (finalizeLoop heap fuel q m).1 = [] := by
  intro fuel
  induction fuel with
  | zero =>
    intro q m _ _ hf
    have : q = [] := List.eq_nil_of_length_eq_zero (by omega)
    rw [this]; rfl
  | succ fuel ih =>
    intro q m hwf hg hf
    cases q with
    | nil => rfl
    | cons t rest =>
      rw [finalizeLoop_cons]
      apply ih _ _ (MapWF_Delete heap m _ hwf) (GoodStack_step heap t rest m hwf hg)
      by_cases hk : (deref heap t).MountID ∈ m.keys
      · have h1 := RealLen_Delete_lt m _ hk
        have h2 := pushList_length_le heap t (m.Delete (deref heap t).MountID)
        simp only [List.length_append, List.length_cons] at hf ⊢
        have h3 : (m.Delete (deref heap t).MountID).RealLen + 1 ≤ m.RealLen := h1
        have h4 := Nat.mul_le_mul h3 h3
        nlinarith
      · rw [Delete_of_not_mem m _ hk]
        have hnil : pushList heap t m = [] := by
          rcases hg [] t rest rfl with h | ⟨_, h⟩
          · exact absurd ((mem_keys m _).2 ⟨t, h⟩) hk
          · exact List.eq_nil_iff_forall_not_mem.2 (fun c hc => by simpa using h c hc)
        rw [hnil]
        simp only [List.nil_append, List.length_cons] at hf ⊢
        omega

/-- Termination of `finalize` on a well-formed map: the work stack is empty
within the rounds granted by `finalizeFuel`. -/
theorem finalizeLoop_complete (heap : List Mount) (m : MountMap) (first : Ptr)
    (hwf : MapWF heap m) :
    (finalizeLoop heap (finalizeFuel m.RealLen) [first] m).1 = [] := by
  unfold finalizeFuel
  rw [finalizeLoop_cons]
  have hwf2 := MapWF_Delete heap m (deref heap first).MountID hwf
  apply finalizeLoop_empty heap _ _ _ hwf2
  · apply GoodStack_of_live
    intro x hx
    rw [List.append_nil] at hx
    exact pushList_LiveIn heap first _ hwf2 x hx
  · have h1 := RealLen_Delete_le m (deref heap first).MountID
    have h2 := pushList_length_le heap first (m.Delete (deref heap first).MountID)
    have h4 := Nat.mul_le_mul h1 h1
    simp only [List.append_nil]
    nlinarith

/-- More rounds do not change the outcome of a loop that emptied its stack. -/
theorem finalizeLoop_mono (heap : List Mount) :
    ∀ (fuel fuel2 : Nat) (q : List Ptr) (m : MountMap), fuel ≤ fuel2 →
      (finalizeLoop heap fuel q m).1 = [] →
      finalizeLoop heap fuel2 q m = finalizeLoop heap fuel q m := by
  intro fuel
  induction fuel with
  | zero =>
    intro fuel2 q m _ h
    have hq : q = [] := h
    rw [hq, finalizeLoop_nil, finalizeLoop_nil]
  | succ fuel ih =>
    intro fuel2 q m hle h
    cases q with
    | nil => rw [finalizeLoop_nil, finalizeLoop_nil]
    | cons t rest =>
      obtain ⟨f3, rfl⟩ : ∃ f3, fuel2 = f3 + 1 := ⟨fuel2 - 1, by omega⟩
      rw [finalizeLoop_cons] at h ⊢
      rw [finalizeLoop_cons]
      exact ih f3 _ _ (by omega) h

theorem finalizeLoop_subset (heap : List Mount) :
    ∀ (fuel : Nat) (q : List Ptr) (m : MountMap) (e : Nat × Ptr),
      e ∈ (finalizeLoop heap fuel q m).2.entries → e ∈ m.entries := by
  intro fuel
  induction fuel with
  | zero => intro q m e h; exact h
  | succ fuel ih =>
    intro q m e h
    cases q with
    | nil => exact h
    | cons t rest =>
      rw [finalizeLoop_cons] at h
      exact ((mem_Delete m _ e).1 (ih _ _ e h)).1

theorem finalizeLoop_MapWF (heap : List Mount) :
    ∀ (fuel : Nat) (q : List Ptr) (m : MountMap), MapWF heap m →
      MapWF heap (finalizeLoop heap fuel q m).2 := by
  intro fuel
  induction fuel with
  | zero => intro q m h; exact h
  | succ fuel ih =>
    intro q m h
    cases q with
    | nil => exact h
    | cons t rest =>
      rw [finalizeLoop_cons]
      exact ih _ _ (MapWF_Delete heap m _ h)

theorem finalizeLoop_keys_subset (heap : List Mount) (fuel : Nat) (q : List Ptr) (m : MountMap)
    (k : Nat) (h : k ∈ (finalizeLoop heap fuel q m).2.keys) : k ∈ m.keys := by
  obtain ⟨p, hp⟩ := (mem_keys _ k).1 h
  exact (mem_keys m k).2 ⟨p, finalizeLoop_subset heap fuel q m _ hp⟩

/-- What a completed loop of `finalize` leaves: a mount ID that was dead, that
was on the work stack or that left the map is not in the map, and no record left
in the map has it as parent. -/
theorem finalizeLoop_closed (heap : List Mount) :
    ∀ (fuel : Nat) (q : List Ptr) (m : MountMap) (dead : List Nat), MapWF heap m →
      DeadInv heap dead q m → (finalizeLoop heap fuel q m).1 = [] →
      ∀ k, (k ∈ dead ∨ (∃ p ∈ q, (deref heap p).MountID = k) ∨
            (k ∈ m.keys ∧ k ∉ (finalizeLoop heap fuel q m).2.keys)) →
        k ∉ (finalizeLoop heap fuel q m).2.keys ∧
          ∀ e ∈ (finalizeLoop heap fuel q m).2.entries, (deref heap e.2).ParentMountID ≠ k := by
  intro fuel
  induction fuel with
  | zero =>
    intro q m dead _ hinv hq k hk
    have hq2 : q = [] := hq
    subst hq2
    simp only [finalizeLoop] at hk ⊢
    rcases hk with hk | ⟨p, hp, _⟩ | ⟨h1, h2⟩
    · exact ⟨hinv.1 k hk, fun e he hpar => by simpa using hinv.2 e he (hpar ▸ hk)⟩
    · simp at hp
    · exact absurd h1 h2
  | succ fuel ih =>
    intro q m dead hwf hinv hq k hk
    cases q with
    | nil =>
      simp only [finalizeLoop] at hk ⊢
      rcases hk with hk | ⟨p, hp, _⟩ | ⟨h1, h2⟩
      · exact ⟨hinv.1 k hk, fun e he hpar => by simpa using hinv.2 e he (hpar ▸ hk)⟩
      · simp at hp
      · exact absurd h1 h2
    | cons t rest =>
      rw [finalizeLoop_cons] at hq hk ⊢
      have hwf2 := MapWF_Delete heap m (deref heap t).MountID hwf
      have hinv2 : DeadInv heap ((deref heap t).MountID :: dead)
          (pushList heap t (m.Delete (deref heap t).MountID) ++ rest)
          (m.Delete (deref heap t).MountID) := by
        constructor
        · intro k2 hk2 hmem
          have hm := (keys_Delete m _ _).1 hmem
          rcases List.mem_cons.1 hk2 with h | h
          · exact hm.2 h
          · exact hinv.1 k2 h hm.1
        · intro e he hpar
          have hem := (mem_Delete m _ e).1 he
          rcases List.mem_cons.1 hpar with h | h
          · apply List.mem_append_left
            rw [mem_pushList]
            refine ⟨e, he, rfl, Or.inl ?_⟩
            unfold isChildOf MountMap.Contains
            rw [hwf2.2 e he, Get_of_mem _ hwf2.1 e.1 e.2 he]
            simp [h]
          · apply List.mem_append_right
            have := hinv.2 e hem.1 h
            rcases List.mem_cons.1 this with h3 | h3
            · exfalso
              apply hem.2
              rw [← hwf.2 e hem.1, h3]
            · exact h3
      apply ih _ _ _ hwf2 hinv2 hq k
      rcases hk with hk | ⟨p, hp, hpk⟩ | ⟨h1, h2⟩
      · exact Or.inl (List.mem_cons_of_mem _ hk)
      · rcases List.mem_cons.1 hp with h | h
        · left; rw [← hpk, h]; simp
        · right; left; exact ⟨p, List.mem_append_right _ h, hpk⟩
      · by_cases hkt : k = (deref heap t).MountID
        · left; rw [hkt]; simp
        · right; right; exact ⟨(keys_Delete m _ _).2 ⟨h1, hkt⟩, h2⟩

/-- A completed loop of `finalize` leaves no record of device `dev` when every
live record of that device was on the work stack. -/
theorem finalizeLoop_device (heap : List Mount) (dev : Nat) :
    ∀ (fuel : Nat) (q : List Ptr) (m : MountMap), MapWF heap m →
      (∀ e ∈ m.entries, (deref heap e.2).Device = dev → e.2 ∈ q) →
      (finalizeLoop heap fuel q m).1 = [] →
      ∀ e ∈ (finalizeLoop heap fuel q m).2.entries, (deref heap e.2).Device ≠ dev := by
  intro fuel
  induction fuel with
  | zero =>
    intro q m _ hinv hq e he hd
    have hq2 : q = [] := hq
    subst hq2
    simpa using hinv e he hd
  | succ fuel ih =>
    intro q m hwf hinv hq e he hd
    cases q with
    | nil => simpa using hinv e he hd
    | cons t rest =>
      rw [finalizeLoop_cons] at hq he
      refine ih _ _ (MapWF_Delete heap m _ hwf) ?_ hq e he hd
      intro e2 he2 hd2
      have hem := (mem_Delete m _ e2).1 he2
      apply List.mem_append_right
      rcases List.mem_cons.1 (hinv e2 hem.1 hd2) with h3 | h3
      · exfalso
        apply hem.2
        rw [← hwf.2 e2 hem.1, h3]
      · exact h3

theorem ChainTo_mem_keys (heap : List Mount) (m : MountMap) (target k : Nat)
    (h : ChainTo heap m target k) : k ∈ m.keys := by
  cases h with
  | child k p hg _ => exact (mem_keys m k).2 ⟨p, mem_of_Get m k p hg⟩
  | step k p hg _ => exact (mem_keys m k).2 ⟨p, mem_of_Get m k p hg⟩

theorem ClosedIn_refl (heap : List Mount) (m : MountMap) : ClosedIn heap m m :=
  ⟨fun _ h => h, fun _ h1 h2 => absurd h1 h2⟩

theorem ClosedIn_trans (heap : List Mount) (m0 m1 m2 : MountMap)
    (h1 : ClosedIn heap m0 m1) (h2 : ClosedIn heap m1 m2) : ClosedIn heap m0 m2 := by
  refine ⟨fun e he => h1.1 e (h2.1 e he), ?_⟩
  intro k hk0 hk2 e he
  by_cases hk1 : k ∈ m1.keys
  · exact h2.2 k hk1 hk2 e he
  · exact h1.2 k hk0 hk1 e (h2.1 e he)

/-- In a closed part of a well-formed map that lost the mount ID `target`, every
mount ID whose parent chain reached `target` is lost as well. -/
theorem ChainTo_removed (heap : List Mount) (m r : MountMap) (target : Nat)
    (hwf : MapWF heap m) (hc : ClosedIn heap m r)
    (ht : ∀ e ∈ r.entries, (deref heap e.2).ParentMountID ≠ target) :
    ∀ k, ChainTo heap m target k → k ∉ r.keys := by
  intro k hk
  induction hk with
  | child k p hg hpar =>
    intro hmem
    obtain ⟨p2, hp2⟩ := (mem_keys r k).1 hmem
    have := Get_of_mem m hwf.1 k p2 (hc.1 _ hp2)
    rw [hg] at this
    cases this
    exact ht _ hp2 hpar
  | step k p hg hch ih =>
    intro hmem
    obtain ⟨p2, hp2⟩ := (mem_keys r k).1 hmem
    have := Get_of_mem m hwf.1 k p2 (hc.1 _ hp2)
    rw [hg] at this
    cases this
    exact hc.2 _ (ChainTo_mem_keys heap m target _ hch) ih _ hp2 rfl

/-- Summary of `finalize` on a well-formed map. -/
theorem finalizeMap_spec (heap : List Mount) (m : MountMap) (first : Ptr) (hwf : MapWF heap m) :
    MapWF heap (finalizeMap heap m first) ∧
    ClosedIn heap m (finalizeMap heap m first) ∧
    (deref heap first).MountID ∉ (finalizeMap heap m first).keys ∧
    ∀ e ∈ (finalizeMap heap m first).entries,
      (deref heap e.2).ParentMountID ≠ (deref heap first).MountID := by
  have hdone := finalizeLoop_complete heap m first hwf
  have hcl := finalizeLoop_closed heap (finalizeFuel m.RealLen) [first] m [] hwf
    ⟨fun _ h => by simp at h, fun _ _ h => by simp at h⟩ hdone
  refine ⟨finalizeLoop_MapWF heap _ _ m hwf, ⟨finalizeLoop_subset heap _ _ m, ?_⟩, ?_, ?_⟩
  · intro k hk hk2
    exact (hcl k (Or.inr (Or.inr ⟨hk, hk2⟩))).2
  · exact (hcl _ (Or.inr (Or.inl ⟨first, by simp, rfl⟩))).1
  · exact (hcl _ (Or.inr (Or.inl ⟨first, by simp, rfl⟩))).2

theorem LRU_Add_items (c : LRU) (key : Nat) (value : Ptr) (e : Nat × Ptr)
    (h : e ∈ (c.Add key value).1.items) : e = (key, value) ∨ e ∈ c.items := by
  unfold LRU.Add at h
  split at h
  · simp only [List.mem_cons, List.mem_filter] at h
    rcases h with h | h
    · exact Or.inl h
    · exact Or.inr h.1
  · split at h
    · exact List.mem_cons.1 (List.mem_of_mem_dropLast h)
    · exact List.mem_cons.1 h

theorem LRU_Add_evicted (c : LRU) (key : Nat) (value : Ptr) (e : Nat × Ptr)
    (h : (c.Add key value).2 = some e) : e = (key, value) ∨ e ∈ c.items := by
  unfold LRU.Add at h
  split at h
  · simp at h
  · split at h
    · exact List.mem_cons.1 (List.mem_of_getLast?_eq_some h)
    · simp at h

theorem LRU_Remove_items (c : LRU) (key : Nat) (e : Nat × Ptr)
    (h : e ∈ (c.Remove key).1.items) : e ∈ c.items := by
  unfold LRU.Remove at h
  split at h
  · exact (List.mem_filter.1 h).1
  · exact h

theorem LRU_Remove_evicted (c : LRU) (key : Nat) (e : Nat × Ptr)
    (h : (c.Remove key).2 = some e) : e.1 = key ∧ e ∈ c.items := by
  unfold LRU.Remove at h
  split at h
  · rename_i v hv
    simp only [Option.some.injEq] at h
    subst h
    obtain ⟨l1, l2, hl, _⟩ := List.lookup_eq_some_iff.1 hv
    exact ⟨rfl, by rw [hl]; simp⟩
  · simp at h

theorem LRU_Remove_none (c : LRU) (key : Nat) (h : (c.Remove key).2 = none) :
    (c.Remove key).1 = c := by
  unfold LRU.Remove at h ⊢
  split at h
  · simp at h
  · rename_i hv; simp [hv]

theorem WF_finalize (mr : Resolver) (p : Ptr) (h : mr.WF) : (mr.finalize p).WF := by
  obtain ⟨h1, h2, h3⟩ := h
  have hs := finalizeMap_spec mr.heap mr.mounts p h1
  exact ⟨hs.1, fun e he => h2 e (hs.2.1.1 e he), h3⟩

theorem WF_onEvict (mr : Resolver) (ev : Option (Nat × Ptr)) (h : mr.WF) : (mr.onEvict ev).WF := by
  cases ev with
  | none => exact h
  | some e => exact WF_finalize mr e.2 h

theorem ClosedIn_finalize (mr : Resolver) (m0 : MountMap) (p : Ptr) (h : mr.WF)
    (hc : ClosedIn mr.heap m0 mr.mounts) : ClosedIn mr.heap m0 (mr.finalize p).mounts :=
  ClosedIn_trans mr.heap m0 mr.mounts _ hc (finalizeMap_spec mr.heap mr.mounts p h.1).2.1

theorem ClosedIn_onEvict (mr : Resolver) (m0 : MountMap) (ev : Option (Nat × Ptr)) (h : mr.WF)
    (hc : ClosedIn mr.heap m0 mr.mounts) : ClosedIn mr.heap m0 (mr.onEvict ev).mounts := by
  cases ev with
  | none => exact hc
  | some e => exact ClosedIn_finalize mr m0 e.2 h hc

theorem WF_redemption_Add (mr : Resolver) (k : Nat) (m : Ptr) (h : mr.WF)
    (hm : mr.mounts.Get k = some m) :
    Resolver.WF { mr with redemption := (mr.redemption.Add k m).1 } := by
  obtain ⟨h1, h2, h3⟩ := h
  refine ⟨h1, h2, ?_⟩
  intro e he
  rcases LRU_Add_items _ _ _ e he with hh | hh
  · have hmem := mem_of_Get mr.mounts _ m hm
    rw [hh]
    exact ⟨h1.2 _ hmem, h2 _ hmem⟩
  · exact h3 e hh

theorem WF_delete (mr : Resolver) (mount : Ptr) (h : mr.WF) : (mr.delete mount).WF := by
  unfold Resolver.delete
  split
  · rename_i m hm
    exact WF_onEvict _ _ (WF_redemption_Add mr _ m h hm)
  · exact h

theorem delete_heap (mr : Resolver) (mount : Ptr) : (mr.delete mount).heap = mr.heap := by
  unfold Resolver.delete
  split <;> simp

theorem delete_minMountID (mr : Resolver) (mount : Ptr) :
    (mr.delete mount).minMountID = mr.minMountID := by
  unfold Resolver.delete
  split <;> simp

theorem ClosedIn_delete (mr : Resolver) (m0 : MountMap) (mount : Ptr) (h : mr.WF)
    (hc : ClosedIn mr.heap m0 mr.mounts) : ClosedIn mr.heap m0 (mr.delete mount).mounts := by
  unfold Resolver.delete
  split
  · rename_i m hm
    exact ClosedIn_onEvict { mr with redemption := (mr.redemption.Add _ m).1 } m0 _
      (WF_redemption_Add mr _ m h hm) hc
  · exact hc

theorem dequeueLoop_spec (now : Nat) (m0 : MountMap) :
    ∀ (q : List deleteRequest) (mr : Resolver), mr.WF → ClosedIn mr.heap m0 mr.mounts →
      (dequeueLoop now q mr).2.WF ∧ (dequeueLoop now q mr).2.heap = mr.heap ∧
      (dequeueLoop now q mr).2.minMountID = mr.minMountID ∧
      ClosedIn mr.heap m0 (dequeueLoop now q mr).2.mounts := by
  intro q
  induction q with
  | nil => intro mr h hc; exact ⟨h, rfl, rfl, hc⟩
  | cons req rest ih =>
    intro mr h hc
    unfold dequeueLoop
    split
    · exact ⟨h, rfl, rfl, hc⟩
    · simp only []
      unfold dequeueHandle
      split
      · have := ih (mr.delete req.mount) (WF_delete mr _ h)
          (by rw [delete_heap]; exact ClosedIn_delete mr m0 _ h hc)
        rw [delete_heap] at this
        refine ⟨this.1, this.2.1, ?_, this.2.2.2⟩
        rw [this.2.2.1, delete_minMountID]
      · exact ih mr h hc

theorem dequeue_fields (mr : Resolver) (now : Nat) :
    (mr.dequeue now).mounts = (dequeueLoop now mr.deleteQueue mr).2.mounts ∧
    (mr.dequeue now).heap = (dequeueLoop now mr.deleteQueue mr).2.heap ∧
    (mr.dequeue now).redemption = (dequeueLoop now mr.deleteQueue mr).2.redemption ∧
    (mr.dequeue now).minMountID = (dequeueLoop now mr.deleteQueue mr).2.minMountID ∧
    (mr.dequeue now).opts = (dequeueLoop now mr.deleteQueue mr).2.opts := by
  unfold Resolver.dequeue
  split
  · exact ⟨rfl, rfl, rfl, rfl, rfl⟩
  · split <;> exact ⟨rfl, rfl, rfl, rfl, rfl⟩

theorem dequeue_spec (mr : Resolver) (now : Nat) (m0 : MountMap) (h : mr.WF)
    (hc : ClosedIn mr.heap m0 mr.mounts) :
    (mr.dequeue now).WF ∧ (mr.dequeue now).heap = mr.heap ∧
    (mr.dequeue now).minMountID = mr.minMountID ∧
    ClosedIn mr.heap m0 (mr.dequeue now).mounts := by
  obtain ⟨f1, f2, f3, f4, _⟩ := dequeue_fields mr now
  obtain ⟨l1, l2, l3, l4⟩ := dequeueLoop_spec now m0 mr.deleteQueue mr h hc
  refine ⟨?_, by rw [f2, l2], by rw [f4, l3], by rw [f1]; exact l4⟩
  unfold Resolver.WF
  rw [f1, f2, f3]
  exact l1

theorem alloc_WF (mr : Resolver) (e : Mount) (h : mr.WF) : (mr.alloc e).1.WF := by
  obtain ⟨h1, h2, h3⟩ := h
  unfold Resolver.alloc
  refine ⟨⟨h1.1, ?_⟩, ?_, ?_⟩
  · intro x hx
    show (deref (mr.heap ++ [e]) x.2).MountID = x.1
    rw [deref_append_old _ _ _ (h2 x hx)]
    exact h1.2 x hx
  · intro x hx
    show x.2 < (mr.heap ++ [e]).length
    have := h2 x hx
    simp only [List.length_append, List.length_singleton]
    exact Nat.lt_add_right 1 this
  · intro x hx
    show (deref (mr.heap ++ [e]) x.2).MountID = x.1 ∧ x.2 < (mr.heap ++ [e]).length
    have := h3 x hx
    rw [deref_append_old _ _ _ this.2]
    refine ⟨this.1, ?_⟩
    have := this.2
    simp only [List.length_append, List.length_singleton]
    exact Nat.lt_add_right 1 this

theorem ChainTo_congr (h1 h2 : List Mount) (m : MountMap) (target : Nat)
    (hh : ∀ e ∈ m.entries, deref h2 e.2 = deref h1 e.2) :
    ∀ k, ChainTo h1 m target k → ChainTo h2 m target k := by
  intro k hk
  induction hk with
  | child k p hg hpar =>
    exact ChainTo.child k p hg (by rw [hh _ (mem_of_Get m k p hg)]; exact hpar)
  | step k p hg _ ih =>
    exact ChainTo.step k p hg (by rw [hh _ (mem_of_Get m k p hg)]; exact ih)

theorem insert_mounts (mr : Resolver) (m : Ptr) (hm : m < mr.heap.length) :
    (mr.insert m).mounts = (mr.insertUmount m).mounts.Insert (deref mr.heap m).MountID m := by
  unfold Resolver.insert
  simp only []
  split <;> simp [deref_set_self, hm, normalizeMount_MountID]

theorem insert_redemption (mr : Resolver) (m : Ptr) :
    (mr.insert m).redemption = (mr.insertUmount m).redemption := by
  unfold Resolver.insert
  simp only []
  split <;> rfl

/-- What the unmounting part of `insert` leaves in a well-formed state: the map
is a closed part of what it was, and has no binding for the inserted mount ID. -/
theorem insertUmount_spec (mr : Resolver) (m : Ptr) (m0 : MountMap) (h : mr.WF)
    (hc : ClosedIn mr.heap m0 mr.mounts) :
    (mr.insertUmount m).WF ∧ ClosedIn mr.heap m0 (mr.insertUmount m).mounts ∧
    (deref mr.heap m).MountID ∉ (mr.insertUmount m).mounts.keys := by
  unfold Resolver.insertUmount
  split
  · rename_i prev hprev
    have hmem := mem_of_Get mr.mounts _ prev hprev
    have hid : (deref mr.heap prev).MountID = (deref mr.heap m).MountID := h.1.2 _ hmem
    have hwf2 : Resolver.WF { mr with redemption := (mr.redemption.Remove (deref mr.heap prev).MountID).1 } :=
      ⟨h.1, h.2.1, fun e he => h.2.2 e (LRU_Remove_items _ _ e he)⟩
    split
    · rename_i hsome
      obtain ⟨ev, hev⟩ := Option.isSome_iff_exists.1 hsome
      rw [hev]
      obtain ⟨hk, hin⟩ := LRU_Remove_evicted _ _ ev hev
      have hidv : (deref mr.heap ev.2).MountID = (deref mr.heap m).MountID := by
        rw [(h.2.2 ev hin).1, hk, hid]
      refine ⟨WF_finalize _ _ hwf2, ClosedIn_finalize
        { mr with redemption := (mr.redemption.Remove (deref mr.heap prev).MountID).1 } m0 _ hwf2 hc, ?_⟩
      rw [← hidv]
      exact (finalizeMap_spec mr.heap mr.mounts ev.2 h.1).2.2.1
    · refine ⟨WF_finalize _ _ hwf2, ClosedIn_finalize
        { mr with redemption := (mr.redemption.Remove (deref mr.heap prev).MountID).1 } m0 _ hwf2 hc, ?_⟩
      rw [← hid]
      exact (finalizeMap_spec mr.heap mr.mounts prev h.1).2.2.1
  · rename_i hnone
    exact ⟨h, hc, (Get_eq_none_iff _ _).1 hnone⟩

/-- The cache-hit path of `resolveMount`. -/
theorem resolveMount_hit (mr : Resolver) (env : Env) (id : Nat) (containerID : String)
    (pids : List Nat) (p : Ptr) (h0 : id ≠ 0) (hmin : mr.minMountID ≤ id)
    (hg : mr.mounts.Get id = some p) :
    (mr.resolveMount env id containerID pids).2 = Except.ok p ∧
    (mr.resolveMount env id containerID pids).1.mounts = mr.mounts ∧
    (mr.resolveMount env id containerID pids).1.heap = mr.heap ∧
    (mr.resolveMount env id containerID pids).1.procScans = mr.procScans := by
  have h1 : ¬ (id < mr.minMountID) := by omega
  simp [Resolver.resolveMount, Resolver.IsMountIDValid, h0, h1, hg]

/-- What a successful `Insert` stores: the record, normalised, at a fresh
pointer, live under its mount ID, which is valid afterwards. -/
theorem Insert_stores (mr : Resolver) (e : Mount) (h : e.MountID ≠ 0) :
    mr.Insert e = ((mr.alloc e).1.insert mr.heap.length, none) ∧
    (mr.Insert e).1.mounts.Get e.MountID = some mr.heap.length ∧
    deref (mr.Insert e).1.heap mr.heap.length = normalizeMount e ∧
    (mr.Insert e).1.minMountID ≤ e.MountID := by
  have hlen : mr.heap.length < (mr.alloc e).1.heap.length := by simp [Resolver.alloc]
  have hd : deref (mr.alloc e).1.heap mr.heap.length = e := by simp [Resolver.alloc, deref_alloc]
  have hI : mr.Insert e = ((mr.alloc e).1.insert mr.heap.length, none) := by
    simp [Resolver.Insert, h, Resolver.alloc]
  have hG := insert_Get (mr.alloc e).1 mr.heap.length hlen
  have hM := insert_minMountID_le (mr.alloc e).1 mr.heap.length hlen
  rw [hd] at hG hM
  refine ⟨hI, by rw [hI]; exact hG, ?_, by rw [hI]; exact hM⟩
  rw [hI]
  simp only [insert_heap]
  rw [deref_set_self _ _ _ hlen, hd]

theorem ClosedIn_congr (h1 h2 : List Mount) (m r : MountMap)
    (hh : ∀ e ∈ m.entries, deref h2 e.2 = deref h1 e.2) (hc : ClosedIn h1 m r) :
    ClosedIn h2 m r :=
  ⟨hc.1, fun k hk hk2 e he => by rw [hh e (hc.1 e he)]; exact hc.2 k hk hk2 e he⟩

theorem MapWF_congr (h1 h2 : List Mount) (m : MountMap)
    (hh : ∀ e ∈ m.entries, deref h2 e.2 = deref h1 e.2) (hwf : MapWF h1 m) : MapWF h2 m :=
  ⟨hwf.1, fun e he => by rw [hh e he]; exact hwf.2 e he⟩

/-- Descendants of a superseded mount ID are gone after `Insert`.  In a
well-formed state whose map is a closed part of a well-formed map `m0`, the
insertion of a record under a mount ID of `m0` binds the mount ID to the fresh
record and leaves no other mount ID whose parent chain in `m0` reached it. -/
theorem Insert_supersedes (s : Resolver) (m0 : MountMap) (e : Mount)
    (hwf : s.WF) (hwf0 : MapWF s.heap m0) (hb : ∀ x ∈ m0.entries, x.2 < s.heap.length)
    (hc : ClosedIn s.heap m0 s.mounts) (hid : e.MountID ≠ 0) (hlive : e.MountID ∈ m0.keys) :
    (s.Insert e).1.mounts.Get e.MountID = some s.heap.length ∧
    deref (s.Insert e).1.heap s.heap.length = normalizeMount e ∧
    (s.Insert e).1.minMountID ≤ e.MountID ∧
    ∀ k, k ≠ e.MountID → ChainTo s.heap m0 e.MountID k → (s.Insert e).1.mounts.Get k = none := by
  obtain ⟨hI, hG, hD, hM⟩ := Insert_stores s e hid
  refine ⟨hG, hD, hM, ?_⟩
  intro k hk hch
  have ha := alloc_WF s e hwf
  have hlen : s.heap.length < (s.alloc e).1.heap.length := by simp [Resolver.alloc]
  have hd : deref (s.alloc e).1.heap s.heap.length = e := by simp [Resolver.alloc, deref_alloc]
  have hsame : ∀ x ∈ m0.entries, deref (s.alloc e).1.heap x.2 = deref s.heap x.2 :=
    fun x hx => deref_append_old _ _ _ (hb x hx)
  have hc2 : ClosedIn (s.alloc e).1.heap m0 (s.alloc e).1.mounts :=
    ClosedIn_congr s.heap _ m0 s.mounts hsame hc
  obtain ⟨_, hcu, hnot⟩ := insertUmount_spec (s.alloc e).1 s.heap.length m0 ha hc2
  rw [hd] at hnot
  have hgone := ChainTo_removed (s.alloc e).1.heap m0 _ e.MountID
    (MapWF_congr s.heap _ m0 hsame hwf0) hcu (hcu.2 e.MountID hlive hnot) k
    (ChainTo_congr s.heap _ m0 e.MountID hsame k hch)
  rw [hI]
  simp only []
  rw [insert_mounts _ _ hlen, hd, Get_Insert, if_neg hk]
  exact (Get_eq_none_iff _ _).2 hgone

theorem LRU_Add_no_evict (c : LRU) (k : Nat) (v : Ptr) (h : c.items.length + 1 ≤ c.size) :
    (c.Add k v).2 = none ∧ (c.Add k v).1.items.length ≤ c.items.length + 1 ∧
    (c.Add k v).1.size = c.size ∧ (c.Add k v).1.Peek k = some v := by
  unfold LRU.Add LRU.Peek
  split
  · refine ⟨rfl, ?_, rfl, by simp⟩
    have := List.length_filter_le (fun e : Nat × Ptr => e.1 != k) c.items
    simp only [List.length_cons]; omega
  · have h2 : ¬ (c.items.length + 1 > c.size) := by omega
    simp [h2]

theorem delete_no_evict (mr : Resolver) (mount : Ptr)
    (h : mr.redemption.items.length + 1 ≤ mr.redemption.size) :
    (mr.delete mount).mounts = mr.mounts ∧ (mr.delete mount).heap = mr.heap ∧
    (mr.delete mount).minMountID = mr.minMountID ∧ (mr.delete mount).opts = mr.opts ∧
    (mr.delete mount).redemption.items.length ≤ mr.redemption.items.length + 1 ∧
    (mr.delete mount).redemption.size = mr.redemption.size ∧
    (∀ m, mr.mounts.Get (deref mr.heap mount).MountID = some m →
      (mr.delete mount).redemption.Peek (deref mr.heap mount).MountID = some m) := by
  unfold Resolver.delete
  split
  · rename_i m hm
    obtain ⟨h1, h2, h3, h4⟩ := LRU_Add_no_evict mr.redemption (deref mr.heap mount).MountID m h
    rw [h1]
    refine ⟨rfl, rfl, rfl, rfl, h2, h3, ?_⟩
    intro m2 hm2
    rw [hm] at hm2
    cases hm2
    exact h4
  · rename_i hm
    refine ⟨rfl, rfl, rfl, rfl, by omega, rfl, ?_⟩
    intro m hm2
    rw [hm] at hm2
    cases hm2

theorem dequeueLoop_cons_due (now : Nat) (req : deleteRequest) (rest : List deleteRequest)
    (mr : Resolver) (h : req.timeoutAt ≤ now) :
    dequeueLoop now (req :: rest) mr =
      ((dequeueLoop now rest (dequeueHandle mr req)).1 + 1,
        (dequeueLoop now rest (dequeueHandle mr req)).2) := by
  have hx : ¬ (req.timeoutAt > now) := by omega
  rw [dequeueLoop]
  simp only [hx, if_false]

theorem dequeueLoop_cons_wait (now : Nat) (req : deleteRequest) (rest : List deleteRequest)
    (mr : Resolver) (h : req.timeoutAt > now) :
    dequeueLoop now (req :: rest) mr = (0, mr) := by
  rw [dequeueLoop]
  simp only [h, if_true]

theorem dequeueHandle_no_evict (mr : Resolver) (req : deleteRequest)
    (h : mr.redemption.items.length + 1 ≤ mr.redemption.size) :
    (dequeueHandle mr req).mounts = mr.mounts ∧ (dequeueHandle mr req).heap = mr.heap ∧
    (dequeueHandle mr req).minMountID = mr.minMountID ∧ (dequeueHandle mr req).opts = mr.opts ∧
    (dequeueHandle mr req).redemption.items.length ≤ mr.redemption.items.length + 1 ∧
    (dequeueHandle mr req).redemption.size = mr.redemption.size := by
  unfold dequeueHandle
  split
  · obtain ⟨d1, d2, d3, d4, d5, d6, _⟩ := delete_no_evict mr req.mount h
    exact ⟨d1, d2, d3, d4, d5, d6⟩
  · exact ⟨rfl, rfl, rfl, rfl, by omega, rfl⟩

theorem Clean_ne_empty (p : String) : (Clean p).length ≠ 0 := by
  unfold Clean
  by_cases h1 : (p.data == []) = true
  · rw [if_pos h1]; decide
  · rw [if_neg h1]
    by_cases h2 : ((cleanLoop p.data).length == 0) = true
    · rw [if_pos h2]; decide
    · rw [if_neg h2]
      simp only [String.length, List.length_reverse]
      simpa using h2

theorem Join_ne_empty (a b : String) (ha : a.length ≠ 0) : (Join [a, b]).length ≠ 0 := by
  unfold Join
  have : (a.data == []) = false := by
    cases a with
    | mk d =>
      cases d with
      | nil => simp [String.length] at ha
      | cons c cs => rfl
  simp only [List.dropWhile, this]
  exact Clean_ne_empty _

theorem chainPath_ne_empty (mr : Resolver) (chain : List (Nat × Ptr)) :
    (chainPath mr chain).length ≠ 0 := by
  unfold chainPath
  generalize chain.tail.map (fun m => (deref mr.heap m.2).MountPointStr) = pts
  induction pts using List.reverseRecOn with
  | nil => decide
  | append_singleton l a _ =>
    rw [List.foldl_append]
    exact Join_ne_empty _ _ (by assumption)

theorem chainPath_snoc (mr : Resolver) (init : List (Nat × Ptr)) (m : Nat × Ptr)
    (h : init ≠ []) :
    chainPath mr (init ++ [m]) = Join [chainPath mr init, (deref mr.heap m.2).MountPointStr] := by
  unfold chainPath
  rw [List.tail_append_of_ne_nil h, List.map_append, List.foldl_append]
  rfl

theorem PathChain_init (mr : Resolver) (init : List (Nat × Ptr)) (m : Nat × Ptr)
    (h : init ≠ []) (hc : PathChain mr (init ++ [m])) :
    PathChain mr init ∧ (∃ a, init.getLast? = some a ∧ ChildLink mr a m) ∧
      ∀ x ∈ init, x.1 ≠ m.1 := by
  obtain ⟨hd, hl, hr, hk⟩ := hc
  rw [List.chain'_append] at hk
  rw [List.map_append, List.nodup_append] at hd
  obtain ⟨a, ha⟩ : ∃ a, init.getLast? = some a := by
    cases hg : init.getLast? with
    | none => exact absurd (List.getLast?_eq_none_iff.1 hg) h
    | some a => exact ⟨a, rfl⟩
  refine ⟨⟨hd.1, fun x hx => hl x (List.mem_append_left _ hx), ?_, hk.1⟩,
    ⟨a, ha, hk.2.2 a ha m rfl⟩, ?_⟩
  · obtain ⟨m0, h0, h1⟩ := hr
    refine ⟨m0, ?_, h1⟩
    cases init with
    | nil => exact absurd rfl h
    | cons x xs => simpa using h0
  · intro x hx hxm
    exact hd.2.2 (List.mem_map_of_mem Prod.fst hx) (by simp [hxm])

/-- Path construction along a chain, with enough fuel and none of the mount IDs
of the chain visited yet. -/
theorem getMountPath_chain (mr : Resolver) :
    ∀ (chain : List (Nat × Ptr)), PathChain mr chain →
      ∀ (mk : Nat × Ptr) (cache : List Nat) (fuel : Nat), chain.getLast? = some mk →
        (∀ m ∈ chain, m.1 ∉ cache) → chain.length ≤ fuel →
        ∃ mr1, mr._getMountPath fuel mk.1 cache = some (mr1, Except.ok (chainPath mr chain)) := by
  intro chain
  induction chain using List.reverseRecOn with
  | nil => intro hc; obtain ⟨m0, h0, _⟩ := hc.root; simp at h0
  | append_singleton init m ih =>
    intro hc mk cache fuel hlast hcache hfuel
    have hmk : mk = m := by simpa using hlast.symm
    subst hmk
    obtain ⟨hvalid, hget⟩ := hc.live mk (by simp)
    obtain ⟨f, rfl⟩ : ∃ f, fuel = f + 1 := ⟨fuel - 1, by simp at hfuel; omega⟩
    rw [Resolver._getMountPath]
    simp only [hvalid, hget]
    by_cases hinit : init = []
    · subst hinit
      obtain ⟨m0, h0, hmp, hpath⟩ := hc.root
      have : m0 = mk := by simpa using h0.symm
      subst this
      have hcp : chainPath mr ([] ++ [m0]) = "/" := rfl
      rw [hcp]
      rcases hpath with hp | hp
      · rw [hp, hmp]
        exact ⟨mr, by simp⟩
      · rw [hp, if_pos (by decide : ("/" : String).length > 0)]
        exact ⟨mr, rfl⟩
    · obtain ⟨hci, ⟨a, ha, hlink⟩, hne⟩ := PathChain_init mr init mk hinit hc
      obtain ⟨hpar, hmp, hpath⟩ := hlink
      have hnc : cache.contains mk.1 = false := by
        have := hcache mk (by simp)
        simpa using this
      obtain ⟨hva, _⟩ := hci.live a (List.mem_of_mem_getLast? ha)
      have ha0 : a.1 ≠ 0 := by
        intro h
        simp [Resolver.IsMountIDValid, h] at hva
      obtain ⟨mr1, hrec⟩ := ih hci a (mk.1 :: cache) f ha
        (by
          intro x hx
          simp only [List.mem_cons, not_or]
          exact ⟨hne x hx, hcache x (List.mem_append_left _ hx)⟩)
        (by simp at hfuel; omega)
      have hmp2 : ((deref mr.heap mk.2).MountPointStr == "/") = false := by simpa using hmp
      rw [hpath, hmp2, hnc, hpar]
      have ha02 : (a.1 == 0) = false := by simpa using ha0
      simp only [ha02, hrec]
      rw [chainPath_snoc mr init mk hinit]
      have hne2 := Join_ne_empty (chainPath mr init) (deref mr.heap mk.2).MountPointStr
        (chainPath_ne_empty mr init)
      have hne3 : ((Join [chainPath mr init, (deref mr.heap mk.2).MountPointStr]).length == 0)
          = false := by simpa using hne2
      simp [hne3]

theorem PathChain_length_le (mr : Resolver) (chain : List (Nat × Ptr)) (hc : PathChain mr chain) :
    chain.length ≤ mr.mounts.RealLen := by
  have hsub : chain.map Prod.fst ⊆ mr.mounts.keys := by
    intro k hk
    obtain ⟨m, hm, rfl⟩ := List.mem_map.1 hk
    exact (mem_keys _ _).2 ⟨m.2, mem_of_Get _ _ _ (hc.live m hm).2⟩
  have := (List.Nodup.subperm hc.distinct hsub).length_le
  simpa [MountMap.keys, MountMap.RealLen] using this

/-! ## Well-formedness of the reachable states -/

theorem insertUmount_redemption_subset (mr : Resolver) (m : Ptr) (e : Nat × Ptr)
    (h : e ∈ (mr.insertUmount m).redemption.items) : e ∈ mr.redemption.items := by
  unfold Resolver.insertUmount at h
  split at h
  · split at h
    · cases hr : (mr.redemption.Remove _).2 with
      | none => rw [hr] at h; exact LRU_Remove_items _ _ e h
      | some ev => rw [hr] at h; exact LRU_Remove_items _ _ e h
    · exact LRU_Remove_items _ _ e h
  · exact h

theorem keys_nodup_Insert (m : MountMap) (id : Nat) (p : Ptr) (h : m.keys.Nodup) :
    (m.Insert id p).keys.Nodup := by
  have h1 := keys_nodup_Delete m id h
  have h2 : id ∉ (m.Delete id).keys := fun hk => ((keys_Delete m id id).1 hk).2 rfl
  unfold MountMap.Insert MountMap.keys
  unfold MountMap.keys at h1 h2
  rw [List.map_append, List.nodup_append]
  refine ⟨h1, by simp, ?_⟩
  intro a ha hb
  simp only [List.map_cons, List.map_nil, List.mem_singleton] at hb
  rw [hb] at ha
  exact h2 ha

theorem mem_Insert (m : MountMap) (id : Nat) (p : Ptr) (e : Nat × Ptr)
    (h : e ∈ (m.Insert id p).entries) : e = (id, p) ∨ (e ∈ m.entries ∧ e.1 ≠ id) := by
  unfold MountMap.Insert at h
  rcases List.mem_append.1 h with h1 | h1
  · exact Or.inr ((mem_Delete m id e).1 h1)
  · exact Or.inl (by simpa using h1)

/-- `insert` of a record that nothing refers to yet keeps the state well formed. -/
theorem WF_insert (mr : Resolver) (m : Ptr) (h : mr.WF) (hm : m < mr.heap.length)
    (hf1 : ∀ e ∈ mr.mounts.entries, e.2 ≠ m) (hf2 : ∀ e ∈ mr.redemption.items, e.2 ≠ m) :
    (mr.insert m).WF := by
  obtain ⟨hu, hcl, _⟩ := insertUmount_spec mr m mr.mounts h (ClosedIn_refl _ _)
  have hheap := insert_heap mr m
  have hmounts := insert_mounts mr m hm
  have hred := insert_redemption mr m
  have hother : ∀ p, p ≠ m → deref (mr.insert m).heap p = deref mr.heap p := by
    intro p hp
    rw [hheap]
    exact deref_set_other _ _ _ _ (Ne.symm hp)
  have hself : (deref (mr.insert m).heap m).MountID = (deref mr.heap m).MountID := by
    rw [hheap, deref_set_self _ _ _ hm, normalizeMount_MountID]
  have hlen : (mr.insert m).heap.length = mr.heap.length := by rw [hheap]; simp
  have hu1 : MapWF mr.heap (mr.insertUmount m).mounts := by
    have := hu.1; rw [insertUmount_heap] at this; exact this
  refine ⟨⟨?_, ?_⟩, ?_, ?_⟩
  · rw [hmounts]; exact keys_nodup_Insert _ _ _ hu1.1
  · intro e he
    rw [hmounts] at he
    rcases mem_Insert _ _ _ e he with h1 | ⟨h1, _⟩
    · rw [h1]; exact hself
    · rw [hother _ (hf1 e (hcl.1 e h1))]
      exact hu1.2 e h1
  · intro e he
    rw [hmounts] at he
    rw [hlen]
    rcases mem_Insert _ _ _ e he with h1 | ⟨h1, _⟩
    · rw [h1]; exact hm
    · exact h.2.1 e (hcl.1 e h1)
  · intro e he
    rw [hred] at he
    have he2 := insertUmount_redemption_subset mr m e he
    rw [hother _ (hf2 e he2), hlen]
    exact h.2.2 e he2

theorem WF_alloc_insert (mr : Resolver) (e : Mount) (h : mr.WF) :
    ((mr.alloc e).1.insert (mr.alloc e).2).WF := by
  apply WF_insert _ _ (alloc_WF mr e h)
  · simp [Resolver.alloc]
  · intro x hx
    exact Nat.ne_of_lt (h.2.1 x hx)
  · intro x hx
    exact Nat.ne_of_lt (h.2.2 x hx).2

theorem WF_Insert (mr : Resolver) (e : Mount) (h : mr.WF) : (mr.Insert e).1.WF := by
  unfold Resolver.Insert
  split
  · exact h
  · exact WF_alloc_insert mr e h

theorem WF_Delete (mr : Resolver) (now id : Nat) (h : mr.WF) : (mr.Delete now id).1.WF := by
  unfold Resolver.Delete
  split
  · exact h
  · exact h

theorem WF_dequeue (mr : Resolver) (now : Nat) (h : mr.WF) : (mr.dequeue now).WF :=
  (dequeue_spec mr now mr.mounts h (ClosedIn_refl _ _)).1

theorem WF_syncPidLoop : ∀ (mnts : List MountInfo) (mr : Resolver), mr.WF →
    (syncPidLoop mnts mr).WF := by
  intro mnts
  induction mnts with
  | nil => intro mr h; exact h
  | cons mnt rest ih =>
    intro mr h
    unfold syncPidLoop
    split
    · exact ih mr h
    · exact ih _ (WF_alloc_insert mr _ h)

theorem WF_syncPid (mr : Resolver) (env : Env) (pid : Nat) (h : mr.WF) :
    (mr.syncPid env pid).1.WF := by
  unfold Resolver.syncPid
  split
  · exact h
  · exact WF_syncPidLoop _ _ h

theorem WF_syncCacheLoop (env : Env) : ∀ (pids : List Nat) (mr : Resolver) (err : Option MountError),
    mr.WF → (syncCacheLoop env pids mr err).1.WF := by
  intro pids
  induction pids with
  | nil => intro mr err h; exact h
  | cons pid rest ih =>
    intro mr err h
    unfold syncCacheLoop
    split
    · exact WF_syncPid mr env pid h
    · exact ih _ _ (WF_syncPid mr env pid h)

theorem WF_syncCache (mr : Resolver) (env : Env) (pids : List Nat) (h : mr.WF) :
    (mr.syncCache env pids).1.WF :=
  WF_syncCacheLoop env pids mr none h

theorem WF_SyncCache (mr : Resolver) (env : Env) (pid : Nat) (h : mr.WF) :
    (mr.SyncCache env pid).1.WF := by
  unfold Resolver.SyncCache
  split
  · exact WF_syncCache mr env [pid] h
  · exact WF_syncCache mr env [pid] h

theorem LRU_Get_items (c : LRU) (key : Nat) (e : Nat × Ptr)
    (h : e ∈ (c.Get key).1.items) : e ∈ c.items := by
  unfold LRU.Get at h
  split at h
  · rename_i v hv
    simp only [List.mem_cons, List.mem_filter] at h
    rcases h with h | h
    · rw [h]; exact mem_of_Get ⟨c.items⟩ key v hv
    · exact h.1
  · exact h

theorem SameButPath_refl (a : Mount) : SameButPath a a := ⟨rfl, rfl, rfl, rfl, rfl, rfl⟩

theorem SameButPath_trans (a b c : Mount) (h1 : SameButPath a b) (h2 : SameButPath b c) :
    SameButPath a c :=
  ⟨h1.1.trans h2.1, h1.2.1.trans h2.2.1, h1.2.2.1.trans h2.2.2.1, h1.2.2.2.1.trans h2.2.2.2.1,
    h1.2.2.2.2.1.trans h2.2.2.2.2.1, h1.2.2.2.2.2.trans h2.2.2.2.2.2⟩

theorem deref_set_path (h : List Mount) (p q : Ptr) (path : String) :
    SameButPath (deref (h.set p { deref h p with Path := path }) q) (deref h q) := by
  by_cases hpq : p = q
  · subst hpq
    by_cases hp : p < h.length
    · rw [deref_set_self _ _ _ hp]
      exact ⟨rfl, rfl, rfl, rfl, rfl, rfl⟩
    · rw [List.set_eq_of_length_le (Nat.le_of_not_lt hp)]
      exact SameButPath_refl _
  · rw [deref_set_other _ _ _ _ hpq]
    exact SameButPath_refl _

/-- Path construction changes nothing but cached paths. -/
theorem getMountPath_frame (mr : Resolver) :
    ∀ (fuel id : Nat) (cache : List Nat) (mr1 : Resolver) (r : Except MountError String),
      mr._getMountPath fuel id cache = some (mr1, r) →
      ∃ h1 : List Mount, mr1 = { mr with heap := h1 } ∧ h1.length = mr.heap.length ∧
        ∀ p, SameButPath (deref h1 p) (deref mr.heap p) := by
  intro fuel
  induction fuel with
  | zero => intro id cache mr1 r h; simp [Resolver._getMountPath] at h
  | succ fuel ih =>
    intro id cache mr1 r h
    have base : ∃ h1 : List Mount, mr = { mr with heap := h1 } ∧ h1.length = mr.heap.length ∧
        ∀ p, SameButPath (deref h1 p) (deref mr.heap p) :=
      ⟨mr.heap, rfl, rfl, fun _ => SameButPath_refl _⟩
    rw [Resolver._getMountPath] at h
    split at h
    · cases h; exact base
    · split at h
      · cases h; exact base
      · rename_i mount _
        split at h
        · cases h; exact base
        · split at h
          · cases h; exact base
          · split at h
            · cases h; exact base
            · split at h
              · cases h; exact base
              · split at h
                · cases h
                · rename_i mr2 err hrec
                  cases h
                  exact ih _ _ _ _ hrec
                · rename_i mr2 ppath hrec
                  obtain ⟨h2, e2, l2, s2⟩ := ih _ _ _ _ hrec
                  split at h
                  · cases h
                    exact ⟨h2, e2, l2, s2⟩
                  · cases h
                    subst e2
                    refine ⟨_, rfl, ?_, ?_⟩
                    · simp only [List.length_set]; exact l2
                    · intro p
                      exact SameButPath_trans _ _ _ (deref_set_path h2 mount p _) (s2 p)

theorem WF_of_frame (mr : Resolver) (h1 : List Mount) (h : mr.WF)
    (hl : h1.length = mr.heap.length) (hs : ∀ p, SameButPath (deref h1 p) (deref mr.heap p)) :
    Resolver.WF { mr with heap := h1 } := by
  obtain ⟨a, b, c⟩ := h
  refine ⟨⟨a.1, fun e he => ?_⟩, fun e he => ?_, fun e he => ?_⟩
  · show (deref h1 e.2).MountID = e.1
    rw [(hs e.2).1]; exact a.2 e he
  · show e.2 < h1.length
    rw [hl]; exact b e he
  · show (deref h1 e.2).MountID = e.1 ∧ e.2 < h1.length
    rw [(hs e.2).1, hl]; exact c e he

theorem getMountPath_eq (mr : Resolver) (id : Nat) :
    ∃ h1 : List Mount, (mr.getMountPath id).1 = { mr with heap := h1 } ∧
      h1.length = mr.heap.length ∧ ∀ p, SameButPath (deref h1 p) (deref mr.heap p) := by
  unfold Resolver.getMountPath
  split
  · rename_i r hr
    obtain ⟨mr1, res⟩ := r
    exact getMountPath_frame mr _ _ _ mr1 res hr
  · exact ⟨mr.heap, rfl, rfl, fun _ => SameButPath_refl _⟩

theorem WF_getMountPath (mr : Resolver) (id : Nat) (h : mr.WF) : (mr.getMountPath id).1.WF := by
  obtain ⟨h1, e, l, s⟩ := getMountPath_eq mr id
  rw [e]
  exact WF_of_frame mr h1 h l s

theorem WF_stats (mr : Resolver) (a b c d : Nat) (lim : Limiter) (scans : List Nat) (h : mr.WF) :
    Resolver.WF { mr with cacheHitsStats := a, cacheMissStats := b, procHitsStats := c,
                          procMissStats := d, fallbackLimiter := lim, procScans := scans } := h

theorem WF_resolveMountMiss (mr : Resolver) (env : Env) (id : Nat) (pids : List Nat)
    (h : mr.WF) : (mr.resolveMountMiss env id pids).1.WF := by
  unfold Resolver.resolveMountMiss
  split
  · exact h
  · split
    · exact h
    · have hs := WF_syncCache { mr with
          cacheMissStats := mr.cacheMissStats + 1
          fallbackLimiter := (mr.fallbackLimiter.IsAllowed env id).2 } env pids h
      split
      · rename_i mr1 err heq
        rw [heq] at hs
        exact hs
      · rename_i mr1 heq
        rw [heq] at hs
        split
        · exact hs
        · exact hs

theorem WF_resolveMount (mr : Resolver) (env : Env) (id : Nat) (containerID : String)
    (pids : List Nat) (h : mr.WF) : (mr.resolveMount env id containerID pids).1.WF := by
  unfold Resolver.resolveMount
  split
  · exact h
  · split
    · exact ⟨h.1, h.2.1, fun e he => h.2.2 e (LRU_Get_items _ _ e he)⟩
    · exact WF_resolveMountMiss mr env id _ h

theorem WF_resolveMountPathMiss (mr : Resolver) (env : Env) (id : Nat) (pids : List Nat)
    (h : mr.WF) : (mr.resolveMountPathMiss env id pids).1.WF := by
  unfold Resolver.resolveMountPathMiss
  split
  · exact h
  · split
    · exact h
    · have hs := WF_syncCache { mr with
          cacheMissStats := mr.cacheMissStats + 1
          fallbackLimiter := (mr.fallbackLimiter.IsAllowed env id).2 } env pids h
      split
      · rename_i mr1 err heq
        rw [heq] at hs
        exact hs
      · rename_i mr1 heq
        rw [heq] at hs
        have hg := WF_getMountPath mr1 id hs
        split
        · rename_i mr2 path heq2
          rw [heq2] at hg
          exact hg
        · rename_i mr2 err heq2
          rw [heq2] at hg
          exact hg

theorem WF_resolveMountPath (mr : Resolver) (env : Env) (id : Nat) (containerID : String)
    (pid : Nat) (h : mr.WF) : (mr.resolveMountPath env id containerID pid).1.WF := by
  unfold Resolver.resolveMountPath
  split
  · exact h
  · have hg := WF_getMountPath mr id h
    split
    · rename_i mr1 path heq
      rw [heq] at hg
      exact ⟨hg.1, hg.2.1, fun e he => hg.2.2 e (LRU_Get_items _ _ e he)⟩
    · rename_i mr1 err heq
      rw [heq] at hg
      exact WF_resolveMountPathMiss mr1 env id _ hg

theorem WF_NewResolver (opts : ResolverOpts) : (NewResolver opts).WF := by
  refine ⟨⟨by simp [NewResolver, NewMountMap, MountMap.keys], ?_⟩, ?_, ?_⟩ <;>
    intro e he <;> simp [NewResolver, NewMountMap] at he

/-- Every state the resolver goes through is well formed. -/
theorem Reachable_WF (mr : Resolver) (h : Reachable mr) : mr.WF := by
  induction h with
  | init opts => exact WF_NewResolver opts
  | Insert mr e _ ih => exact WF_Insert mr e ih
  | Delete mr now id _ ih => exact WF_Delete mr now id ih
  | dequeue mr now _ ih => exact WF_dequeue mr now ih
  | SyncCache mr env pid _ ih => exact WF_SyncCache mr env pid ih
  | ResolveMount mr env id pid c _ ih => exact WF_resolveMount mr env id c [pid] ih
  | ResolveMountPath mr env id pid c _ ih => exact WF_resolveMountPath mr env id c pid ih
  | ResolveMountRoot mr env id pid c _ ih =>
    have := WF_resolveMount mr env id c [pid] ih
    unfold Resolver.ResolveMountRoot
    split
    · rename_i mr1 err heq; rw [heq] at this; exact this
    · rename_i mr1 m heq; rw [heq] at this; exact this
  | ResolveFilesystem mr env id pid c _ ih =>
    have := WF_resolveMount mr env id c [pid] ih
    unfold Resolver.ResolveFilesystem
    split
    · rename_i mr1 err heq; rw [heq] at this; exact this
    · rename_i mr1 m heq; rw [heq] at this; exact this
  | SendStats mr fails _ ih =>
    unfold Resolver.SendStats
    split
    · exact ih
    · split
      · exact ih
      · split
        · exact ih
        · exact ih

/-! ## Fuel of the path construction -/

theorem unvisited_lt (m : MountMap) (cache : List Nat) (id : Nat) (p : Ptr)
    (hg : m.Get id = some p) (hc : cache.contains id = false) :
    unvisited m (id :: cache) < unvisited m cache := by
  unfold unvisited
  have hk : id ∈ m.keys := (mem_keys m id).2 ⟨p, mem_of_Get m id p hg⟩
  have h1 : m.keys.filter (fun k => !(id :: cache).contains k)
      = (m.keys.filter (fun k => !cache.contains k)).filter (fun k => k != id) := by
    rw [List.filter_filter]
    apply List.filter_congr
    intro k _
    by_cases hki : k = id
    · simp [hki]
    · simp [hki]
  rw [h1]
  apply List.length_filter_lt_length_iff_exists.2
  refine ⟨id, List.mem_filter.2 ⟨hk, by rw [hc]; rfl⟩, by simp⟩

/-- Path construction never runs out of fuel when it is given more fuel than
there are bindings with a mount ID not visited yet. -/
theorem getMountPath_fuel (mr : Resolver) :
    ∀ (fuel id : Nat) (cache : List Nat), unvisited mr.mounts cache < fuel →
      mr._getMountPath fuel id cache ≠ none := by
  intro fuel
  induction fuel with
  | zero => intro id cache h; omega
  | succ fuel ih =>
    intro id cache h
    rw [Resolver._getMountPath]
    split
    · simp
    · split
      · simp
      · rename_i mount hg
        split
        · simp
        · split
          · simp
          · split
            · simp
            · rename_i hc
              split
              · simp
              · have hlt := unvisited_lt mr.mounts cache id mount hg (by simpa using hc)
                have hrec := ih (deref mr.heap mount).ParentMountID (id :: cache) (by omega)
                split
                · rename_i hnone; exact absurd hnone hrec
                · simp
                · split <;> simp

/-- The fuel that `getMountPath` grants is enough: the fallback of its
definition is never taken. -/
theorem getMountPath_total (mr : Resolver) (id : Nat) :
    ∃ r, mr._getMountPath (mr.mounts.RealLen + 1) id [] = some r ∧ mr.getMountPath id = r := by
  have h := getMountPath_fuel mr (mr.mounts.RealLen + 1) id [] (by
    unfold unvisited MountMap.keys MountMap.RealLen
    have := List.length_filter_le (fun k => !([] : List Nat).contains k)
      (mr.mounts.entries.map Prod.fst)
    simp only [List.length_map] at this
    omega)
  cases hr : mr._getMountPath (mr.mounts.RealLen + 1) id [] with
  | none => exact absurd hr h
  | some r => exact ⟨r, rfl, by unfold Resolver.getMountPath; rw [hr]⟩

/-! ## Cleaning and joining paths -/

theorem intercalate_snoc (sep : List Char) (xs : List (List Char)) (y : List Char) (h : xs ≠ []) :
    List.intercalate sep (xs ++ [y]) = List.intercalate sep xs ++ sep ++ y := by
  induction xs with
  | nil => exact absurd rfl h
  | cons x rest ih =>
    cases rest with
    | nil => simp [List.intercalate]
    | cons z rest2 =>
      have := ih (by simp)
      simp only [List.intercalate, List.cons_append, List.intersperse_cons₂,
        List.flatten_cons] at this ⊢
      rw [this]
      simp

theorem splitSlash_ne_nil (l : List Char) : splitSlash l ≠ [] := by
  cases l with
  | nil => simp [splitSlash]
  | cons c cs =>
    unfold splitSlash
    split
    · simp
    · split <;> simp

theorem splitSlash_append (a b : List Char) :
    splitSlash (a ++ '/' :: b) = splitSlash a ++ splitSlash b := by
  induction a with
  | nil => simp [splitSlash]
  | cons c cs ih =>
    simp only [List.cons_append]
    rw [splitSlash, splitSlash, ih]
    by_cases hc : (c == '/') = true
    · simp [hc]
    · simp only [hc]
      cases hs : splitSlash cs with
      | nil => exact absurd hs (splitSlash_ne_nil cs)
      | cons x xs => simp

theorem splitSlash_no_slash (l : List Char) (h : '/' ∉ l) : splitSlash l = [l] := by
  induction l with
  | nil => rfl
  | cons c cs ih =>
    have hc : (c == '/') = false := by
      simp only [List.mem_cons, not_or] at h
      simpa using fun e => h.1 e.symm
    have hcs : '/' ∉ cs := fun hm => h (List.mem_cons_of_mem _ hm)
    rw [splitSlash, ih hcs]
    simp [hc]

theorem splitSlash_mem_no_slash (l : List Char) : ∀ c ∈ splitSlash l, '/' ∉ c := by
  induction l with
  | nil => intro c hc; simp [splitSlash] at hc; simp [hc]
  | cons x xs ih =>
    intro c hc
    rw [splitSlash] at hc
    by_cases hx : (x == '/') = true
    · simp only [hx, if_true, List.mem_cons] at hc
      rcases hc with h | h
      · simp [h]
      · exact ih c h
    · simp only [hx] at hc
      cases hs : splitSlash xs with
      | nil => exact absurd hs (splitSlash_ne_nil xs)
      | cons y ys =>
        rw [hs] at hc ih
        have hc2 : c = x :: y ∨ c ∈ ys := by simpa using hc
        rcases hc2 with h | h
        · rw [h]
          simp only [List.mem_cons, not_or]
          exact ⟨fun e => hx (by simp [← e]), ih y (by simp)⟩
        · exact ih c (List.mem_cons_of_mem _ h)

theorem rootedBuf_ne_nil (stack : List (List Char)) : rootedBuf stack ≠ [] := by
  match stack with
  | [] => simp [rootedBuf]
  | [c] => simp [rootedBuf]
  | c :: d :: rest => simp [rootedBuf]

theorem rootedBuf_cons (c : List Char) (rest : List (List Char)) :
    rootedBuf (c :: rest) = c.reverse ++ '/' :: (if rest = [] then [] else rootedBuf rest) := by
  cases rest with
  | nil => simp [rootedBuf]
  | cons d rest2 => simp [rootedBuf]

theorem backtrackLoop_elem (xs more : List Char) (last : Char) (hx : ∀ x ∈ xs, x ≠ '/')
    (hl : last ≠ '/') :
    backtrackLoop 1 (xs ++ '/' :: more) last = if more = [] then ['/'] else more := by
  induction xs generalizing last with
  | nil =>
    simp only [List.nil_append]
    rw [backtrackLoop]
    cases more with
    | nil => simp
    | cons m ms =>
      have h1 : (last != '/') = true := by simpa using hl
      simp only [List.length_cons, h1, Bool.and_true]
      rw [if_pos (by simp)]
      rw [backtrackLoop]
      simp
  | cons x xs ih =>
    simp only [List.cons_append]
    rw [backtrackLoop]
    have h1 : (last != '/') = true := by simpa using hl
    simp only [List.length_cons, List.length_append, h1, Bool.and_true]
    rw [if_pos (by simp)]
    exact ih x (fun y hy => hx y (List.mem_cons_of_mem _ hy)) (hx x (by simp))

theorem stackStep_real (stack : List (List Char)) (comp : List Char)
    (hs : ∀ c ∈ stack, RealElem c) (hc : '/' ∉ comp) : ∀ c ∈ stackStep stack comp, RealElem c := by
  unfold stackStep
  by_cases h1 : comp = []
  · simp only [h1, beq_self_eq_true, if_true]; exact hs
  · by_cases h2 : comp = ['.']
    · simp [h2]; exact hs
    · by_cases h3 : comp = ['.', '.']
      · simp [h3]
        intro c hcm
        exact hs c (List.mem_of_mem_tail hcm)
      · have e1 : (comp == []) = false := by simpa using h1
        have e2 : (comp == ['.']) = false := by simpa using h2
        have e3 : (comp == ['.', '.']) = false := by simpa using h3
        simp only [e1, e2, e3]
        intro c hcm
        rcases List.mem_cons.1 hcm with h | h
        · rw [h]; exact ⟨h1, hc, h2, h3⟩
        · exact hs c h

theorem cleanStep_rooted (stack : List (List Char)) (comp : List Char)
    (hs : ∀ c ∈ stack, RealElem c) :
    cleanStep true (rootedBuf stack, 1) comp = (rootedBuf (stackStep stack comp), 1) := by
  unfold cleanStep stackStep
  by_cases h1 : comp = []
  · simp [h1]
  · by_cases h2 : comp = ['.']
    · simp [h2]
    · have e1 : (comp == []) = false := by simpa using h1
      have e2 : (comp == ['.']) = false := by simpa using h2
      by_cases h3 : comp = ['.', '.']
      · have e3 : (comp == ['.', '.']) = true := by simp [h3]
        simp only [e1, e2, e3]
        cases stack with
        | nil => simp [rootedBuf]
        | cons c rest =>
          obtain ⟨hne, hns, _, _⟩ := hs c (by simp)
          rw [rootedBuf_cons]
          obtain ⟨last, r0, hrev⟩ : ∃ last r0, c.reverse = last :: r0 := by
            cases hr : c.reverse with
            | nil => exact absurd (List.reverse_eq_nil_iff.1 hr) hne
            | cons a b => exact ⟨a, b, rfl⟩
          have hmem : ∀ x ∈ last :: r0, x ≠ '/' := by
            intro x hx hxe
            rw [← hrev, List.mem_reverse, hxe] at hx
            exact hns hx
          rw [hrev]
          simp only [List.cons_append, List.length_cons, List.length_append, List.tail_cons,
            Bool.false_eq_true, if_false, if_true]
          rw [if_pos (by omega)]
          rw [backtrackLoop_elem r0 _ last (fun x hx => hmem x (List.mem_cons_of_mem _ hx))
            (hmem last (by simp))]
          cases rest with
          | nil => simp [rootedBuf]
          | cons d rest2 => simp [rootedBuf_ne_nil]
      · have e3 : (comp == ['.', '.']) = false := by simpa using h3
        simp only [e1, e2, e3]
        cases stack with
        | nil => simp [rootedBuf]
        | cons c rest =>
          obtain ⟨hne, _, _, _⟩ := hs c (by simp)
          have hlen : (rootedBuf (c :: rest)).length ≠ 1 := by
            rw [rootedBuf_cons]
            have : c.length ≠ 0 := fun h => hne (List.length_eq_zero.1 h)
            simp only [List.length_append, List.length_reverse, List.length_cons]
            omega
          simp [hlen, rootedBuf]

theorem cleanFold_rooted (comps : List (List Char)) :
    ∀ (stack : List (List Char)), (∀ c ∈ stack, RealElem c) → (∀ c ∈ comps, '/' ∉ c) →
      comps.foldl (cleanStep true) (rootedBuf stack, 1)
        = (rootedBuf (comps.foldl stackStep stack), 1) ∧
      ∀ c ∈ comps.foldl stackStep stack, RealElem c := by
  induction comps with
  | nil => intro stack hs _; exact ⟨rfl, hs⟩
  | cons comp rest ih =>
    intro stack hs hc
    simp only [List.foldl_cons]
    rw [cleanStep_rooted stack comp hs]
    exact ih _ (stackStep_real stack comp hs (hc comp (by simp)))
      (fun c hcm => hc c (List.mem_cons_of_mem _ hcm))

theorem stackFold_push (comps : List (List Char)) (hc : ∀ c ∈ comps, RealElem c) :
    ∀ stack, comps.foldl stackStep stack = comps.reverse ++ stack := by
  induction comps with
  | nil => intro stack; rfl
  | cons comp rest ih =>
    intro stack
    obtain ⟨h1, _, h2, h3⟩ := hc comp (by simp)
    have e1 : (comp == []) = false := by simpa using h1
    have e2 : (comp == ['.']) = false := by simpa using h2
    have e3 : (comp == ['.', '.']) = false := by simpa using h3
    simp only [List.foldl_cons, List.reverse_cons, List.append_assoc]
    rw [ih (fun c hcm => hc c (List.mem_cons_of_mem _ hcm))]
    simp [stackStep, e1, e2, e3]

theorem split_rootedBuf (stack : List (List Char)) (hs : ∀ c ∈ stack, RealElem c) :
    splitSlash (rootedBuf stack).reverse = [] :: (if stack = [] then [[]] else stack.reverse) := by
  induction stack with
  | nil => simp [rootedBuf, splitSlash]
  | cons c rest ih =>
    have hns := (hs c (by simp)).2.1
    rw [rootedBuf_cons]
    simp only [List.reverse_append, List.reverse_cons, List.reverse_reverse, List.append_assoc,
      List.singleton_append]
    rw [splitSlash_append, splitSlash_no_slash c hns]
    cases rest with
    | nil => simp [splitSlash]
    | cons d rest2 =>
      have := ih (fun x hx => hs x (List.mem_cons_of_mem _ hx))
      simp only [reduceCtorEq, if_false] at this ⊢
      rw [this]
      simp

theorem rootedBuf_head (stack : List (List Char)) :
    (rootedBuf stack).reverse.head? = some '/' := by
  induction stack with
  | nil => rfl
  | cons c rest ih =>
    rw [rootedBuf_cons]
    cases rest with
    | nil => simp
    | cons d rest2 =>
      simp only [reduceCtorEq, if_false, List.reverse_append, List.reverse_cons,
        List.append_assoc]
      have hne : (rootedBuf (d :: rest2)).reverse ≠ [] := by
        simpa using rootedBuf_ne_nil (d :: rest2)
      rw [List.head?_append_of_ne_nil _ hne]
      exact ih

/-- The loop of `path.Clean` on a rooted path ends with the buffer of the
elements it kept. -/
theorem cleanLoop_rooted (p : List Char) (hp : p.head? = some '/') :
    cleanLoop p = rootedBuf ((splitSlash p).foldl stackStep []) ∧
    ∀ c ∈ (splitSlash p).foldl stackStep [], RealElem c := by
  unfold cleanLoop
  have hr : (p.head? == some '/') = true := by simp [hp]
  rw [hr]
  simp only [if_true]
  have := cleanFold_rooted (splitSlash p) [] (fun _ h => by simp at h)
    (splitSlash_mem_no_slash p)
  have e : (['/'], 1) = (rootedBuf [], 1) := rfl
  rw [e, this.1]
  exact ⟨rfl, this.2⟩

/-- Cleaning a rooted path, appending an element and cleaning again is cleaning
the path with the element appended. -/
theorem cleanLoop_reclean (p y : List Char) (hp : p.head? = some '/') :
    cleanLoop ((cleanLoop p).reverse ++ '/' :: y) = cleanLoop (p ++ '/' :: y) := by
  obtain ⟨h1, hreal⟩ := cleanLoop_rooted p hp
  have hL : ((cleanLoop p).reverse ++ '/' :: y).head? = some '/' := by
    rw [h1, List.head?_append_of_ne_nil _ (by simpa using rootedBuf_ne_nil _)]
    exact rootedBuf_head _
  have hR : (p ++ '/' :: y).head? = some '/' := by
    cases p with
    | nil => simp at hp
    | cons a b => simpa using hp
  rw [(cleanLoop_rooted _ hL).1, (cleanLoop_rooted _ hR).1]
  congr 1
  rw [splitSlash_append, splitSlash_append, List.foldl_append, List.foldl_append]
  congr 1
  rw [h1, split_rootedBuf _ hreal]
  simp only [List.foldl_cons]
  have h0 : stackStep [] [] = [] := rfl
  rw [h0]
  by_cases hs : (splitSlash p).foldl stackStep [] = []
  · rw [hs]; rfl
  · rw [if_neg hs, stackFold_push _ (by
      intro c hc
      exact hreal c (List.mem_reverse.1 hc))]
    simp

theorem Clean_congr (a b : String) (h1 : a.data ≠ []) (h2 : b.data ≠ [])
    (h : cleanLoop a.data = cleanLoop b.data) : Clean a = Clean b := by
  unfold Clean
  have e1 : (a.data == []) = false := by simpa using h1
  have e2 : (b.data == []) = false := by simpa using h2
  rw [e1, e2, h]

theorem Clean_rooted_data (p : String) (hp : p.data.head? = some '/') :
    (Clean p).data = (cleanLoop p.data).reverse ∧ (cleanLoop p.data) ≠ [] := by
  have hne : p.data ≠ [] := by
    intro h; rw [h] at hp; simp at hp
  have hb : cleanLoop p.data ≠ [] := by
    rw [(cleanLoop_rooted _ hp).1]; exact rootedBuf_ne_nil _
  unfold Clean
  have e1 : (p.data == []) = false := by simpa using hne
  have e2 : ((cleanLoop p.data).length == 0) = false := by
    simpa using fun h => hb (List.length_eq_zero.1 h)
  rw [e1, e2]
  exact ⟨rfl, hb⟩

/-- Joining the cleaned rooted path `p` with an element is cleaning `p`, a
separator and the element. -/
theorem Join_Clean_rooted (p : List Char) (b : String) (hp : p.head? = some '/') :
    Join [Clean (String.mk p), b] = Clean (String.mk (p ++ '/' :: b.data)) := by
  obtain ⟨hd, hb⟩ := Clean_rooted_data (String.mk p) hp
  have hane : (Clean (String.mk p)).data ≠ [] := by
    rw [hd]; simpa using hb
  have e : ((Clean (String.mk p)).data == []) = false := by simpa using hane
  unfold Join
  simp only [List.dropWhile, e]
  apply Clean_congr
  · simp [List.intercalate, hane]
  · cases p with
    | nil => simp at hp
    | cons x xs => simp
  · have : List.intercalate ['/'] (List.map String.data [Clean (String.mk p), b])
        = (cleanLoop p).reverse ++ '/' :: b.data := by
      simp [List.intercalate, hd]
    show cleanLoop (List.intercalate ['/'] (List.map String.data [Clean (String.mk p), b]))
      = cleanLoop (p ++ '/' :: b.data)
    rw [this]
    exact cleanLoop_reclean p b.data hp

/-- The join of "/" with path elements, cleaned after each element, is the
join of "/" with all the elements (`path.Join` of the whole list). -/
theorem foldJoin_eq_Join (points : List String) :
    points.foldl (fun acc point => Join [acc, point]) "/" = Join ("/" :: points) := by
  induction points using List.reverseRecOn with
  | nil => decide
  | append_singleton init point ih =>
    rw [List.foldl_append, List.foldl_cons, List.foldl_nil, ih]
    have hj : ∀ l : List String, Join ("/" :: l) =
        Clean (String.mk (List.intercalate ['/'] (("/" :: l).map String.data))) := by
      intro l
      unfold Join
      have : (("/" : String).data == []) = false := by decide
      simp only [List.dropWhile, this]
    rw [hj, hj]
    have hhead : (List.intercalate ['/'] (("/" :: init).map String.data)).head? = some '/' := by
      cases init with
      | nil => rfl
      | cons a rest => rfl
    rw [Join_Clean_rooted _ point hhead]
    congr 2
    have := intercalate_snoc ['/'] (("/" :: init).map String.data) point.data (by simp)
    simp only [List.map_cons, List.map_append, List.map_nil, List.cons_append] at this ⊢
    rw [this]
    simp

/-! ## Reachability of the example with a full redemption cache -/

theorem Reachable_foldl {α : Type} (f : Resolver → α → Resolver)
    (hf : ∀ s a, Reachable s → Reachable (f s a)) :
    ∀ (l : List α) (s : Resolver), Reachable s → Reachable (l.foldl f s) := by
  intro l
  induction l with
  | nil => intro s h; exact h
  | cons a rest ih => intro s h; exact ih _ (hf s a h)

/-- The state `fullRedemption` is the value of the sequence of operations below,
run from a fresh resolver; the sequence is made of operations of the resolver. -/
theorem fullRedemption_ops_Reachable :
    Reachable ((((((List.range 1024).foldl (fun s j => (s.Delete 0 (j + 1)).1)
      ((List.range 1024).foldl (fun s j => (s.Insert (mountOf (j + 1) 3000 0 "ext4" "x")).1)
        ((NewResolver ⟨false⟩).Insert (mountOf 3000 0 0 "ext4" "")).1)).dequeue 5000000000).Insert
      (mountOf 3000 0 0 "ext4" "")).1.Insert (mountOf 2000 1 0 "ext4" "data")).1.Delete
      6000000000 3000).1 :=
  Reachable.Delete _ _ _ (Reachable.Insert _ _ (Reachable.Insert _ _ (Reachable.dequeue _ _
    (Reachable_foldl _ (fun s j h => Reachable.Delete s 0 (j + 1) h) _ _
      (Reachable_foldl _ (fun s _ h => Reachable.Insert s _ h) _ _
        (Reachable.Insert _ _ (Reachable.init _)))))))

/-- On a cache miss `resolveMount` continues with the candidates. -/
theorem resolveMount_miss (mr : Resolver) (env : Env) (id : Nat) (containerID : String)
    (pids : List Nat) (hvalid : (mr.IsMountIDValid id).2 = none) (hmiss : mr.mounts.Get id = none) :
    mr.resolveMount env id containerID pids =
      mr.resolveMountMiss env id (resolveMountCandidates env containerID pids) := by
  unfold Resolver.resolveMount resolveMountCandidates
  rw [hvalid, hmiss]

theorem syncPid_unreadable (mr : Resolver) (env : Env) (pid : Nat)
    (h : env.ParseMountInfoFile pid = none) :
    mr.syncPid env pid =
      ({ mr with procScans := mr.procScans ++ [pid] }, some (MountError.ErrProcScan pid)) := by
  unfold Resolver.syncPid
  rw [h]

theorem onEvict_eq (mr : Resolver) (ev : Option (Nat × Ptr)) :
    mr.onEvict ev = { mr with mounts := (mr.onEvict ev).mounts } := by
  cases ev <;> rfl

theorem delete_eq (mr : Resolver) (mount : Ptr) :
    mr.delete mount =
      { mr with mounts := (mr.delete mount).mounts, redemption := (mr.delete mount).redemption } := by
  unfold Resolver.delete
  split
  · cases (mr.redemption.Add (deref mr.heap mount).MountID _).2 <;> rfl
  · rfl

theorem insertUmount_eq (mr : Resolver) (m : Ptr) :
    mr.insertUmount m =
      { mr with mounts := (mr.insertUmount m).mounts,
                redemption := (mr.insertUmount m).redemption } := by
  unfold Resolver.insertUmount
  split
  · split
    · cases (mr.redemption.Remove (deref mr.heap _).MountID).2 <;> rfl
    · rfl
  · rfl

theorem insert_frame (mr : Resolver) (m : Ptr) :
    (mr.insert m).opts = mr.opts ∧ (mr.insert m).deleteQueue = mr.deleteQueue ∧
    (mr.insert m).fallbackLimiter = mr.fallbackLimiter ∧
    (mr.insert m).cacheHitsStats = mr.cacheHitsStats ∧
    (mr.insert m).cacheMissStats = mr.cacheMissStats ∧
    (mr.insert m).procHitsStats = mr.procHitsStats ∧
    (mr.insert m).procMissStats = mr.procMissStats ∧
    (mr.insert m).procScans = mr.procScans := by
  unfold Resolver.insert
  simp only []
  split
  · rw [insertUmount_eq]
    exact ⟨rfl, rfl, rfl, rfl, rfl, rfl, rfl, rfl⟩
  · rw [insertUmount_eq]
    exact ⟨rfl, rfl, rfl, rfl, rfl, rfl, rfl, rfl⟩

theorem insert_eq (mr : Resolver) (m : Ptr) :
    mr.insert m =
      { mr with heap := (mr.insert m).heap, mounts := (mr.insert m).mounts,
                redemption := (mr.insert m).redemption,
                minMountID := (mr.insert m).minMountID } := by
  obtain ⟨h1, h2, h3, h4, h5, h6, h7, h8⟩ := insert_frame mr m
  rw [← h1, ← h2, ← h3, ← h4, ← h5, ← h6, ← h7, ← h8]

theorem dequeueHandle_eq (mr : Resolver) (req : deleteRequest) :
    dequeueHandle mr req =
      { mr with mounts := (dequeueHandle mr req).mounts,
                redemption := (dequeueHandle mr req).redemption } := by
  unfold dequeueHandle
  split
  · exact delete_eq mr req.mount
  · rfl

/-- The loop of `dequeue` handles the requests of the longest due prefix of the
queue, in order, and counts them. -/
theorem dequeueLoop_takeWhile (now : Nat) :
    ∀ (q : List deleteRequest) (mr : Resolver),
      dequeueLoop now q mr =
        ((q.takeWhile (deleteRequest.due now)).length,
          (q.takeWhile (deleteRequest.due now)).foldl dequeueHandle mr) := by
  intro q
  induction q with
  | nil => intro mr; rfl
  | cons req rest ih =>
    intro mr
    by_cases hd : req.timeoutAt ≤ now
    · rw [dequeueLoop_cons_due now req rest mr hd, ih]
      simp [List.takeWhile_cons, hd, deleteRequest.due]
    · rw [dequeueLoop_cons_wait now req rest mr (by omega)]
      simp [List.takeWhile_cons, hd, deleteRequest.due]

theorem foldl_dequeueHandle_deleteQueue :
    ∀ (q : List deleteRequest) (mr : Resolver),
      (q.foldl dequeueHandle mr).deleteQueue = mr.deleteQueue := by
  intro q
  induction q with
  | nil => intro mr; rfl
  | cons req rest ih =>
    intro mr
    rw [List.foldl_cons, ih, dequeueHandle_eq]

theorem drop_takeWhile_length {α : Type} (p : α → Bool) :
    ∀ l : List α, l.drop (l.takeWhile p).length = l.dropWhile p := by
  intro l
  induction l with
  | nil => rfl
  | cons a l ih =>
    by_cases h : p a = true
    · simp [List.takeWhile_cons, List.dropWhile_cons, h, ih]
    · simp [List.takeWhile_cons, List.dropWhile_cons, h]

theorem lookup_filter_self (l : List (Nat × Ptr)) (id : Nat) :
    (l.filter (fun e => e.1 != id)).lookup id = none := by
  rw [lookup_filter_ne]
  simp

/-- A due request whose record is no longer the one live under its mount ID is
dropped. -/
theorem dequeueHandle_superseded (mr : Resolver) (req : deleteRequest)
    (h : mr.mounts.Get (deref mr.heap req.mount).MountID ≠ some req.mount) :
    dequeueHandle mr req = mr := by
  unfold dequeueHandle
  simp [h]

/-- After the insertion of a record over a live one, the redemption cache has no
entry under the mount ID. -/
theorem insertUmount_Peek (mr : Resolver) (m prev : Ptr)
    (hprev : mr.mounts.Get (deref mr.heap m).MountID = some prev)
    (hid : (deref mr.heap prev).MountID = (deref mr.heap m).MountID) :
    (mr.insertUmount m).redemption.Peek (deref mr.heap m).MountID = none := by
  unfold Resolver.insertUmount
  rw [hprev]
  simp only [hid]
  have hrem : ((mr.redemption.Remove (deref mr.heap m).MountID).1).items.lookup
      (deref mr.heap m).MountID = none := by
    unfold LRU.Remove
    split
    · exact lookup_filter_self _ _
    · assumption
  split
  · cases (mr.redemption.Remove (deref mr.heap m).MountID).2 <;> exact hrem
  · exact hrem

/-- The path construction of `resolveMountPath` is followed by the candidates. -/
theorem resolveMountPath_miss (mr : Resolver) (env : Env) (id pid : Nat) (containerID : String)
    (hvalid : (mr.IsMountIDValid id).2 = none) (err : MountError)
    (hmiss : (mr.getMountPath id).2 = Except.error err) :
    mr.resolveMountPath env id containerID pid =
      (mr.getMountPath id).1.resolveMountPathMiss env id
        (resolveMountPathCandidates env containerID pid) := by
  unfold Resolver.resolveMountPath resolveMountPathCandidates
  rw [hvalid]
  cases hg : mr.getMountPath id with
  | mk mr1 r =>
    rw [hg] at hmiss
    simp only [] at hmiss
    rw [hmiss]

/-! ## Cycles of the parent chain -/

/-- Path construction on a mount already visited reports the loop. -/
theorem getMountPath_visited (mr : Resolver) (fuel id : Nat) (cache : List Nat)
    (hn : LoopNode mr id) (hc : id ∈ cache) :
    mr._getMountPath (fuel + 1) id cache = some (mr, Except.error MountError.ErrMountLoop) := by
  obtain ⟨hv, p, hp, hpath, hmp⟩ := hn
  rw [Resolver._getMountPath, hv]
  simp only [hp, hpath]
  have h2 : ((deref mr.heap p).MountPointStr == "/") = false := by simpa using hmp
  simp [h2, hc]

/-- Path construction along a parent chain that returns to a visited mount. -/
theorem getMountPath_loop (mr : Resolver) :
    ∀ (chain : List Nat) (id : Nat) (cache : List Nat) (fuel : Nat),
      (id :: chain).Nodup →
      (∀ k ∈ id :: chain, LoopNode mr k) →
      (∀ k ∈ id :: chain, ∀ p, mr.mounts.Get k = some p → (deref mr.heap p).ParentMountID ≠ 0) →
      List.Chain' (fun a b => ∀ p, mr.mounts.Get a = some p →
        (deref mr.heap p).ParentMountID = b) (id :: chain) →
      (∃ last p, (id :: chain).getLast? = some last ∧ mr.mounts.Get last = some p ∧
        ((deref mr.heap p).ParentMountID ∈ id :: chain ∨ (deref mr.heap p).ParentMountID ∈ cache)) →
      (∀ k ∈ cache, LoopNode mr k) →
      (∀ k ∈ id :: chain, k ∉ cache) →
      chain.length + 2 ≤ fuel →
      mr._getMountPath fuel id cache = some (mr, Except.error MountError.ErrMountLoop) := by
  intro chain
  induction chain with
  | nil =>
    intro id cache fuel _ hn hpar _ hback hcache hfresh hfuel
    obtain ⟨fuel, rfl⟩ : ∃ f, fuel = f + 2 := ⟨fuel - 2, by simp at hfuel; omega⟩
    obtain ⟨last, p, hlast, hp, hin⟩ := hback
    simp at hlast
    subst hlast
    obtain ⟨hv, p1, hp1, hpath, hmp⟩ := hn id (List.mem_cons_self _ _)
    rw [hp] at hp1
    cases Option.some.inj hp1
    have hpar0 := hpar id (List.mem_cons_self _ _) p hp
    have hvis : (deref mr.heap p).ParentMountID ∈ id :: cache := by
      rcases hin with h | h
      · simp at h; simp [h]
      · exact List.mem_cons_of_mem _ h
    have hnode : LoopNode mr (deref mr.heap p).ParentMountID := by
      rcases hin with h | h
      · simp at h; rw [h]; exact ⟨hv, p, hp, hpath, hmp⟩
      · exact hcache _ h
    rw [Resolver._getMountPath, hv]
    simp only [hp, hpath]
    have h2 : ((deref mr.heap p).MountPointStr == "/") = false := by simpa using hmp
    have h3 : cache.contains id = false := by
      simpa using hfresh id (List.mem_cons_self _ _)
    have h4 : ((deref mr.heap p).ParentMountID == 0) = false := by simpa using hpar0
    simp only [h2, h3, h4]
    rw [getMountPath_visited mr fuel _ _ hnode hvis]
    simp
  | cons next rest ih =>
    intro id cache fuel hnd hn hpar hlinks hback hcache hfresh hfuel
    obtain ⟨fuel, rfl⟩ : ∃ f, fuel = f + 1 := ⟨fuel - 1, by simp at hfuel; omega⟩
    obtain ⟨hv, p, hp, hpath, hmp⟩ := hn id (List.mem_cons_self _ _)
    have hpar0 := hpar id (List.mem_cons_self _ _) p hp
    have hnext : (deref mr.heap p).ParentMountID = next := (List.chain'_cons.1 hlinks).1 p hp
    rw [Resolver._getMountPath, hv]
    simp only [hp, hpath]
    have h2 : ((deref mr.heap p).MountPointStr == "/") = false := by simpa using hmp
    have h3 : cache.contains id = false := by
      simpa using hfresh id (List.mem_cons_self _ _)
    have h4 : ((deref mr.heap p).ParentMountID == 0) = false := by simpa using hpar0
    simp only [h2, h3, h4]
    rw [hnext]
    have hstep := ih next (id :: cache) fuel (List.nodup_cons.1 hnd).2
      (fun k hk => hn k (List.mem_cons_of_mem _ hk))
      (fun k hk => hpar k (List.mem_cons_of_mem _ hk))
      (List.chain'_cons.1 hlinks).2
      (by
        obtain ⟨last, q, hlast, hq, hin⟩ := hback
        refine ⟨last, q, ?_, hq, ?_⟩
        · rw [List.getLast?_cons_cons] at hlast; exact hlast
        · rcases hin with h | h
          · rcases List.mem_cons.1 h with h | h
            · exact Or.inr (by rw [h]; exact List.mem_cons_self _ _)
            · exact Or.inl h
          · exact Or.inr (List.mem_cons_of_mem _ h))
      (by
        intro k hk
        rcases List.mem_cons.1 hk with h | h
        · rw [h]; exact ⟨hv, p, hp, hpath, hmp⟩
        · exact hcache k h)
      (by
        intro k hk hkc
        rcases List.mem_cons.1 hkc with h | h
        · exact (List.nodup_cons.1 hnd).1 (h ▸ hk)
        · exact hfresh k (List.mem_cons_of_mem _ hk) h)
      (by simp at hfuel ⊢; omega)
    rw [hstep]
    simp

/-- The mounts of a chain are live, so they are no more than the records. -/
theorem LoopChain_length_le (mr : Resolver) (chain : List Nat) (h : LoopChain mr chain) :
    chain.length ≤ mr.mounts.RealLen := by
  have hsub : chain ⊆ mr.mounts.keys := by
    intro k hk
    obtain ⟨_, p, hp, _⟩ := h.nodes k hk
    exact (mem_keys _ _).2 ⟨p, mem_of_Get _ _ _ hp⟩
  have := (List.subperm_of_subset h.distinct hsub).length_le
  simpa [MountMap.keys, MountMap.RealLen] using this

/-! ## The operations as sequences of elementary steps -/

theorem Steps_mono (ins ins2 : Nat → Prop) (hi : ∀ k, ins k → ins2 k) (s t : Resolver)
    (h : Steps ins s t) : Steps ins2 s t := by
  induction h with
  | refl s => exact Steps.refl s
  | trans s t u _ _ ih1 ih2 => exact Steps.trans s t u ih1 ih2
  | shrink s t h1 h2 h3 => exact Steps.shrink s t h1 h2 h3
  | alloc s e => exact Steps.alloc s e
  | insert s m hm hin => exact Steps.insert s m hm (hi _ hin)
  | floor s => exact Steps.floor s
  | path s id => exact Steps.path s id

/-- A step that changes neither the records, nor the floor, nor the map. -/
theorem Steps_same (ins : Nat → Prop) (s t : Resolver) (h1 : t.heap = s.heap)
    (h2 : t.minMountID = s.minMountID) (h3 : t.mounts = s.mounts) : Steps ins s t :=
  Steps.shrink s t h1 h2 (by rw [h3])

theorem finalizeLoop_sublist (heap : List Mount) :
    ∀ (fuel : Nat) (q : List Ptr) (m : MountMap),
      (finalizeLoop heap fuel q m).2.entries.Sublist m.entries := by
  intro fuel
  induction fuel with
  | zero => intro q m; exact List.Sublist.refl _
  | succ fuel ih =>
    intro q m
    cases q with
    | nil => exact List.Sublist.refl _
    | cons t rest =>
      rw [finalizeLoop_cons]
      exact (ih _ _).trans (List.filter_sublist _)

theorem Steps_finalize (ins : Nat → Prop) (mr : Resolver) (p : Ptr) :
    Steps ins mr (mr.finalize p) :=
  Steps.shrink mr _ rfl rfl (finalizeLoop_sublist _ _ _ _)

theorem Steps_onEvict (ins : Nat → Prop) (mr : Resolver) (ev : Option (Nat × Ptr)) :
    Steps ins mr (mr.onEvict ev) := by
  cases ev with
  | none => exact Steps.refl mr
  | some e => exact Steps_finalize ins mr e.2

theorem Steps_delete (ins : Nat → Prop) (mr : Resolver) (mount : Ptr) :
    Steps ins mr (mr.delete mount) := by
  unfold Resolver.delete
  split
  · rename_i m _
    exact Steps.trans mr
      { mr with redemption := (mr.redemption.Add (deref mr.heap mount).MountID m).1 } _
      (Steps_same ins _ _ rfl rfl rfl) (Steps_onEvict ins _ _)
  · exact Steps.refl mr

theorem Steps_Insert (mr : Resolver) (e : Mount) :
    Steps (fun k => k = e.MountID ∧ k ≠ 0) mr (mr.Insert e).1 := by
  unfold Resolver.Insert
  split
  · exact Steps.refl mr
  · rename_i h
    have hd : deref (mr.alloc e).1.heap (mr.alloc e).2 = e := by simp [Resolver.alloc, deref_alloc]
    exact Steps.trans mr (mr.alloc e).1 _ (Steps.alloc mr e)
      (Steps.insert _ _ (by simp [Resolver.alloc]) (by rw [hd]; exact ⟨rfl, by simpa using h⟩))

theorem Steps_Delete (ins : Nat → Prop) (mr : Resolver) (now id : Nat) :
    Steps ins mr (mr.Delete now id).1 := by
  unfold Resolver.Delete
  split
  · exact Steps.refl mr
  · exact Steps_same ins _ _ rfl rfl rfl

theorem Steps_dequeueLoop (ins : Nat → Prop) (now : Nat) :
    ∀ (q : List deleteRequest) (mr : Resolver), Steps ins mr (dequeueLoop now q mr).2 := by
  intro q
  induction q with
  | nil => intro mr; exact Steps.refl mr
  | cons req rest ih =>
    intro mr
    by_cases hd : req.timeoutAt ≤ now
    · rw [dequeueLoop_cons_due now req rest mr hd]
      refine Steps.trans mr (dequeueHandle mr req) _ ?_ (ih _)
      unfold dequeueHandle
      split
      · exact Steps_delete ins mr _
      · exact Steps.refl mr
    · rw [dequeueLoop_cons_wait now req rest mr (by omega)]
      exact Steps.refl mr

theorem Steps_dequeue (ins : Nat → Prop) (mr : Resolver) (now : Nat) :
    Steps ins mr (mr.dequeue now) := by
  obtain ⟨h1, h2, -, h4, -⟩ := dequeue_fields mr now
  exact Steps.trans mr (dequeueLoop now mr.deleteQueue mr).2 _
    (Steps_dequeueLoop ins now mr.deleteQueue mr) (Steps_same ins _ _ h2 h4 h1)

theorem Steps_syncPidLoop :
    ∀ (mnts : List MountInfo) (mr : Resolver),
      Steps (scannedIDs mnts) mr (syncPidLoop mnts mr) := by
  intro mnts
  induction mnts with
  | nil => intro mr; exact Steps.refl mr
  | cons mnt rest ih =>
    intro mr
    have hrest : ∀ s, Steps (scannedIDs (mnt :: rest)) s (syncPidLoop rest s) := fun s =>
      Steps_mono _ _ (fun k ⟨x, hx, hk⟩ => ⟨x, List.mem_cons_of_mem _ hx, hk⟩) _ _ (ih s)
    rw [syncPidLoop]
    split
    · exact hrest mr
    · refine Steps.trans mr _ _ ?_ (hrest _)
      have hd : deref (mr.alloc (newMountFromMountInfo mnt)).1.heap
          (mr.alloc (newMountFromMountInfo mnt)).2 = newMountFromMountInfo mnt := by
        simp [Resolver.alloc, deref_alloc]
      exact Steps.trans mr (mr.alloc (newMountFromMountInfo mnt)).1 _ (Steps.alloc mr _)
        (Steps.insert _ _ (by simp [Resolver.alloc])
          (by rw [hd]; exact ⟨mnt, List.mem_cons_self _ _, rfl⟩))

theorem Steps_syncPid (mr : Resolver) (env : Env) (pid : Nat) :
    Steps env.lists mr (mr.syncPid env pid).1 := by
  unfold Resolver.syncPid
  split
  · exact Steps_same _ _ _ rfl rfl rfl
  · rename_i mnts hm
    refine Steps.trans mr { mr with procScans := mr.procScans ++ [pid] } _
      (Steps_same _ _ _ rfl rfl rfl) ?_
    exact Steps_mono _ _ (fun k hk => ⟨pid, mnts, hm, hk⟩) _ _ (Steps_syncPidLoop mnts _)

theorem Steps_syncCacheLoop (env : Env) :
    ∀ (pids : List Nat) (mr : Resolver) (err : Option MountError),
      Steps env.lists mr (syncCacheLoop env pids mr err).1 := by
  intro pids
  induction pids with
  | nil => intro mr err; exact Steps.refl mr
  | cons pid rest ih =>
    intro mr err
    rw [syncCacheLoop]
    split
    · exact Steps_syncPid mr env pid
    · exact Steps.trans mr _ _ (Steps_syncPid mr env pid) (ih _ _)

theorem Steps_syncCache (mr : Resolver) (env : Env) (pids : List Nat) :
    Steps env.lists mr (mr.syncCache env pids).1 :=
  Steps_syncCacheLoop env pids mr none

theorem Steps_SyncCache (mr : Resolver) (env : Env) (pid : Nat) :
    Steps env.lists mr (mr.SyncCache env pid).1 := by
  have hs := Steps_syncCache mr env [pid]
  unfold Resolver.SyncCache
  split
  · exact Steps.trans mr _ _ hs (Steps.floor (mr.syncCache env [pid]).1)
  · exact hs

theorem Steps_resolveMountMiss (mr : Resolver) (env : Env) (id : Nat) (pids : List Nat) :
    Steps env.lists mr (mr.resolveMountMiss env id pids).1 := by
  unfold Resolver.resolveMountMiss
  split
  · exact Steps_same _ _ _ rfl rfl rfl
  · split
    · exact Steps_same _ _ _ rfl rfl rfl
    · have hs := Steps.trans mr _ _
        (Steps_same env.lists mr { mr with
          cacheMissStats := mr.cacheMissStats + 1
          fallbackLimiter := (mr.fallbackLimiter.IsAllowed env id).2 } rfl rfl rfl)
        (Steps_syncCache { mr with
          cacheMissStats := mr.cacheMissStats + 1
          fallbackLimiter := (mr.fallbackLimiter.IsAllowed env id).2 } env pids)
      split
      · rename_i mr1 err heq
        rw [heq] at hs
        exact Steps.trans mr mr1 _ hs (Steps_same _ _ _ rfl rfl rfl)
      · rename_i mr1 heq
        rw [heq] at hs
        split
        · exact Steps.trans mr mr1 _ hs (Steps_same _ _ _ rfl rfl rfl)
        · exact Steps.trans mr mr1 _ hs (Steps_same _ _ _ rfl rfl rfl)

theorem Steps_resolveMount (mr : Resolver) (env : Env) (id : Nat) (containerID : String)
    (pids : List Nat) : Steps env.lists mr (mr.resolveMount env id containerID pids).1 := by
  unfold Resolver.resolveMount
  split
  · exact Steps.refl mr
  · split
    · exact Steps_same _ _ _ rfl rfl rfl
    · exact Steps_resolveMountMiss mr env id _

theorem Steps_resolveMountPathMiss (mr : Resolver) (env : Env) (id : Nat) (pids : List Nat) :
    Steps env.lists mr (mr.resolveMountPathMiss env id pids).1 := by
  unfold Resolver.resolveMountPathMiss
  split
  · exact Steps_same _ _ _ rfl rfl rfl
  · split
    · exact Steps_same _ _ _ rfl rfl rfl
    · have hs := Steps.trans mr _ _
        (Steps_same env.lists mr { mr with
          cacheMissStats := mr.cacheMissStats + 1
          fallbackLimiter := (mr.fallbackLimiter.IsAllowed env id).2 } rfl rfl rfl)
        (Steps_syncCache { mr with
          cacheMissStats := mr.cacheMissStats + 1
          fallbackLimiter := (mr.fallbackLimiter.IsAllowed env id).2 } env pids)
      split
      · rename_i mr1 err heq
        rw [heq] at hs
        exact Steps.trans mr mr1 _ hs (Steps_same _ _ _ rfl rfl rfl)
      · rename_i mr1 heq
        rw [heq] at hs
        have hg := @Steps.path env.lists mr1 id
        split
        · rename_i mr2 path hp
          rw [hp] at hg
          exact Steps.trans mr mr2 _ (Steps.trans mr mr1 mr2 hs hg) (Steps_same _ _ _ rfl rfl rfl)
        · rename_i mr2 err hp
          rw [hp] at hg
          exact Steps.trans mr mr2 _ (Steps.trans mr mr1 mr2 hs hg) (Steps_same _ _ _ rfl rfl rfl)

theorem Steps_resolveMountPath (mr : Resolver) (env : Env) (id : Nat) (containerID : String)
    (pid : Nat) : Steps env.lists mr (mr.resolveMountPath env id containerID pid).1 := by
  unfold Resolver.resolveMountPath
  split
  · exact Steps.refl mr
  · have hg := @Steps.path env.lists mr id
    split
    · rename_i mr1 path hp
      rw [hp] at hg
      exact Steps.trans mr mr1 _ hg (Steps_same _ _ _ rfl rfl rfl)
    · rename_i mr1 err hp
      rw [hp] at hg
      exact Steps.trans mr mr1 _ hg (Steps_resolveMountPathMiss mr1 env id _)

theorem Steps_SendStats (ins : Nat → Prop) (mr : Resolver) (fails : Nat → Bool) :
    Steps ins mr (mr.SendStats fails).1 := by
  unfold Resolver.SendStats
  split
  · exact Steps_same _ _ _ rfl rfl rfl
  · split
    · exact Steps_same _ _ _ rfl rfl rfl
    · split
      · exact Steps_same _ _ _ rfl rfl rfl
      · exact Steps_same _ _ _ rfl rfl rfl

/-- Every operation is a sequence of elementary steps that insert at most the
mount IDs the operation can insert. -/
theorem Steps_perform (mr : Resolver) (op : Op) : Steps op.inserts mr (mr.perform op) := by
  cases op with
  | Insert e => exact Steps_Insert mr e
  | Delete now id => exact Steps_Delete _ mr now id
  | dequeue now => exact Steps_dequeue _ mr now
  | SyncCache env pid => exact Steps_SyncCache mr env pid
  | ResolveMount env id pid containerID => exact Steps_resolveMount mr env id containerID [pid]
  | ResolveMountPath env id pid containerID =>
    exact Steps_resolveMountPath mr env id containerID pid
  | ResolveMountRoot env id pid containerID =>
    have h := Steps_resolveMount mr env id containerID [pid]
    show Steps env.lists mr (mr.ResolveMountRoot env id pid containerID).1
    unfold Resolver.ResolveMountRoot
    split
    · rename_i mr1 err heq
      rw [heq] at h; exact h
    · rename_i mr1 mount heq
      rw [heq] at h; exact h
  | ResolveFilesystem env id pid containerID =>
    have h := Steps_resolveMount mr env id containerID [pid]
    show Steps env.lists mr (mr.ResolveFilesystem env id pid containerID).1
    unfold Resolver.ResolveFilesystem
    split
    · rename_i mr1 err heq
      rw [heq] at h; exact h
    · rename_i mr1 mount heq
      rw [heq] at h; exact h
  | SendStats fails => exact Steps_SendStats _ mr fails

/-- A sequence of operations is a sequence of elementary steps. -/
theorem Steps_ops (ins : Nat → Prop) :
    ∀ (ops : List Op) (mr : Resolver), (∀ op ∈ ops, ∀ k, op.inserts k → ins k) →
      Steps ins mr (ops.foldl Resolver.perform mr) := by
  intro ops
  induction ops with
  | nil => intro mr _; exact Steps.refl mr
  | cons op rest ih =>
    intro mr h
    exact Steps.trans mr (mr.perform op) _
      (Steps_mono _ _ (h op (List.mem_cons_self _ _)) _ _ (Steps_perform mr op))
      (ih _ (fun o ho => h o (List.mem_cons_of_mem _ ho)))

/-- The state after a sequence of operations run from a reachable state is
reachable. -/
theorem Reachable_ops :
    ∀ (ops : List Op) (mr : Resolver), Reachable mr → Reachable (ops.foldl Resolver.perform mr) := by
  refine Reachable_foldl Resolver.perform ?_
  intro s op h
  cases op with
  | Insert e => exact Reachable.Insert s e h
  | Delete now id => exact Reachable.Delete s now id h
  | dequeue now => exact Reachable.dequeue s now h
  | SyncCache env pid => exact Reachable.SyncCache s env pid h
  | ResolveMount env id pid containerID => exact Reachable.ResolveMount s env id pid containerID h
  | ResolveMountPath env id pid containerID =>
    exact Reachable.ResolveMountPath s env id pid containerID h
  | ResolveMountRoot env id pid containerID =>
    exact Reachable.ResolveMountRoot s env id pid containerID h
  | ResolveFilesystem env id pid containerID =>
    exact Reachable.ResolveFilesystem s env id pid containerID h
  | SendStats fails => exact Reachable.SendStats s fails h

/-! ## What every operation guarantees -/

theorem Evolves_refl (ins : Nat → Prop) (s : Resolver) : Evolves ins s s :=
  ⟨Nat.le_refl _, fun _ _ _ => rfl, fun _ h => Or.inl h, Or.inl rfl⟩

theorem Evolves_trans (ins : Nat → Prop) (s t u : Resolver) (h1 : Evolves ins s t)
    (h2 : Evolves ins t u) : Evolves ins s u := by
  refine ⟨Nat.le_trans h1.heapLen h2.heapLen, ?_, ?_, ?_⟩
  · intro ptr hp hc
    have e1 := h1.cached ptr hp hc
    rw [h2.cached ptr (Nat.lt_of_lt_of_le hp h1.heapLen) (by rw [e1]; exact hc), e1]
  · intro k hk
    rcases h2.keys k hk with h | h
    · exact h1.keys k h
    · exact Or.inr h
  · rcases h2.floor with h | h | h
    · rw [h]
      rcases h1.floor with g | g | g
      · exact Or.inl g
      · exact Or.inr (Or.inl g)
      · exact Or.inr (Or.inr g)
    · rcases h1.keys _ h with g | g
      · exact Or.inr (Or.inl g)
      · exact Or.inr (Or.inr g)
    · exact Or.inr (Or.inr h)

theorem Evolves_mono (ins ins2 : Nat → Prop) (s t : Resolver) (hi : ∀ k, ins k → ins2 k)
    (h : Evolves ins s t) : Evolves ins2 s t := by
  refine ⟨h.heapLen, h.cached, ?_, ?_⟩
  · intro k hk
    rcases h.keys k hk with g | g
    · exact Or.inl g
    · exact Or.inr (hi k g)
  · rcases h.floor with g | g | g
    · exact Or.inl g
    · exact Or.inr (Or.inl g)
    · exact Or.inr (Or.inr (hi _ g))

/-- An operation that writes no record, keeps the floor and adds no mount ID. -/
theorem Evolves_of_shrink (ins : Nat → Prop) (s t : Resolver) (hh : t.heap = s.heap)
    (hm : t.minMountID = s.minMountID) (hk : ∀ k ∈ t.mounts.keys, k ∈ s.mounts.keys) :
    Evolves ins s t :=
  ⟨by rw [hh], fun _ _ _ => by rw [hh], fun k h => Or.inl (hk k h), Or.inl hm⟩

theorem Evolves_finalize (ins : Nat → Prop) (mr : Resolver) (p : Ptr) :
    Evolves ins mr (mr.finalize p) :=
  Evolves_of_shrink ins mr _ rfl rfl (fun k hk => finalizeLoop_keys_subset _ _ _ _ k hk)

theorem Evolves_onEvict (ins : Nat → Prop) (mr : Resolver) (ev : Option (Nat × Ptr)) :
    Evolves ins mr (mr.onEvict ev) := by
  cases ev with
  | none => exact Evolves_refl ins mr
  | some e => exact Evolves_finalize ins mr e.2

theorem Evolves_insertUmount (ins : Nat → Prop) (mr : Resolver) (m : Ptr) :
    Evolves ins mr (mr.insertUmount m) := by
  unfold Resolver.insertUmount
  split
  · rename_i prev _
    split
    · exact Evolves_trans ins mr
        { mr with redemption := (mr.redemption.Remove (deref mr.heap prev).MountID).1 } _
        (Evolves_of_shrink ins _ _ rfl rfl (fun _ h => h)) (Evolves_onEvict ins _ _)
    · exact Evolves_trans ins mr
        { mr with redemption := (mr.redemption.Remove (deref mr.heap prev).MountID).1 } _
        (Evolves_of_shrink ins _ _ rfl rfl (fun _ h => h)) (Evolves_finalize ins _ _)
  · exact Evolves_refl ins mr

theorem normalizeMount_cached (e : Mount) (h : e.Path ≠ "") : normalizeMount e = e := by
  unfold normalizeMount
  have : e.Path.length ≠ 0 := by
    intro h0
    exact h (String.ext (List.length_eq_zero.1 h0))
  simp [this]

theorem insert_minMountID (mr : Resolver) (m : Ptr) (hm : m < mr.heap.length) :
    (mr.insert m).minMountID =
      if mr.minMountID > (deref mr.heap m).MountID then (deref mr.heap m).MountID
      else mr.minMountID := by
  unfold Resolver.insert
  simp only [insertUmount_heap, insertUmount_minMountID, deref_set_self _ _ _ hm,
    normalizeMount_MountID]
  split <;> rfl

theorem Evolves_insert (mr : Resolver) (m : Ptr) (hm : m < mr.heap.length) :
    Evolves (fun k => k = (deref mr.heap m).MountID) mr (mr.insert m) := by
  refine ⟨by simp [insert_heap], ?_, ?_, ?_⟩
  · intro ptr hp hc
    rw [insert_heap]
    by_cases h : m = ptr
    · subst h
      rw [deref_set_self _ _ _ hm, normalizeMount_cached _ hc]
    · exact deref_set_other _ _ _ _ h
  · intro k hk
    rw [insert_mounts mr m hm] at hk
    obtain ⟨p, hp⟩ := (mem_keys _ k).1 hk
    rcases mem_Insert _ _ _ _ hp with h | h
    · exact Or.inr (by cases h; rfl)
    · exact (Evolves_insertUmount (fun k => k = (deref mr.heap m).MountID) mr m).keys k
        ((mem_keys _ k).2 ⟨p, h.1⟩)
  · rw [insert_minMountID mr m hm]
    split
    · exact Or.inr (Or.inr rfl)
    · exact Or.inl rfl

theorem Evolves_alloc (ins : Nat → Prop) (mr : Resolver) (e : Mount) :
    Evolves ins mr (mr.alloc e).1 :=
  ⟨by simp [Resolver.alloc], fun ptr hp _ => deref_append_old _ _ _ hp, fun _ h => Or.inl h,
    Or.inl rfl⟩

/-- Path construction writes no record that has a cached path. -/
theorem getMountPath_cached (mr : Resolver) :
    ∀ (fuel id : Nat) (cache : List Nat) (mr1 : Resolver) (r : Except MountError String),
      mr._getMountPath fuel id cache = some (mr1, r) →
      ∀ ptr, (deref mr.heap ptr).Path ≠ "" → deref mr1.heap ptr = deref mr.heap ptr := by
  intro fuel
  induction fuel with
  | zero => intro id cache mr1 r h; simp [Resolver._getMountPath] at h
  | succ fuel ih =>
    intro id cache mr1 r h ptr hc
    rw [Resolver._getMountPath] at h
    split at h
    · cases h; rfl
    · split at h
      · cases h; rfl
      · rename_i mount _
        split at h
        · cases h; rfl
        · rename_i hlen
          split at h
          · cases h; rfl
          · split at h
            · cases h; rfl
            · split at h
              · cases h; rfl
              · split at h
                · cases h
                · rename_i mr2 err heq
                  cases h
                  exact ih _ _ _ _ heq ptr hc
                · rename_i mr2 parentMountPath heq
                  have h2 := ih _ _ _ _ heq ptr hc
                  split at h
                  · cases h; exact h2
                  · cases h
                    have hne : mount ≠ ptr := by
                      intro he
                      subst he
                      apply hc
                      apply String.ext
                      apply List.length_eq_zero.1
                      have : ¬ ((deref mr.heap mount).Path.length > 0) := hlen
                      show (deref mr.heap mount).Path.length = 0
                      omega
                    show deref (mr2.heap.set mount _) ptr = _
                    rw [deref_set_other _ _ _ _ hne]
                    exact h2

theorem Evolves_getMountPath (ins : Nat → Prop) (mr : Resolver) (id : Nat) :
    Evolves ins mr (mr.getMountPath id).1 := by
  obtain ⟨h1, he, hl, -⟩ := getMountPath_eq mr id
  have hc : ∀ ptr, (deref mr.heap ptr).Path ≠ "" →
      deref (mr.getMountPath id).1.heap ptr = deref mr.heap ptr := by
    unfold Resolver.getMountPath
    split
    · rename_i r hr
      obtain ⟨mr1, res⟩ := r
      exact getMountPath_cached mr _ _ _ mr1 res hr
    · intro _ _; rfl
  have hheap : (mr.getMountPath id).1.heap = h1 := by rw [he]
  have hmo : (mr.getMountPath id).1.mounts = mr.mounts := by rw [he]
  have hmin : (mr.getMountPath id).1.minMountID = mr.minMountID := by rw [he]
  exact ⟨by rw [hheap, hl], fun ptr _ h => hc ptr h, fun k hk => Or.inl (by rw [hmo] at hk; exact hk),
    Or.inl hmin⟩

theorem forEachLoop_floorVisit_cons (e : Nat × Ptr) (rest : List (Nat × Ptr)) (min0 : Nat) :
    forEachLoop floorVisit (e :: rest) min0 =
      forEachLoop floorVisit rest (if min0 == 0 || min0 > e.1 then e.1 else min0) := by
  have h2 : (floorVisit min0 e.1 e.2).2 = true := by unfold floorVisit; split <;> rfl
  have h1 : (floorVisit min0 e.1 e.2).1 = if min0 == 0 || min0 > e.1 then e.1 else min0 := by
    unfold floorVisit; split <;> rfl
  rw [forEachLoop, h2, h1]
  simp only [if_true]

/-- The floor that `SyncCache` computes for process 1 is the former one or a
live mount ID. -/
theorem forEachLoop_floor :
    ∀ (entries : List (Nat × Ptr)) (min0 : Nat),
      forEachLoop floorVisit entries min0 = min0 ∨
      forEachLoop floorVisit entries min0 ∈ entries.map Prod.fst := by
  intro entries
  induction entries with
  | nil => intro min0; exact Or.inl rfl
  | cons e rest ih =>
    intro min0
    rw [forEachLoop_floorVisit_cons]
    by_cases hc : (min0 == 0 || decide (min0 > e.1)) = true
    · simp only [hc, if_true]
      rcases ih e.1 with h | h
      · exact Or.inr (by rw [h]; simp)
      · exact Or.inr (by simp only [List.map_cons]; exact List.mem_cons_of_mem _ h)
    · simp only [hc, if_true]
      simp only [Bool.false_eq_true, if_false]
      rcases ih min0 with h | h
      · exact Or.inl h
      · exact Or.inr (by simp only [List.map_cons]; exact List.mem_cons_of_mem _ h)

/-- Every sequence of elementary steps evolves the state. -/
theorem Evolves_of_Steps (ins : Nat → Prop) (s t : Resolver) (h : Steps ins s t) :
    Evolves ins s t := by
  induction h with
  | refl s => exact Evolves_refl ins s
  | trans s t u _ _ ih1 ih2 => exact Evolves_trans ins s t u ih1 ih2
  | shrink s t h1 h2 h3 =>
    exact Evolves_of_shrink ins s t h1 h2 (fun k hk => by
      obtain ⟨p, hp⟩ := (mem_keys _ k).1 hk
      exact (mem_keys _ k).2 ⟨p, h3.subset hp⟩)
  | alloc s e => exact Evolves_alloc ins s e
  | insert s m hm hin =>
    exact Evolves_mono _ _ _ _ (fun k hk => by rw [hk]; exact hin) (Evolves_insert s m hm)
  | floor s =>
    refine ⟨Nat.le_refl _, fun _ _ _ => rfl, fun _ h => Or.inl h, ?_⟩
    rcases forEachLoop_floor s.mounts.entries s.minMountID with h | h
    · exact Or.inl h
    · exact Or.inr (Or.inl h)
  | path s id => exact Evolves_getMountPath ins s id

/-- A sequence of operations evolves the state. -/
theorem Evolves_ops (ins : Nat → Prop) (ops : List Op) (mr : Resolver)
    (h : ∀ op ∈ ops, ∀ k, op.inserts k → ins k) :
    Evolves ins mr (ops.foldl Resolver.perform mr) :=
  Evolves_of_Steps ins _ _ (Steps_ops ins ops mr h)

/-! ## The floor of the mount IDs -/

/-- The floor that `SyncCache` computes over bindings without the mount ID 0. -/
theorem forEachLoop_min :
    ∀ (entries : List (Nat × Ptr)) (min0 : Nat), (∀ e ∈ entries, e.1 ≠ 0) →
      (∀ e ∈ entries, forEachLoop floorVisit entries min0 ≤ e.1) ∧
      (min0 ≠ 0 → forEachLoop floorVisit entries min0 ≤ min0 ∧
        forEachLoop floorVisit entries min0 ≠ 0) ∧
      (min0 = 0 → entries ≠ [] → forEachLoop floorVisit entries min0 ∈ entries.map Prod.fst) := by
  intro entries
  induction entries with
  | nil =>
    intro min0 _
    exact ⟨fun e he => absurd he (List.not_mem_nil _), fun h => ⟨Nat.le_refl _, h⟩,
      fun _ h => absurd rfl h⟩
  | cons e rest ih =>
    intro min0 hnz
    have he0 : e.1 ≠ 0 := hnz e (List.mem_cons_self _ _)
    have hrest : ∀ x ∈ rest, x.1 ≠ 0 := fun x hx => hnz x (List.mem_cons_of_mem _ hx)
    rw [forEachLoop_floorVisit_cons]
    by_cases hc : (min0 == 0 || decide (min0 > e.1)) = true
    · simp only [hc, if_true]
      obtain ⟨a, b, -⟩ := ih e.1 hrest
      obtain ⟨b1, b2⟩ := b he0
      refine ⟨?_, ?_, ?_⟩
      · intro x hx
        rcases List.mem_cons.1 hx with h | h
        · rw [h]; exact b1
        · exact a x h
      · intro h0
        have : min0 > e.1 := by simpa [h0] using hc
        exact ⟨by omega, b2⟩
      · intro _ _
        rcases forEachLoop_floor rest e.1 with h | h
        · rw [h]; simp
        · simp only [List.map_cons]; exact List.mem_cons_of_mem _ h
    · simp only [hc, if_true]
      simp only [Bool.false_eq_true, if_false]
      have hm0 : min0 ≠ 0 := by
        intro h; apply hc; simp [h]
      have hle : min0 ≤ e.1 := by
        by_contra hlt
        apply hc
        simp
        omega
      obtain ⟨a, b, -⟩ := ih min0 hrest
      obtain ⟨b1, b2⟩ := b hm0
      refine ⟨?_, fun _ => ⟨b1, b2⟩, fun h => absurd h hm0⟩
      intro x hx
      rcases List.mem_cons.1 hx with h | h
      · rw [h]; omega
      · exact a x h

/-- Elementary steps that insert no mount ID 0 keep the floor below the live
mount IDs. -/
theorem FloorInv_of_Steps (ins : Nat → Prop) (hins : ∀ k, ins k → k ≠ 0) (s t : Resolver)
    (h : Steps ins s t) : FloorInv s → FloorInv t := by
  induction h with
  | refl s => exact fun h => h
  | trans s t u _ _ ih1 ih2 => exact fun h => ih2 (ih1 h)
  | shrink s t h1 h2 h3 =>
    intro h k hk
    obtain ⟨p, hp⟩ := (mem_keys _ k).1 hk
    rw [h2]
    exact h k ((mem_keys _ k).2 ⟨p, h3.subset hp⟩)
  | alloc s e => exact fun h => h
  | insert s m hm hin =>
    intro h k hk
    rw [insert_mounts s m hm] at hk
    rw [insert_minMountID s m hm]
    obtain ⟨p, hp⟩ := (mem_keys _ k).1 hk
    rcases mem_Insert _ _ _ _ hp with g | g
    · have hk2 : k = (deref s.heap m).MountID := by cases g; rfl
      rw [hk2]
      refine ⟨hins _ hin, ?_⟩
      split <;> omega
    · have := h k ((Evolves_insertUmount (fun _ => False) s m).keys k
        ((mem_keys _ k).2 ⟨p, g.1⟩) |>.resolve_right (fun x => x))
      refine ⟨this.1, ?_⟩
      split <;> omega
  | floor s =>
    intro h k hk
    obtain ⟨p, hp⟩ := (mem_keys _ k).1 hk
    exact ⟨(h k hk).1, (forEachLoop_min s.mounts.entries s.minMountID
      (fun e he => (h e.1 ((mem_keys _ e.1).2 ⟨e.2, he⟩)).1)).1 (k, p) hp⟩
  | path s id =>
    intro h
    obtain ⟨h1, he, -, -⟩ := getMountPath_eq s id
    rw [he]
    exact h

/-- In a state whose floor is below the live mount IDs, every live mount ID is
valid. -/
theorem FloorInv_valid (s : Resolver) (h : FloorInv s) (id : Nat) (p : Ptr)
    (hg : s.mounts.Get id = some p) : s.IsMountIDValid id = (true, none) := by
  obtain ⟨h0, hle⟩ := h id ((mem_keys _ id).2 ⟨p, mem_of_Get _ _ _ hg⟩)
  unfold Resolver.IsMountIDValid
  have h1 : (id == 0) = false := by simpa using h0
  have h2 : ¬ id < s.minMountID := by omega
  simp [h1, h2]

theorem FloorInv_NewResolver (opts : ResolverOpts) : FloorInv (NewResolver opts) :=
  fun _ hk => absurd hk (List.not_mem_nil _)

/-- Operations that insert no mount ID 0 keep the floor below the live mount IDs. -/
theorem FloorInv_ops (ops : List Op) (mr : Resolver) (h : ∀ op ∈ ops, ¬ op.inserts 0)
    (hf : FloorInv mr) : FloorInv (ops.foldl Resolver.perform mr) :=
  FloorInv_of_Steps (fun k => k ≠ 0) (fun _ hk => hk) _ _
    (Steps_ops _ ops mr (fun op ho _ hk h0 => h op ho (h0 ▸ hk))) hf

theorem bootEnv_lists (k : Nat) (h : bootEnv.lists k) : k = 20 := by
  obtain ⟨pid, mnts, hm, mnt, hin, hk⟩ := h
  unfold bootEnv at hm
  simp only [] at hm
  split at hm
  · cases hm
    simp only [List.mem_singleton] at hin
    rw [hk, hin]
    rfl
  · cases hm

/-- The rejection of a mount ID below the floor. -/
theorem IsMountIDValid_kernel (mr : Resolver) (id : Nat) :
    (mr.IsMountIDValid id).2 = some MountError.ErrMountKernelID ↔ id ≠ 0 ∧ id < mr.minMountID := by
  unfold Resolver.IsMountIDValid
  by_cases h0 : id = 0
  · simp [h0]
  · have h1 : (id == 0) = false := by simpa using h0
    by_cases h2 : id < mr.minMountID <;> simp [h0, h1, h2]

/-! ## Proc merges -/

theorem Grows_refl (s : Resolver) : Grows s s :=
  ⟨Nat.le_refl _, fun _ _ => rfl, fun _ _ h => h, Nat.le_refl _, fun h => h, Or.inl rfl⟩

theorem Grows_trans (s t u : Resolver) (h1 : Grows s t) (h2 : Grows t u) : Grows s u := by
  refine ⟨Nat.le_trans h1.heapLen h2.heapLen, ?_, ?_, Nat.le_trans h2.floorLe h1.floorLe,
    fun h => h2.unset (h1.unset h), ?_⟩
  · intro ptr hp
    rw [h2.records ptr (Nat.lt_of_lt_of_le hp h1.heapLen), h1.records ptr hp]
  · intro k p h
    exact h2.bindings k p (h1.bindings k p h)
  · rcases h2.floor with h | h
    · rcases h1.floor with g | g
      · exact Or.inl (by rw [h, g])
      · right
        rw [h]
        obtain ⟨p, hp⟩ := (mem_keys _ _).1 g
        have hne : t.mounts.Get t.minMountID ≠ none := by
          intro hn
          exact (Get_eq_none_iff _ _).1 hn g
        cases hg : t.mounts.Get t.minMountID with
        | none => exact absurd hg hne
        | some q => exact (mem_keys _ _).2 ⟨q, mem_of_Get _ _ _ (h2.bindings _ _ hg)⟩
    · exact Or.inr h

/-- The insertion of a record whose mount ID is not live. -/
theorem Grows_alloc_insert (mr : Resolver) (e : Mount) (h : mr.mounts.Get e.MountID = none) :
    Grows mr ((mr.alloc e).1.insert (mr.alloc e).2) := by
  have hlen : (mr.alloc e).2 < (mr.alloc e).1.heap.length := by simp [Resolver.alloc]
  have hd : deref (mr.alloc e).1.heap (mr.alloc e).2 = e := by simp [Resolver.alloc, deref_alloc]
  have hu : (mr.alloc e).1.insertUmount (mr.alloc e).2 = (mr.alloc e).1 := by
    unfold Resolver.insertUmount
    rw [hd]
    show (match mr.mounts.Get e.MountID with
      | some prev => _
      | none => (mr.alloc e).1) = _
    rw [h]
  have hm : ((mr.alloc e).1.insert (mr.alloc e).2).mounts
      = mr.mounts.Insert e.MountID mr.heap.length := by
    rw [insert_mounts _ _ hlen, hu, hd]
    rfl
  have hmin := insert_minMountID (mr.alloc e).1 (mr.alloc e).2 hlen
  rw [hd] at hmin
  have hmin0 : (mr.alloc e).1.minMountID = mr.minMountID := rfl
  rw [hmin0] at hmin
  refine ⟨?_, ?_, ?_, ?_, ?_, ?_⟩
  · simp [insert_heap, Resolver.alloc]
  · intro ptr hp
    rw [insert_heap]
    rw [deref_set_other _ _ _ _ (by
      show mr.heap.length ≠ ptr
      exact Nat.ne_of_gt hp)]
    exact deref_append_old _ _ _ hp
  · intro k p hk
    rw [hm, Get_Insert]
    by_cases hke : k = e.MountID
    · rw [hke, h] at hk; cases hk
    · simp [hke, hk]
  · rw [hmin]; split <;> omega
  · intro h0
    rw [hmin, h0]
    simp
  · rw [hmin]
    split
    · right
      rw [hm]
      exact (mem_keys _ _).2 ⟨mr.heap.length, mem_of_Get _ _ _ (by rw [Get_Insert]; simp)⟩
    · exact Or.inl rfl

theorem Grows_syncPidLoop :
    ∀ (mnts : List MountInfo) (mr : Resolver), Grows mr (syncPidLoop mnts mr) := by
  intro mnts
  induction mnts with
  | nil => intro mr; exact Grows_refl mr
  | cons mnt rest ih =>
    intro mr
    rw [syncPidLoop]
    split
    · exact ih mr
    · rename_i hc
      refine Grows_trans mr _ _ (Grows_alloc_insert mr (newMountFromMountInfo mnt) ?_) (ih _)
      unfold MountMap.Contains at hc
      cases hg : mr.mounts.Get (mnt.ID % 2 ^ 32) with
      | none => exact hg
      | some p => rw [hg] at hc; simp at hc

theorem Grows_syncPid (mr : Resolver) (env : Env) (pid : Nat) :
    Grows mr (mr.syncPid env pid).1 := by
  unfold Resolver.syncPid
  split
  · exact ⟨Nat.le_refl _, fun _ _ => rfl, fun _ _ h => h, Nat.le_refl _, fun h => h, Or.inl rfl⟩
  · rename_i mnts _
    exact Grows_trans mr { mr with procScans := mr.procScans ++ [pid] } _
      ⟨Nat.le_refl _, fun _ _ => rfl, fun _ _ h => h, Nat.le_refl _, fun h => h, Or.inl rfl⟩
      (Grows_syncPidLoop mnts _)

theorem Grows_syncCacheLoop (env : Env) :
    ∀ (pids : List Nat) (mr : Resolver) (err : Option MountError),
      Grows mr (syncCacheLoop env pids mr err).1 := by
  intro pids
  induction pids with
  | nil => intro mr err; exact Grows_refl mr
  | cons pid rest ih =>
    intro mr err
    rw [syncCacheLoop]
    split
    · exact Grows_syncPid mr env pid
    · exact Grows_trans mr _ _ (Grows_syncPid mr env pid) (ih _ _)

theorem Grows_syncCache (mr : Resolver) (env : Env) (pids : List Nat) :
    Grows mr (mr.syncCache env pids).1 :=
  Grows_syncCacheLoop env pids mr none

/-- What `SyncCache` of process 1 returns: the state after the scan, with the
floor computed over its map. -/
theorem SyncCache_one (mr : Resolver) (env : Env) :
    (mr.SyncCache env 1).1.mounts = (mr.syncCache env [1]).1.mounts ∧
    (mr.SyncCache env 1).1.minMountID =
      forEachLoop floorVisit (mr.syncCache env [1]).1.mounts.entries
        (mr.syncCache env [1]).1.minMountID :=
  ⟨rfl, rfl⟩

/-! ## Cached paths -/

/-- A successful path construction of a mount whose mount point is not "/"
leaves its result, which is not empty, as the cached path of the record. -/
theorem getMountPath_sets (mr : Resolver) (fuel id : Nat) (cache : List Nat) (mr1 : Resolver)
    (p : String) (ptr : Ptr) (h : mr._getMountPath fuel id cache = some (mr1, Except.ok p))
    (hg : mr.mounts.Get id = some ptr) (hptr : ptr < mr.heap.length)
    (hmp : (deref mr.heap ptr).MountPointStr ≠ "/") :
    (deref mr1.heap ptr).Path = p ∧ p ≠ "" := by
  cases fuel with
  | zero => simp [Resolver._getMountPath] at h
  | succ fuel =>
    rw [Resolver._getMountPath] at h
    split at h
    · cases h
    · rw [hg] at h
      simp only [] at h
      split at h
      · rename_i hlen
        cases h
        refine ⟨rfl, ?_⟩
        intro he
        rw [he] at hlen
        exact absurd hlen (by decide)
      · split at h
        · rename_i hroot
          exact absurd (by simpa using hroot) hmp
        · split at h
          · cases h
          · split at h
            · cases h
            · split at h
              · cases h
              · cases h
              · rename_i mr2 parentMountPath heq
                obtain ⟨h1, he, hl, -⟩ := getMountPath_frame mr _ _ _ mr2 _ heq
                split at h
                · cases h
                · rename_i hj
                  cases h
                  have hp2 : ptr < mr2.heap.length := by
                    rw [he]
                    show ptr < h1.length
                    rw [hl]
                    exact hptr
                  refine ⟨?_, ?_⟩
                  · show (deref (mr2.heap.set ptr _) ptr).Path = _
                    rw [deref_set_self _ _ _ hp2]
                  · intro he0
                    apply hj
                    rw [he0]
                    rfl

/-- Path construction on a valid live mount with a cached path returns it at
once, in the first call, and changes nothing. -/
theorem getMountPath_hit (mr : Resolver) (fuel id : Nat) (cache : List Nat) (ptr : Ptr)
    (hv : (mr.IsMountIDValid id).2 = none) (hg : mr.mounts.Get id = some ptr)
    (hp : (deref mr.heap ptr).Path ≠ "") :
    mr._getMountPath (fuel + 1) id cache = some (mr, Except.ok (deref mr.heap ptr).Path) := by
  rw [Resolver._getMountPath, hv]
  simp only [hg]
  have : (deref mr.heap ptr).Path.length > 0 := by
    cases hl : (deref mr.heap ptr).Path.length with
    | zero => exact absurd (String.ext (List.length_eq_zero.1 hl)) hp
    | succ n => omega
  simp [this]

theorem getMountPath_sets_live (mr : Resolver) (hwf : mr.WF) (id : Nat) (mr1 : Resolver)
    (p : String) (ptr : Ptr) (h : mr.getMountPath id = (mr1, Except.ok p))
    (hg : mr1.mounts.Get id = some ptr) (hmp : (deref mr1.heap ptr).MountPointStr ≠ "/") :
    (deref mr1.heap ptr).Path = p ∧ p ≠ "" ∧ ptr < mr1.heap.length := by
  obtain ⟨h1, he, hl, hs⟩ := getMountPath_eq mr id
  rw [h] at he
  simp only [] at he
  have hg0 : mr.mounts.Get id = some ptr := by rw [he] at hg; exact hg
  have hp0 : ptr < mr.heap.length := hwf.2.1 (id, ptr) (mem_of_Get _ _ _ hg0)
  have hmp0 : (deref mr.heap ptr).MountPointStr ≠ "/" := by
    have := (hs ptr).2.2.2.2.1
    rw [he] at hmp
    rw [← this]
    exact hmp
  obtain ⟨r, hr, hr2⟩ := getMountPath_total mr id
  rw [h] at hr2
  rw [← hr2] at hr
  obtain ⟨a, b⟩ := getMountPath_sets mr _ id [] mr1 p ptr hr hg0 hp0 hmp0
  refine ⟨a, b, ?_⟩
  rw [he]
  show ptr < h1.length
  rw [hl]
  exact hp0

/-- A successful `resolveMountPath` of a mount whose mount point is not "/"
leaves its result, which is not empty, as the cached path of the record. -/
theorem resolveMountPath_sets (mr : Resolver) (hwf : mr.WF) (env : Env) (id pid : Nat)
    (containerID : String) (s1 : Resolver) (p : String) (ptr : Ptr)
    (h : mr.resolveMountPath env id containerID pid = (s1, Except.ok p))
    (hg : s1.mounts.Get id = some ptr) (hmp : (deref s1.heap ptr).MountPointStr ≠ "/") :
    (deref s1.heap ptr).Path = p ∧ p ≠ "" ∧ ptr < s1.heap.length := by
  unfold Resolver.resolveMountPath at h
  split at h
  · cases h
  · have hwf1 := WF_getMountPath mr id hwf
    split at h
    · rename_i mr1 path hp
      cases h
      exact getMountPath_sets_live mr hwf id mr1 p ptr hp hg hmp
    · rename_i mr1 err hp
      rw [hp] at hwf1
      simp only [] at hwf1
      unfold Resolver.resolveMountPathMiss at h
      split at h
      · cases h
      · split at h
        · cases h
        · have hwf2 := WF_syncCache { mr1 with
              cacheMissStats := mr1.cacheMissStats + 1
              fallbackLimiter := (mr1.fallbackLimiter.IsAllowed env id).2 } env
              (match env.GetWorkload containerID with
                | some workloadPIDs => [pid] ++ workloadPIDs
                | none => if (containerID.length == 0 && pid != 1) = true then [pid] ++ [1]
                    else [pid]) hwf1
          split at h
          · cases h
          · rename_i mr2 heq
            rw [heq] at hwf2
            simp only [] at hwf2
            split at h
            · rename_i mr3 path hp3
              cases h
              exact getMountPath_sets_live mr2 hwf2 id mr3 p ptr hp3 hg hmp
            · cases h

/-- A valid live mount with a cached path is resolved from the record. -/
theorem ReturnsCached_of_cached (t : Resolver) (id : Nat) (ptr : Ptr)
    (hv : (t.IsMountIDValid id).2 = none) (hg : t.mounts.Get id = some ptr)
    (hp : (deref t.heap ptr).Path ≠ "") : ReturnsCached t id (deref t.heap ptr).Path := by
  have h1 := getMountPath_hit t
  have h2 : t.getMountPath id = (t, Except.ok (deref t.heap ptr).Path) := by
    unfold Resolver.getMountPath
    rw [h1 _ id [] ptr hv hg hp]
  refine ⟨fun cache => h1 0 id cache ptr hv hg hp, h2, ?_⟩
  intro env pid containerID
  unfold Resolver.ResolveMountPath Resolver.resolveMountPath
  rw [hv, h2]

/-! ## The counters during a proc scan -/

theorem SameCounters_refl (s : Resolver) : SameCounters s s :=
  ⟨rfl, rfl, rfl, rfl, rfl, rfl, rfl⟩

theorem SameCounters_trans (s t u : Resolver) (h1 : SameCounters s t) (h2 : SameCounters t u) :
    SameCounters s u := by
  obtain ⟨a1, a2, a3, a4, a5, a6, a7⟩ := h1
  obtain ⟨b1, b2, b3, b4, b5, b6, b7⟩ := h2
  exact ⟨b1.trans a1, b2.trans a2, b3.trans a3, b4.trans a4, b5.trans a5, b6.trans a6,
    b7.trans a7⟩

theorem SameCounters_alloc_insert (mr : Resolver) (e : Mount) :
    SameCounters mr ((mr.alloc e).1.insert (mr.alloc e).2) := by
  obtain ⟨h1, h2, h3, h4, h5, h6, h7, -⟩ := insert_frame (mr.alloc e).1 (mr.alloc e).2
  exact ⟨h1, h2, h3, h4, h5, h6, h7⟩

theorem SameCounters_syncPidLoop :
    ∀ (mnts : List MountInfo) (mr : Resolver), SameCounters mr (syncPidLoop mnts mr) := by
  intro mnts
  induction mnts with
  | nil => intro mr; exact SameCounters_refl mr
  | cons mnt rest ih =>
    intro mr
    rw [syncPidLoop]
    split
    · exact ih mr
    · exact SameCounters_trans mr _ _ (SameCounters_alloc_insert mr _) (ih _)

theorem SameCounters_syncPid (mr : Resolver) (env : Env) (pid : Nat) :
    SameCounters mr (mr.syncPid env pid).1 := by
  unfold Resolver.syncPid
  split
  · exact ⟨rfl, rfl, rfl, rfl, rfl, rfl, rfl⟩
  · rename_i mnts _
    exact SameCounters_trans mr { mr with procScans := mr.procScans ++ [pid] } _
      ⟨rfl, rfl, rfl, rfl, rfl, rfl, rfl⟩ (SameCounters_syncPidLoop mnts _)

theorem SameCounters_syncCacheLoop (env : Env) :
    ∀ (pids : List Nat) (mr : Resolver) (err : Option MountError),
      SameCounters mr (syncCacheLoop env pids mr err).1 := by
  intro pids
  induction pids with
  | nil => intro mr err; exact SameCounters_refl mr
  | cons pid rest ih =>
    intro mr err
    rw [syncCacheLoop]
    split
    · exact SameCounters_syncPid mr env pid
    · exact SameCounters_trans mr _ _ (SameCounters_syncPid mr env pid) (ih _ _)

theorem SameCounters_syncCache (mr : Resolver) (env : Env) (pids : List Nat) :
    SameCounters mr (mr.syncCache env pids).1 :=
  SameCounters_syncCacheLoop env pids mr none

/-- The counters after a `resolveMountMiss` that returns a record. -/
theorem resolveMountMiss_counters (mr : Resolver) (env : Env) (id : Nat) (pids : List Nat)
    (ptr : Ptr) (h : (mr.resolveMountMiss env id pids).2 = Except.ok ptr) :
    (mr.resolveMountMiss env id pids).1.cacheHitsStats = mr.cacheHitsStats ∧
    (mr.resolveMountMiss env id pids).1.cacheMissStats = mr.cacheMissStats + 1 ∧
    (mr.resolveMountMiss env id pids).1.procHitsStats = mr.procHitsStats ∧
    (mr.resolveMountMiss env id pids).1.procMissStats = mr.procMissStats + 1 ∧
    mr.opts.UseProcFS = true ∧
    (mr.resolveMountMiss env id pids).1.mounts.Get id = some ptr := by
  unfold Resolver.resolveMountMiss at h ⊢
  by_cases hu : mr.opts.UseProcFS = true
  · by_cases hl : (mr.fallbackLimiter.IsAllowed env id).1 = true
    · simp only [hu, hl, Bool.not_true, Bool.false_eq_true, if_false] at h ⊢
      have hc := SameCounters_syncCache { mr with
          cacheMissStats := mr.cacheMissStats + 1
          fallbackLimiter := (mr.fallbackLimiter.IsAllowed env id).2 } env pids
      cases hs : Resolver.syncCache { mr with
          cacheMissStats := mr.cacheMissStats + 1
          fallbackLimiter := (mr.fallbackLimiter.IsAllowed env id).2 } env pids with
      | mk mr1 err =>
        rw [hs] at h hc
        obtain ⟨-, -, -, c4, c5, c6, c7⟩ := hc
        simp only [] at c4 c5 c6 c7
        cases err with
        | some e => simp at h
        | none =>
          simp only [] at h ⊢
          cases hg : mr1.mounts.Get id with
          | none => rw [hg] at h; simp at h
          | some m =>
            rw [hg] at h ⊢
            simp only [Except.ok.injEq] at h
            subst h
            exact ⟨c4, c5, c6, by show mr1.procMissStats + 1 = _; rw [c7], trivial, rfl⟩
    · simp [hu, hl] at h
  · simp [hu] at h

/-! ## Truncation of timestamps -/

/-- The loop halves `ns` some `k` times, until it is at most 1024; the value
before the last halving was above 1024. -/
theorem nsTimestampLoop_spec :
    ∀ (fuel ns shift : Nat), ns < 2 ^ (fuel + 10) →
      ∃ k, nsTimestampLoop fuel ns shift = (ns / 2 ^ k, shift + k) ∧ ns / 2 ^ k ≤ 1024 ∧
        (k = 0 ∨ 1024 < ns / 2 ^ (k - 1)) := by
  intro fuel
  induction fuel with
  | zero =>
    intro ns shift h
    refine ⟨0, ?_, ?_, Or.inl rfl⟩
    · simp [nsTimestampLoop]
    · simp at h ⊢; omega
  | succ fuel ih =>
    intro ns shift h
    rw [nsTimestampLoop]
    by_cases hc : ns > roundMask
    · rw [if_pos hc]
      have h2 : ns >>> 1 < 2 ^ (fuel + 10) := by
        rw [Nat.shiftRight_eq_div_pow]
        have : 2 ^ (fuel + 1 + 10) = 2 * 2 ^ (fuel + 10) := by ring
        rw [this] at h
        simp only [pow_one]
        omega
      obtain ⟨k, hk, hle, hlast⟩ := ih (ns >>> 1) (shift + 1) h2
      have hdiv : ∀ j, ns >>> 1 / 2 ^ j = ns / 2 ^ (j + 1) := by
        intro j
        rw [Nat.shiftRight_eq_div_pow, Nat.div_div_eq_div_mul, pow_succ]
        ring_nf
      refine ⟨k + 1, ?_, ?_, Or.inr ?_⟩
      · rw [hk, hdiv]
        congr 1
        omega
      · rw [← hdiv]; exact hle
      · simp only [Nat.add_sub_cancel]
        rcases hlast with h0 | h1
        · subst h0
          simp only [pow_zero, Nat.div_one]
          exact hc
        · rw [hdiv] at h1
          have : k - 1 + 1 = k := by
            cases k with
            | zero => simp at h1; unfold roundMask at hc; simp at hle; omega
            | succ n => rfl
          rw [this] at h1
          exact h1
    · rw [if_neg hc]
      refine ⟨0, by simp, ?_, Or.inl rfl⟩
      unfold roundMask at hc
      simp at hc ⊢
      exact hc

/-- What `nsTimestampToFloat` converts to a float: `ns` with its `k` low bits
cleared, which loses less than one part in 512. -/
theorem nsTimestampTrunc_spec (ns : Nat) (h : ns < 2 ^ 64) :
    ∃ k, nsTimestampLoop 64 ns 0 = (ns / 2 ^ k, k) ∧ ns / 2 ^ k ≤ 1024 ∧
      nsTimestampTrunc ns = ns / 2 ^ k * 2 ^ k ∧
      nsTimestampTrunc ns ≤ ns ∧ (ns - nsTimestampTrunc ns) * 512 ≤ ns := by
  obtain ⟨k, hk, hle, hlast⟩ := nsTimestampLoop_spec 64 ns 0
    (Nat.lt_of_lt_of_le h (Nat.pow_le_pow_right (by decide) (by decide)))
  rw [Nat.zero_add] at hk
  have hv : nsTimestampTrunc ns = ns / 2 ^ k * 2 ^ k := by
    unfold nsTimestampTrunc
    rw [hk]
    simp only [Nat.shiftLeft_eq]
    apply Nat.mod_eq_of_lt
    exact Nat.lt_of_le_of_lt (Nat.div_mul_le_self ns (2 ^ k)) h
  have hvle : ns / 2 ^ k * 2 ^ k ≤ ns := Nat.div_mul_le_self ns (2 ^ k)
  refine ⟨k, hk, hle, hv, by rw [hv]; exact hvle, ?_⟩
  rw [hv]
  rcases hlast with h0 | h1
  · subst h0
    simp
  · cases k with
    | zero => simp
    | succ j =>
      simp only [Nat.add_sub_cancel] at h1
      have hpos : 0 < 2 ^ j := Nat.pow_pos (by decide)
      have h1025 : 1025 * 2 ^ j ≤ ns := by
        have := (Nat.le_div_iff_mul_le hpos).1 (Nat.succ_le_of_lt h1)
        exact this
      have hmod := Nat.div_add_mod ns (2 ^ (j + 1))
      have hlt := Nat.mod_lt ns (show 0 < 2 ^ (j + 1) from Nat.pow_pos (by decide))
      have hp : 2 ^ (j + 1) = 2 * 2 ^ j := by ring
      have hcomm : ns / 2 ^ (j + 1) * 2 ^ (j + 1) = 2 ^ (j + 1) * (ns / 2 ^ (j + 1)) :=
        Nat.mul_comm _ _
      rw [hcomm]
      generalize ns / 2 ^ (j + 1) = q at hmod ⊢
      generalize ns % 2 ^ (j + 1) = r at hmod hlt
      rw [hp] at hmod hlt ⊢
      generalize 2 ^ j = a at *
      generalize hqa : 2 * a * q = v at hmod ⊢
      omega

/-! ## The empty-path branch -/

/-- Path construction returns no empty path and never takes the empty-path
branch. -/
theorem getMountPath_nonempty (mr : Resolver) :
    ∀ (fuel id : Nat) (cache : List Nat) (mr1 : Resolver) (r : Except MountError String),
      mr._getMountPath fuel id cache = some (mr1, r) →
      r ≠ Except.error MountError.ErrMountPathEmpty ∧ ∀ p, r = Except.ok p → p.length ≠ 0 := by
  intro fuel
  induction fuel with
  | zero => intro id cache mr1 r h; simp [Resolver._getMountPath] at h
  | succ fuel ih =>
    intro id cache mr1 r h
    rw [Resolver._getMountPath] at h
    split at h
    · rename_i err hv
      cases h
      refine ⟨?_, fun p hp => (by cases hp)⟩
      intro he
      cases he
      unfold Resolver.IsMountIDValid at hv
      split at hv
      · cases hv
      · split at hv <;> cases hv
    · split at h
      · cases h
        exact ⟨fun he => (by cases he), fun p hp => (by cases hp)⟩
      · rename_i mount _
        split at h
        · rename_i hlen
          cases h
          refine ⟨fun he => (by cases he), fun p hp => ?_⟩
          cases hp
          omega
        · split at h
          · rename_i hroot
            cases h
            refine ⟨fun he => (by cases he), fun p hp => ?_⟩
            cases hp
            have : (deref mr.heap mount).MountPointStr = "/" := by simpa using hroot
            rw [this]
            decide
          · split at h
            · cases h
              exact ⟨fun he => (by cases he), fun p hp => (by cases hp)⟩
            · split at h
              · cases h
                exact ⟨fun he => (by cases he), fun p hp => (by cases hp)⟩
              · split at h
                · cases h
                · rename_i mr2 err heq
                  cases h
                  exact ⟨(ih _ _ _ _ heq).1, fun p hp => (by cases hp)⟩
                · rename_i mr2 parentMountPath heq
                  have hpar := (ih _ _ _ _ heq).2 parentMountPath rfl
                  have hj := Join_ne_empty parentMountPath (deref mr.heap mount).MountPointStr hpar
                  split at h
                  · rename_i hz
                    exact absurd (by simpa using hz) hj
                  · cases h
                    exact ⟨fun he => (by cases he), fun p hp => (by cases hp; exact hj)⟩

theorem getMountPath_nonempty_total (mr : Resolver) (id : Nat) :
    (mr.getMountPath id).2 ≠ Except.error MountError.ErrMountPathEmpty ∧
    ∀ p, (mr.getMountPath id).2 = Except.ok p → p.length ≠ 0 := by
  obtain ⟨r, hr, hr2⟩ := getMountPath_total mr id
  rw [hr2]
  obtain ⟨mr1, res⟩ := r
  exact getMountPath_nonempty mr _ _ _ mr1 res hr

/-- The scans of the mount tables fail with their own error. -/
theorem syncCacheLoop_error (env : Env) :
    ∀ (pids : List Nat) (mr : Resolver) (err : Option MountError),
      err ≠ some MountError.ErrMountPathEmpty →
      (syncCacheLoop env pids mr err).2 ≠ some MountError.ErrMountPathEmpty := by
  intro pids
  induction pids with
  | nil => intro mr err h; exact h
  | cons pid rest ih =>
    intro mr err _
    rw [syncCacheLoop]
    split
    · intro h; cases h
    · rename_i e he
      apply ih
      unfold Resolver.syncPid at he
      split at he
      · cases he
        intro h; cases h
      · cases he

theorem resolveMountPath_nonempty (mr : Resolver) (env : Env) (id pid : Nat)
    (containerID : String) :
    (mr.resolveMountPath env id containerID pid).2 ≠ Except.error MountError.ErrMountPathEmpty ∧
    ∀ p, (mr.resolveMountPath env id containerID pid).2 = Except.ok p → p.length ≠ 0 := by
  unfold Resolver.resolveMountPath
  split
  · rename_i err hv
    refine ⟨?_, fun p hp => (by cases hp)⟩
    intro he
    cases he
    unfold Resolver.IsMountIDValid at hv
    split at hv
    · cases hv
    · split at hv <;> cases hv
  · have h1 := getMountPath_nonempty_total mr id
    split
    · rename_i mr1 path hp
      rw [hp] at h1
      exact ⟨fun he => (by cases he), fun p hq => (by cases hq; exact h1.2 path rfl)⟩
    · rename_i mr1 err hp
      unfold Resolver.resolveMountPathMiss
      split
      · exact ⟨fun he => (by cases he), fun p hq => (by cases hq)⟩
      · split
        · exact ⟨fun he => (by cases he), fun p hq => (by cases hq)⟩
        · split
          · rename_i mr2 e heq
            refine ⟨?_, fun p hq => (by cases hq)⟩
            intro he
            cases he
            have := syncCacheLoop_error env _ _ none (by simp) (by
              unfold Resolver.syncCache at heq
              rw [heq])
            exact this
          · rename_i mr2 heq
            have h2 := getMountPath_nonempty_total mr2 id
            split
            · rename_i mr3 path hp3
              rw [hp3] at h2
              exact ⟨fun he => (by cases he), fun p hq => (by cases hq; exact h2.2 path rfl)⟩
            · rename_i mr3 e hp3
              rw [hp3] at h2
              exact ⟨fun he => (by cases he; exact h2.1 rfl), fun p hq => (by cases hq)⟩

/-! ## Normalisation of the mount point -/

/-- `TrimPrefix` of one separator. -/
theorem TrimPrefix_slash (s : String) :
    (TrimPrefix s "/").data = match s.data with
      | '/' :: rest => rest
      | other => other := by
  unfold TrimPrefix
  cases hs : s.data with
  | nil => simp [hs, List.isPrefixOf]
  | cons c rest =>
    by_cases hc : c = '/'
    · subst hc
      simp [hs, List.isPrefixOf]
    · have : ("/".data.isPrefixOf (c :: rest)) = false := by
        show (['/'].isPrefixOf (c :: rest)) = false
        simp [List.isPrefixOf]
        intro h
        exact absurd h.symm hc
      simp only [hs, this, Bool.false_eq_true, if_false]
      split
      · rename_i heq
        cases heq
        exact absurd rfl hc
      · rfl

/-- The mount point that `insert` stores for a record without resolved path
whose mount point is not "/" starts with a separator exactly when the mount
point of the record starts with two. -/
theorem TrimPrefix_slash_head (s : String) :
    (TrimPrefix s "/").data.head? = some '/' ↔ ∃ rest, s.data = '/' :: '/' :: rest := by
  rw [TrimPrefix_slash]
  cases hs : s.data with
  | nil => simp
  | cons c rest =>
    by_cases hc : c = '/'
    · subst hc
      simp only []
      cases rest with
      | nil => simp
      | cons d rest2 => simp
    · constructor
      · intro h
        split at h
        · rename_i heq
          cases heq
          exact absurd rfl hc
        · rename_i hne
          simp at h
          exact absurd h hc
      · rintro ⟨r, hr⟩
        cases hr
        exact absurd rfl hc

theorem normalizeMount_spec (e : Mount) :
    (e.Path = "" → e.MountPointStr ≠ "/" →
      normalizeMount e = { e with MountPointStr := TrimPrefix e.MountPointStr "/" }) ∧
    (e.MountPointStr = "/" ∨ e.Path ≠ "" → normalizeMount e = e) := by
  unfold normalizeMount
  constructor
  · intro hp hm
    have h1 : (e.Path.length == 0) = true := by rw [hp]; rfl
    have h2 : (e.MountPointStr != "/") = true := by simpa using hm
    simp [h1, h2]
  · rintro (hm | hp)
    · have h2 : (e.MountPointStr != "/") = false := by simp [hm]
      simp [h2]
    · have h1 : (e.Path.length == 0) = false := by
        have : e.Path.length ≠ 0 := fun h0 => hp (String.ext (List.length_eq_zero.1 h0))
        simpa using this
      simp [h1]

theorem Insert_minMountID (mr : Resolver) (e : Mount) (h : e.MountID ≠ 0) :
    (mr.Insert e).1.minMountID = min mr.minMountID e.MountID := by
  rw [(Insert_stores mr e h).1]
  have hd : deref (mr.alloc e).1.heap mr.heap.length = e := by simp [Resolver.alloc, deref_alloc]
  have := insert_minMountID (mr.alloc e).1 mr.heap.length (by simp [Resolver.alloc])
  rw [hd] at this
  rw [this]
  show (if mr.minMountID > e.MountID then e.MountID else mr.minMountID) = _
  split
  · exact (Nat.min_eq_right (by omega)).symm
  · exact (Nat.min_eq_left (by omega)).symm

theorem Insert_zero (mr : Resolver) (e : Mount) (h : e.MountID = 0) :
    mr.Insert e = (mr, some MountError.ErrMountUndefined) := by
  unfold Resolver.Insert
  simp [h]

/-! ## The delete queue -/

/-- What `dequeue` leaves. -/
theorem dequeue_eq (mr : Resolver) (now : Nat) :
    mr.dequeue now =
      ((mr.deleteQueue.takeWhile (deleteRequest.due now)).foldl dequeueHandle mr).withDeleteQueue
        (mr.deleteQueue.dropWhile (deleteRequest.due now)) := by
  have hdrop := drop_takeWhile_length (deleteRequest.due now) mr.deleteQueue
  have hlen := (@List.takeWhile_sublist _ mr.deleteQueue (deleteRequest.due now)).length_le
  unfold Resolver.dequeue
  rw [dequeueLoop_takeWhile]
  simp only []
  split
  · have hfull : (mr.deleteQueue.takeWhile (deleteRequest.due now)).length
        = mr.deleteQueue.length := by omega
    rw [← hdrop, hfull, List.drop_length]
    rfl
  · split
    · rw [hdrop]
      rfl
    · have hz : (mr.deleteQueue.takeWhile (deleteRequest.due now)).length = 0 := by omega
      have hnil := List.length_eq_zero.1 hz
      rw [← hdrop, hz, hnil]
      rfl

theorem dequeue_deleteQueue (mr : Resolver) (now : Nat) :
    (mr.dequeue now).deleteQueue = mr.deleteQueue.dropWhile (deleteRequest.due now) := by
  rw [dequeue_eq]
  rfl

theorem syncCache_deleteQueue (mr : Resolver) (env : Env) (pids : List Nat) :
    (mr.syncCache env pids).1.deleteQueue = mr.deleteQueue :=
  (SameCounters_syncCache mr env pids).2.1

theorem getMountPath_deleteQueue (mr : Resolver) (id : Nat) :
    (mr.getMountPath id).1.deleteQueue = mr.deleteQueue := by
  obtain ⟨h1, he, -, -⟩ := getMountPath_eq mr id
  rw [he]

theorem resolveMountMiss_deleteQueue (mr : Resolver) (env : Env) (id : Nat) (pids : List Nat) :
    (mr.resolveMountMiss env id pids).1.deleteQueue = mr.deleteQueue := by
  unfold Resolver.resolveMountMiss
  split
  · rfl
  · split
    · rfl
    · have hs := syncCache_deleteQueue { mr with
          cacheMissStats := mr.cacheMissStats + 1
          fallbackLimiter := (mr.fallbackLimiter.IsAllowed env id).2 } env pids
      split
      · rename_i mr1 err heq
        rw [heq] at hs
        exact hs
      · rename_i mr1 heq
        rw [heq] at hs
        split <;> exact hs

theorem resolveMount_deleteQueue (mr : Resolver) (env : Env) (id : Nat) (containerID : String)
    (pids : List Nat) : (mr.resolveMount env id containerID pids).1.deleteQueue = mr.deleteQueue := by
  unfold Resolver.resolveMount
  split
  · rfl
  · split
    · rfl
    · exact resolveMountMiss_deleteQueue mr env id _

theorem resolveMountPathMiss_deleteQueue (mr : Resolver) (env : Env) (id : Nat)
    (pids : List Nat) : (mr.resolveMountPathMiss env id pids).1.deleteQueue = mr.deleteQueue := by
  unfold Resolver.resolveMountPathMiss
  split
  · rfl
  · split
    · rfl
    · have hs := syncCache_deleteQueue { mr with
          cacheMissStats := mr.cacheMissStats + 1
          fallbackLimiter := (mr.fallbackLimiter.IsAllowed env id).2 } env pids
      split
      · rename_i mr1 err heq
        rw [heq] at hs
        exact hs
      · rename_i mr1 heq
        rw [heq] at hs
        have hg := getMountPath_deleteQueue mr1 id
        split
        · rename_i mr2 path hp
          rw [hp] at hg
          exact hg.trans hs
        · rename_i mr2 err hp
          rw [hp] at hg
          exact hg.trans hs

theorem resolveMountPath_deleteQueue (mr : Resolver) (env : Env) (id : Nat)
    (containerID : String) (pid : Nat) :
    (mr.resolveMountPath env id containerID pid).1.deleteQueue = mr.deleteQueue := by
  unfold Resolver.resolveMountPath
  split
  · rfl
  · have hg := getMountPath_deleteQueue mr id
    split
    · rename_i mr1 path hp
      rw [hp] at hg
      exact hg
    · rename_i mr1 err hp
      rw [hp] at hg
      exact (resolveMountPathMiss_deleteQueue mr1 env id _).trans hg

/-- The delete queue after an operation: `Delete` of a live mount appends a
request whose deadline is the time read plus 5 s, the sweep drops the due
requests at the head, and no other operation changes the queue. -/
theorem perform_deleteQueue (mr : Resolver) (op : Op) :
    (mr.perform op).deleteQueue =
      match op with
      | Op.Delete now id =>
        match mr.mounts.Get id with
        | some mount => mr.deleteQueue ++ [⟨mount, now + deleteDelayTime⟩]
        | none => mr.deleteQueue
      | Op.dequeue now => mr.deleteQueue.dropWhile (deleteRequest.due now)
      | _ => mr.deleteQueue := by
  cases op with
  | Insert e =>
    show (mr.Insert e).1.deleteQueue = mr.deleteQueue
    unfold Resolver.Insert
    split
    · rfl
    · exact (insert_frame _ _).2.1
  | Delete now id =>
    show (mr.Delete now id).1.deleteQueue =
      (match mr.mounts.Get id with
        | some mount => mr.deleteQueue ++ [⟨mount, now + deleteDelayTime⟩]
        | none => mr.deleteQueue)
    unfold Resolver.Delete
    cases mr.mounts.Get id <;> rfl
  | dequeue now => exact dequeue_deleteQueue mr now
  | SyncCache env pid =>
    show (mr.SyncCache env pid).1.deleteQueue = mr.deleteQueue
    unfold Resolver.SyncCache
    split
    · exact syncCache_deleteQueue mr env [pid]
    · exact syncCache_deleteQueue mr env [pid]
  | ResolveMount env id pid containerID => exact resolveMount_deleteQueue mr env id containerID [pid]
  | ResolveMountPath env id pid containerID =>
    exact resolveMountPath_deleteQueue mr env id containerID pid
  | ResolveMountRoot env id pid containerID =>
    have h := resolveMount_deleteQueue mr env id containerID [pid]
    show (mr.ResolveMountRoot env id pid containerID).1.deleteQueue = mr.deleteQueue
    unfold Resolver.ResolveMountRoot
    split
    · rename_i mr1 err heq
      rw [heq] at h; exact h
    · rename_i mr1 mount heq
      rw [heq] at h; exact h
  | ResolveFilesystem env id pid containerID =>
    have h := resolveMount_deleteQueue mr env id containerID [pid]
    show (mr.ResolveFilesystem env id pid containerID).1.deleteQueue = mr.deleteQueue
    unfold Resolver.ResolveFilesystem
    split
    · rename_i mr1 err heq
      rw [heq] at h; exact h
    · rename_i mr1 mount heq
      rw [heq] at h; exact h
  | SendStats fails =>
    show (mr.SendStats fails).1.deleteQueue = mr.deleteQueue
    unfold Resolver.SendStats
    split
    · rfl
    · split
      · rfl
      · split <;> rfl

/-- Operations that read non-decreasing times keep the deadlines ordered. -/
theorem DeadlineOrdered_ops :
    ∀ (ops : List Op) (s : Resolver), DeadlineOrdered s.deleteQueue →
      (∀ r ∈ s.deleteQueue, ∀ t ∈ ops.filterMap Op.deleteTime, r.timeoutAt ≤ t + deleteDelayTime) →
      ClockOrdered ops → DeadlineOrdered (ops.foldl Resolver.perform s).deleteQueue := by
  intro ops
  induction ops with
  | nil => intro s h _ _; exact h
  | cons op rest ih =>
    intro s hs hb hc
    rw [List.foldl_cons]
    have hq := perform_deleteQueue s op
    cases op with
    | Delete now id =>
      simp only [] at hq
      have hc2 : (rest.filterMap Op.deleteTime).Pairwise (fun a b => a ≤ b) ∧
          ∀ t ∈ rest.filterMap Op.deleteTime, now ≤ t := by
        unfold ClockOrdered at hc
        simp only [List.filterMap_cons, Op.deleteTime, List.pairwise_cons] at hc
        exact ⟨hc.2, hc.1⟩
      have hb2 : ∀ r ∈ s.deleteQueue, ∀ t ∈ rest.filterMap Op.deleteTime,
          r.timeoutAt ≤ t + deleteDelayTime := by
        intro r hr t ht
        apply hb r hr t
        simp only [List.filterMap_cons, Op.deleteTime]
        exact List.mem_cons_of_mem _ ht
      have hnow : ∀ r ∈ s.deleteQueue, r.timeoutAt ≤ now + deleteDelayTime := by
        intro r hr
        apply hb r hr now
        simp only [List.filterMap_cons, Op.deleteTime]
        exact List.mem_cons_self _ _
      apply ih _ _ _ hc2.1
      · rw [hq]
        cases mr : s.mounts.Get id with
        | none => exact hs
        | some mount =>
          simp only []
          unfold DeadlineOrdered
          rw [List.pairwise_append]
          refine ⟨hs, List.pairwise_singleton _ _, ?_⟩
          intro a ha b hb3
          simp only [List.mem_singleton] at hb3
          rw [hb3]
          exact hnow a ha
      · rw [hq]
        intro r hr t ht
        cases mr : s.mounts.Get id with
        | none =>
          rw [mr] at hr
          exact hb2 r hr t ht
        | some mount =>
          rw [mr] at hr
          simp only [List.mem_append, List.mem_singleton] at hr
          rcases hr with h | h
          · exact hb2 r h t ht
          · rw [h]
            have := hc2.2 t ht
            show now + deleteDelayTime ≤ t + deleteDelayTime
            omega
    | dequeue now =>
      simp only [] at hq
      have hsub : ((s.perform (Op.dequeue now)).deleteQueue).Sublist s.deleteQueue := by
        rw [hq]; exact List.dropWhile_sublist _
      apply ih _ (hs.sublist hsub) _ (by
        unfold ClockOrdered at hc ⊢
        simpa [List.filterMap_cons, Op.deleteTime] using hc)
      intro r hr t ht
      apply hb r (hsub.subset hr) t
      simpa [List.filterMap_cons, Op.deleteTime] using ht
    | Insert e =>
      simp only [] at hq
      apply ih _ (by rw [hq]; exact hs) _ (by
        unfold ClockOrdered at hc ⊢
        simpa [List.filterMap_cons, Op.deleteTime] using hc)
      intro r hr t ht
      rw [hq] at hr
      apply hb r hr t
      simpa [List.filterMap_cons, Op.deleteTime] using ht
    | SyncCache env pid =>
      simp only [] at hq
      apply ih _ (by rw [hq]; exact hs) _ (by
        unfold ClockOrdered at hc ⊢
        simpa [List.filterMap_cons, Op.deleteTime] using hc)
      intro r hr t ht
      rw [hq] at hr
      apply hb r hr t
      simpa [List.filterMap_cons, Op.deleteTime] using ht
    | ResolveMount env id pid containerID =>
      simp only [] at hq
      apply ih _ (by rw [hq]; exact hs) _ (by
        unfold ClockOrdered at hc ⊢
        simpa [List.filterMap_cons, Op.deleteTime] using hc)
      intro r hr t ht
      rw [hq] at hr
      apply hb r hr t
      simpa [List.filterMap_cons, Op.deleteTime] using ht
    | ResolveMountPath env id pid containerID =>
      simp only [] at hq
      apply ih _ (by rw [hq]; exact hs) _ (by
        unfold ClockOrdered at hc ⊢
        simpa [List.filterMap_cons, Op.deleteTime] using hc)
      intro r hr t ht
      rw [hq] at hr
      apply hb r hr t
      simpa [List.filterMap_cons, Op.deleteTime] using ht
    | ResolveMountRoot env id pid containerID =>
      simp only [] at hq
      apply ih _ (by rw [hq]; exact hs) _ (by
        unfold ClockOrdered at hc ⊢
        simpa [List.filterMap_cons, Op.deleteTime] using hc)
      intro r hr t ht
      rw [hq] at hr
      apply hb r hr t
      simpa [List.filterMap_cons, Op.deleteTime] using ht
    | ResolveFilesystem env id pid containerID =>
      simp only [] at hq
      apply ih _ (by rw [hq]; exact hs) _ (by
        unfold ClockOrdered at hc ⊢
        simpa [List.filterMap_cons, Op.deleteTime] using hc)
      intro r hr t ht
      rw [hq] at hr
      apply hb r hr t
      simpa [List.filterMap_cons, Op.deleteTime] using ht
    | SendStats fails =>
      simp only [] at hq
      apply ih _ (by rw [hq]; exact hs) _ (by
        unfold ClockOrdered at hc ⊢
        simpa [List.filterMap_cons, Op.deleteTime] using hc)
      intro r hr t ht
      rw [hq] at hr
      apply hb r hr t
      simpa [List.filterMap_cons, Op.deleteTime] using ht

/-- After a sweep of a queue with ordered deadlines, every request left has its
deadline after the time of the sweep. -/
theorem dropWhile_due_ordered (q : List deleteRequest) (now : Nat) (h : DeadlineOrdered q) :
    ∀ r ∈ q.dropWhile (deleteRequest.due now), now < r.timeoutAt := by
  induction q with
  | nil => intro r hr; simp at hr
  | cons a rest ih =>
    intro r hr
    have hp := List.pairwise_cons.1 h
    by_cases hd : deleteRequest.due now a = true
    · rw [List.dropWhile_cons, if_pos hd] at hr
      exact ih hp.2 r hr
    · rw [List.dropWhile_cons, if_neg hd] at hr
      have ha : now < a.timeoutAt := by
        unfold deleteRequest.due at hd
        simpa using hd
      rcases List.mem_cons.1 hr with h1 | h1
      · rw [h1]; exact ha
      · exact Nat.lt_of_lt_of_le ha (hp.1 r h1)

/-! ## What finalization leaves alone -/

/-- The loop of `finalize`, started on reached records and on a part of the map,
keeps the binding of a mount ID that no reached record bears. -/
theorem finalizeLoop_frame (heap : List Mount) (m : MountMap) (first : Ptr) (k : Nat)
    (hun : ∀ x, FinReach heap m first x → (deref heap x).MountID ≠ k) :
    ∀ (fuel : Nat) (q : List Ptr) (m1 : MountMap),
      (∀ e ∈ m1.entries, e ∈ m.entries) → (∀ x ∈ q, FinReach heap m first x) →
      (finalizeLoop heap fuel q m1).2.Get k = m1.Get k := by
  intro fuel
  induction fuel with
  | zero => intro q m1 _ _; rfl
  | succ fuel ih =>
    intro q m1 hsub hq
    cases q with
    | nil => rfl
    | cons t rest =>
      rw [finalizeLoop_cons]
      have ht := hq t (List.mem_cons_self _ _)
      have hsub2 : ∀ e ∈ (m1.Delete (deref heap t).MountID).entries, e ∈ m.entries :=
        fun e he => hsub e ((mem_Delete _ _ _).1 he).1
      rw [ih _ _ hsub2]
      · rw [Get_Delete, if_neg (fun h => hun t ht h.symm)]
      · intro x hx
        rcases List.mem_append.1 hx with hx | hx
        · obtain ⟨e, he, rfl, hc⟩ := (mem_pushList _ _ _ _).1 hx
          rcases hc with hc | ⟨ho, hc⟩
          · refine FinReach.child t e ht (hsub2 e he) ?_
            unfold isChildOf at hc
            simp only [Bool.and_eq_true, beq_iff_eq] at hc
            exact hc.1
          · refine FinReach.device t e ht ho (hsub2 e he) ?_
            unfold isDeviceSibling at hc
            simp only [Bool.and_eq_true, beq_iff_eq] at hc
            exact hc.1
        · exact hq x (List.mem_cons_of_mem _ hx)

/-- Finalization of a record that is not an overlay mount and has no child but
itself removes the binding of its mount ID and nothing else. -/
theorem finalizeMap_leaf (heap : List Mount) (m : MountMap) (first : Ptr)
    (ho : (deref heap first).IsOverlayFS = false)
    (hc : ∀ e ∈ m.entries, (deref heap e.2).ParentMountID = (deref heap first).MountID →
      e.1 = (deref heap first).MountID) :
    finalizeMap heap m first = m.Delete (deref heap first).MountID := by
  have hp : pushList heap first (m.Delete (deref heap first).MountID) = [] := by
    cases hpl : pushList heap first (m.Delete (deref heap first).MountID) with
    | nil => rfl
    | cons c rest =>
      exfalso
      have hmem : c ∈ pushList heap first (m.Delete (deref heap first).MountID) := by
        rw [hpl]; exact List.mem_cons_self _ _
      obtain ⟨e, he, -, h⟩ := (mem_pushList _ _ _ _).1 hmem
      rcases h with h | ⟨h, -⟩
      · unfold isChildOf at h
        simp only [Bool.and_eq_true, beq_iff_eq] at h
        have he2 := (mem_Delete _ _ _).1 he
        exact he2.2 (hc e he2.1 h.1)
      · rw [ho] at h
        cases h
  unfold finalizeMap finalizeFuel
  rw [finalizeLoop_cons, hp, List.nil_append, finalizeLoop_nil]

/-- The records reached from mount 2 in `threeLevels` are those of the mounts 2 and 3. -/
theorem threeLevels_reach (x : Ptr)
    (h : FinReach threeLevels.heap threeLevels.mounts 1 x) : x ∈ [1, 2] := by
  induction h with
  | first => decide
  | child x e _ he hp ih =>
    have key : ∀ x ∈ [1, 2], ∀ e ∈ threeLevels.mounts.entries,
        (deref threeLevels.heap e.2).ParentMountID = (deref threeLevels.heap x).MountID →
        e.2 ∈ [1, 2] := by decide
    exact key x ih e he hp
  | device x e _ ho _ _ ih =>
    have key : ∀ x ∈ [1, 2], ¬ (deref threeLevels.heap x).IsOverlayFS = true := by decide
    exact absurd ho (key x ih)

/-- The only record reached from mount 4 in `threeLevels` is its own. -/
theorem threeLevels_reach_leaf (x : Ptr)
    (h : FinReach threeLevels.heap threeLevels.mounts 3 x) : x ∈ [3] := by
  induction h with
  | first => decide
  | child x e _ he hp ih =>
    have key : ∀ x ∈ [3], ∀ e ∈ threeLevels.mounts.entries,
        (deref threeLevels.heap e.2).ParentMountID = (deref threeLevels.heap x).MountID →
        e.2 ∈ [3] := by decide
    exact key x ih e he hp
  | device x e _ ho _ _ ih =>
    have key : ∀ x ∈ [3], ¬ (deref threeLevels.heap x).IsOverlayFS = true := by decide
    exact absurd ho (key x ih)

/-! ## The proc merge -/

/-- A record made from a line of a mount table is stored as it is. -/
theorem normalizeMount_newMount (mnt : MountInfo) :
    normalizeMount (newMountFromMountInfo mnt) = newMountFromMountInfo mnt := by
  by_cases h : (newMountFromMountInfo mnt).Path = ""
  · have hm : mnt.Mountpoint = "" := h
    have h2 := (normalizeMount_spec (newMountFromMountInfo mnt)).1 h (by
      show mnt.Mountpoint ≠ "/"
      rw [hm]; decide)
    rw [h2]
    show ({ newMountFromMountInfo mnt with MountPointStr := TrimPrefix mnt.Mountpoint "/" } : Mount)
      = newMountFromMountInfo mnt
    rw [hm]
    have ht : TrimPrefix "" "/" = "" := by decide
    rw [ht]
    show _ = newMountFromMountInfo mnt
    unfold newMountFromMountInfo
    rw [hm]
  · exact (normalizeMount_spec _).2 (Or.inr h)

/-- The insertion of a record whose mount ID is not live: the binding is added
to the map and the record is stored as normalised at the end of the heap. -/
theorem alloc_insert_new (mr : Resolver) (e : Mount) (h : mr.mounts.Get e.MountID = none) :
    ((mr.alloc e).1.insert (mr.alloc e).2).mounts = mr.mounts.Insert e.MountID mr.heap.length ∧
    ((mr.alloc e).1.insert (mr.alloc e).2).heap.length = mr.heap.length + 1 ∧
    deref ((mr.alloc e).1.insert (mr.alloc e).2).heap mr.heap.length = normalizeMount e := by
  have hlen : (mr.alloc e).2 < (mr.alloc e).1.heap.length := by simp [Resolver.alloc]
  have hd : deref (mr.alloc e).1.heap (mr.alloc e).2 = e := by simp [Resolver.alloc, deref_alloc]
  have hu : (mr.alloc e).1.insertUmount (mr.alloc e).2 = (mr.alloc e).1 := by
    unfold Resolver.insertUmount
    rw [hd]
    show (match mr.mounts.Get e.MountID with
      | some prev => _
      | none => (mr.alloc e).1) = _
    rw [h]
  refine ⟨?_, ?_, ?_⟩
  · rw [insert_mounts _ _ hlen, hu, hd]
    rfl
  · simp [insert_heap, Resolver.alloc]
  · rw [insert_heap, hd]
    exact deref_set_self _ _ _ hlen

/-- After the loop of `syncPid` every scanned mount ID is live. -/
theorem syncPidLoop_live :
    ∀ (mnts : List MountInfo) (mr : Resolver), ∀ mnt ∈ mnts,
      (syncPidLoop mnts mr).mounts.Contains (mnt.ID % 2 ^ 32) = true := by
  intro mnts
  induction mnts with
  | nil => intro mr mnt h; cases h
  | cons m rest ih =>
    intro mr mnt hmem
    rw [syncPidLoop]
    rcases List.mem_cons.1 hmem with rfl | hr
    · split
      · rename_i hc
        unfold MountMap.Contains at hc ⊢
        cases hg : mr.mounts.Get (mnt.ID % 2 ^ 32) with
        | none => rw [hg] at hc; cases hc
        | some p => rw [(Grows_syncPidLoop rest mr).bindings _ p hg]; rfl
      · rename_i hc
        have hnone : mr.mounts.Get (newMountFromMountInfo mnt).MountID = none := by
          unfold MountMap.Contains at hc
          cases hg : mr.mounts.Get (mnt.ID % 2 ^ 32) with
          | none => exact hg
          | some p => rw [hg] at hc; exact absurd rfl hc
        have hnew := (alloc_insert_new mr _ hnone).1
        have hg : ((mr.alloc (newMountFromMountInfo mnt)).1.insert
            (mr.alloc (newMountFromMountInfo mnt)).2).mounts.Get (mnt.ID % 2 ^ 32)
            = some mr.heap.length := by
          rw [hnew, Get_Insert]
          exact if_pos rfl
        unfold MountMap.Contains
        rw [(Grows_syncPidLoop rest _).bindings _ _ hg]
        rfl
    · split
      · exact ih mr mnt hr
      · exact ih _ mnt hr

/-- The loop of `syncPid` changes nothing when every scanned mount ID is live. -/
theorem syncPidLoop_skip :
    ∀ (mnts : List MountInfo) (mr : Resolver),
      (∀ mnt ∈ mnts, mr.mounts.Contains (mnt.ID % 2 ^ 32) = true) → syncPidLoop mnts mr = mr := by
  intro mnts
  induction mnts with
  | nil => intro mr _; rfl
  | cons m rest ih =>
    intro mr h
    rw [syncPidLoop, if_pos (h m (List.mem_cons_self _ _))]
    exact ih mr (fun mnt hm => h mnt (List.mem_cons_of_mem _ hm))

/-- The loop of `syncPid` stores, for a scanned mount ID that was not live, the
record made from the first line of the table that bears it. -/
theorem syncPidLoop_first (k : Nat) (mnt : MountInfo) :
    ∀ (mnts : List MountInfo) (mr : Resolver), mr.mounts.Get k = none →
      mnts.find? (fun m => m.ID % 2 ^ 32 == k) = some mnt →
      ∃ p, (syncPidLoop mnts mr).mounts.Get k = some p ∧ mr.heap.length ≤ p ∧
        deref (syncPidLoop mnts mr).heap p = newMountFromMountInfo mnt := by
  intro mnts
  induction mnts with
  | nil => intro mr _ hf; cases hf
  | cons m rest ih =>
    intro mr hnone hf
    rw [syncPidLoop]
    by_cases hk : m.ID % 2 ^ 32 = k
    · have hm : m = mnt := by
        rw [List.find?_cons_of_pos _ (by simpa using hk)] at hf
        exact Option.some.inj hf
      subst hm
      subst hk
      have hc : mr.mounts.Contains (m.ID % 2 ^ 32) = false := by
        unfold MountMap.Contains; rw [hnone]; rfl
      rw [hc]
      simp only [Bool.false_eq_true, if_false]
      have hnew := alloc_insert_new mr (newMountFromMountInfo m) hnone
      have hg : ((mr.alloc (newMountFromMountInfo m)).1.insert
          (mr.alloc (newMountFromMountInfo m)).2).mounts.Get (m.ID % 2 ^ 32)
          = some mr.heap.length := by
        rw [hnew.1, Get_Insert]
        exact if_pos rfl
      have hgr := Grows_syncPidLoop rest ((mr.alloc (newMountFromMountInfo m)).1.insert
          (mr.alloc (newMountFromMountInfo m)).2)
      refine ⟨mr.heap.length, hgr.bindings _ _ hg, Nat.le_refl _, ?_⟩
      rw [hgr.records _ (by rw [hnew.2.1]; exact Nat.lt_succ_self _), hnew.2.2]
      exact normalizeMount_newMount m
    · rw [List.find?_cons_of_neg _ (by simpa using hk)] at hf
      split
      · exact ih mr hnone hf
      · rename_i hc
        have hn2 : mr.mounts.Get (newMountFromMountInfo m).MountID = none := by
          unfold MountMap.Contains at hc
          cases hg : mr.mounts.Get (m.ID % 2 ^ 32) with
          | none => exact hg
          | some p => rw [hg] at hc; exact absurd rfl hc
        have hnew := alloc_insert_new mr (newMountFromMountInfo m) hn2
        have hnone2 : ((mr.alloc (newMountFromMountInfo m)).1.insert
            (mr.alloc (newMountFromMountInfo m)).2).mounts.Get k = none := by
          rw [hnew.1, Get_Insert, if_neg (fun h => hk h.symm)]
          exact hnone
        obtain ⟨p, h1, h2, h3⟩ := ih _ hnone2 hf
        refine ⟨p, h1, ?_, h3⟩
        rw [hnew.2.1] at h2
        omega

/-- What `syncPid` returns when the mount table can be read. -/
theorem syncPid_readable (mr : Resolver) (env : Env) (pid : Nat) (mnts : List MountInfo)
    (hscan : env.ParseMountInfoFile pid = some mnts) :
    mr.syncPid env pid
      = (syncPidLoop mnts { mr with procScans := mr.procScans ++ [pid] }, none) := by
  unfold Resolver.syncPid
  rw [hscan]

/-! ## The redemption cache and the map -/

theorem Keeps_refl (s : Resolver) : Keeps s s := ⟨fun _ _ h => h, fun _ h => h⟩

theorem Keeps_trans (s t u : Resolver) (h1 : Keeps s t) (h2 : Keeps t u) : Keeps s u :=
  ⟨fun k p h => h2.1 k p (h1.1 k p h), fun e h => h1.2 e (h2.2 e h)⟩

theorem Keeps_of_eq (s t : Resolver) (h1 : t.mounts = s.mounts)
    (h2 : t.redemption = s.redemption) : Keeps s t := by
  refine ⟨fun k p h => ?_, fun e h => ?_⟩
  · rw [h1]; exact h
  · rw [h2] at h; exact h

theorem RedemptionLive_of_Keeps (s t : Resolver) (h : RedemptionLive s) (hk : Keeps s t) :
    RedemptionLive t :=
  fun e he => hk.1 _ _ (h e (hk.2 e he))

theorem alloc_insert_redemption (mr : Resolver) (e : Mount)
    (h : mr.mounts.Get e.MountID = none) :
    ((mr.alloc e).1.insert (mr.alloc e).2).redemption = mr.redemption := by
  have hd : deref (mr.alloc e).1.heap (mr.alloc e).2 = e := by simp [Resolver.alloc, deref_alloc]
  have hu : (mr.alloc e).1.insertUmount (mr.alloc e).2 = (mr.alloc e).1 := by
    unfold Resolver.insertUmount
    rw [hd]
    show (match mr.mounts.Get e.MountID with
      | some prev => _
      | none => (mr.alloc e).1) = _
    rw [h]
  rw [insert_redemption, hu]
  rfl

theorem Keeps_alloc_insert (mr : Resolver) (e : Mount) (h : mr.mounts.Get e.MountID = none) :
    Keeps mr ((mr.alloc e).1.insert (mr.alloc e).2) :=
  ⟨(Grows_alloc_insert mr e h).bindings, fun x hx => by
    rw [alloc_insert_redemption mr e h] at hx; exact hx⟩

theorem Keeps_syncPidLoop :
    ∀ (mnts : List MountInfo) (mr : Resolver), Keeps mr (syncPidLoop mnts mr) := by
  intro mnts
  induction mnts with
  | nil => intro mr; exact Keeps_refl mr
  | cons mnt rest ih =>
    intro mr
    rw [syncPidLoop]
    split
    · exact ih mr
    · rename_i hc
      refine Keeps_trans mr _ _ (Keeps_alloc_insert mr (newMountFromMountInfo mnt) ?_) (ih _)
      unfold MountMap.Contains at hc
      cases hg : mr.mounts.Get (mnt.ID % 2 ^ 32) with
      | none => exact hg
      | some p => rw [hg] at hc; simp at hc

theorem Keeps_syncPid (mr : Resolver) (env : Env) (pid : Nat) :
    Keeps mr (mr.syncPid env pid).1 := by
  unfold Resolver.syncPid
  split
  · exact Keeps_of_eq _ _ rfl rfl
  · rename_i mnts _
    exact Keeps_trans mr { mr with procScans := mr.procScans ++ [pid] } _
      (Keeps_of_eq _ _ rfl rfl) (Keeps_syncPidLoop mnts _)

theorem Keeps_syncCacheLoop (env : Env) :
    ∀ (pids : List Nat) (mr : Resolver) (err : Option MountError),
      Keeps mr (syncCacheLoop env pids mr err).1 := by
  intro pids
  induction pids with
  | nil => intro mr err; exact Keeps_refl mr
  | cons pid rest ih =>
    intro mr err
    rw [syncCacheLoop]
    split
    · exact Keeps_syncPid mr env pid
    · exact Keeps_trans mr _ _ (Keeps_syncPid mr env pid) (ih _ _)

theorem Keeps_syncCache (mr : Resolver) (env : Env) (pids : List Nat) :
    Keeps mr (mr.syncCache env pids).1 :=
  Keeps_syncCacheLoop env pids mr none

theorem Keeps_getMountPath (mr : Resolver) (id : Nat) : Keeps mr (mr.getMountPath id).1 := by
  obtain ⟨h1, he, -, -⟩ := getMountPath_eq mr id
  rw [he]
  exact Keeps_of_eq _ _ rfl rfl

theorem Keeps_resolveMountMiss (mr : Resolver) (env : Env) (id : Nat) (pids : List Nat) :
    Keeps mr (mr.resolveMountMiss env id pids).1 := by
  unfold Resolver.resolveMountMiss
  split
  · exact Keeps_of_eq _ _ rfl rfl
  · split
    · exact Keeps_of_eq _ _ rfl rfl
    · have hs := Keeps_trans mr _ _ (Keeps_of_eq mr { mr with
          cacheMissStats := mr.cacheMissStats + 1
          fallbackLimiter := (mr.fallbackLimiter.IsAllowed env id).2 } rfl rfl)
          (Keeps_syncCache { mr with
          cacheMissStats := mr.cacheMissStats + 1
          fallbackLimiter := (mr.fallbackLimiter.IsAllowed env id).2 } env pids)
      split
      · rename_i mr1 err heq
        rw [heq] at hs
        exact Keeps_trans _ _ _ hs (Keeps_of_eq _ _ rfl rfl)
      · rename_i mr1 heq
        rw [heq] at hs
        split <;> exact Keeps_trans _ _ _ hs (Keeps_of_eq _ _ rfl rfl)

theorem Keeps_LRU_Get (mr : Resolver) (id hits : Nat) :
    Keeps mr { mr with cacheHitsStats := hits, redemption := (mr.redemption.Get id).1 } :=
  ⟨fun _ _ h => h, fun e he => LRU_Get_items _ _ e he⟩

theorem Keeps_resolveMount (mr : Resolver) (env : Env) (id : Nat) (containerID : String)
    (pids : List Nat) : Keeps mr (mr.resolveMount env id containerID pids).1 := by
  unfold Resolver.resolveMount
  split
  · exact Keeps_refl mr
  · split
    · exact Keeps_LRU_Get mr id _
    · exact Keeps_resolveMountMiss mr env id _

theorem Keeps_resolveMountPathMiss (mr : Resolver) (env : Env) (id : Nat) (pids : List Nat) :
    Keeps mr (mr.resolveMountPathMiss env id pids).1 := by
  unfold Resolver.resolveMountPathMiss
  split
  · exact Keeps_of_eq _ _ rfl rfl
  · split
    · exact Keeps_of_eq _ _ rfl rfl
    · have hs := Keeps_trans mr _ _ (Keeps_of_eq mr { mr with
          cacheMissStats := mr.cacheMissStats + 1
          fallbackLimiter := (mr.fallbackLimiter.IsAllowed env id).2 } rfl rfl)
          (Keeps_syncCache { mr with
          cacheMissStats := mr.cacheMissStats + 1
          fallbackLimiter := (mr.fallbackLimiter.IsAllowed env id).2 } env pids)
      split
      · rename_i mr1 err heq
        rw [heq] at hs
        exact Keeps_trans _ _ _ hs (Keeps_of_eq _ _ rfl rfl)
      · rename_i mr1 heq
        rw [heq] at hs
        have hg := Keeps_getMountPath mr1 id
        split
        · rename_i mr2 path hp
          rw [hp] at hg
          exact Keeps_trans _ _ _ hs (Keeps_trans _ _ _ hg (Keeps_of_eq _ _ rfl rfl))
        · rename_i mr2 err hp
          rw [hp] at hg
          exact Keeps_trans _ _ _ hs (Keeps_trans _ _ _ hg (Keeps_of_eq _ _ rfl rfl))

theorem Keeps_resolveMountPath (mr : Resolver) (env : Env) (id : Nat) (containerID : String)
    (pid : Nat) : Keeps mr (mr.resolveMountPath env id containerID pid).1 := by
  unfold Resolver.resolveMountPath
  split
  · exact Keeps_refl mr
  · have hg := Keeps_getMountPath mr id
    split
    · rename_i mr1 path hp
      rw [hp] at hg
      exact Keeps_trans _ _ _ hg (Keeps_LRU_Get mr1 id _)
    · rename_i mr1 err hp
      rw [hp] at hg
      exact Keeps_trans _ _ _ hg (Keeps_resolveMountPathMiss mr1 env id _)

/-- The handling of a due request keeps the redemption entries live when the
cache has room. -/
theorem dequeueHandle_live (mr : Resolver) (req : deleteRequest)
    (hcap : mr.redemption.items.length + 1 ≤ mr.redemption.size) (h : RedemptionLive mr) :
    RedemptionLive (dequeueHandle mr req) := by
  have hm := (dequeueHandle_no_evict mr req hcap).1
  intro e he
  rw [hm]
  unfold dequeueHandle at he
  split at he
  · unfold Resolver.delete at he
    split at he
    · rename_i m hget
      rw [(LRU_Add_no_evict mr.redemption (deref mr.heap req.mount).MountID m hcap).1] at he
      rcases LRU_Add_items _ _ _ e he with h1 | h1
      · rw [h1]; exact hget
      · exact h e h1
    · exact h e he
  · exact h e he

theorem foldl_dequeueHandle_live :
    ∀ (q : List deleteRequest) (mr : Resolver),
      mr.redemption.items.length + q.length ≤ mr.redemption.size → RedemptionLive mr →
      RedemptionLive (q.foldl dequeueHandle mr) := by
  intro q
  induction q with
  | nil => intro mr _ h; exact h
  | cons req rest ih =>
    intro mr hcap h
    simp only [List.length_cons] at hcap
    rw [List.foldl_cons]
    obtain ⟨-, -, -, -, d5, d6⟩ := dequeueHandle_no_evict mr req (by omega)
    exact ih _ (by rw [d6]; omega) (dequeueHandle_live mr req (by omega) h)

theorem dequeue_live (mr : Resolver) (now : Nat)
    (hcap : mr.redemption.items.length + mr.deleteQueue.length ≤ mr.redemption.size)
    (h : RedemptionLive mr) : RedemptionLive (mr.dequeue now) := by
  rw [dequeue_eq]
  have hlen := (@List.takeWhile_sublist _ mr.deleteQueue (deleteRequest.due now)).length_le
  exact foldl_dequeueHandle_live _ mr (by omega) h

/-- An operation that runs no finalization keeps the redemption entries live. -/
theorem perform_live (mr : Resolver) (op : Op) (hq : op.quiet mr) (h : RedemptionLive mr) :
    RedemptionLive (mr.perform op) := by
  cases op with
  | Insert e =>
    show RedemptionLive (mr.Insert e).1
    unfold Resolver.Insert
    split
    · exact h
    · exact RedemptionLive_of_Keeps _ _ h (Keeps_alloc_insert mr e hq)
  | Delete now id =>
    show RedemptionLive (mr.Delete now id).1
    unfold Resolver.Delete
    split
    · exact h
    · exact h
  | dequeue now => exact dequeue_live mr now hq h
  | SyncCache env pid =>
    show RedemptionLive (mr.SyncCache env pid).1
    unfold Resolver.SyncCache
    split
    · exact RedemptionLive_of_Keeps _ _ h
        (Keeps_trans _ _ _ (Keeps_syncCache mr env [pid]) (Keeps_of_eq _ _ rfl rfl))
    · exact RedemptionLive_of_Keeps _ _ h (Keeps_syncCache mr env [pid])
  | ResolveMount env id pid containerID =>
    exact RedemptionLive_of_Keeps _ _ h (Keeps_resolveMount mr env id containerID [pid])
  | ResolveMountPath env id pid containerID =>
    exact RedemptionLive_of_Keeps _ _ h (Keeps_resolveMountPath mr env id containerID pid)
  | ResolveMountRoot env id pid containerID =>
    have hk := Keeps_resolveMount mr env id containerID [pid]
    show RedemptionLive (mr.ResolveMountRoot env id pid containerID).1
    unfold Resolver.ResolveMountRoot
    split
    · rename_i mr1 err heq
      rw [heq] at hk; exact RedemptionLive_of_Keeps _ _ h hk
    · rename_i mr1 mount heq
      rw [heq] at hk; exact RedemptionLive_of_Keeps _ _ h hk
  | ResolveFilesystem env id pid containerID =>
    have hk := Keeps_resolveMount mr env id containerID [pid]
    show RedemptionLive (mr.ResolveFilesystem env id pid containerID).1
    unfold Resolver.ResolveFilesystem
    split
    · rename_i mr1 err heq
      rw [heq] at hk; exact RedemptionLive_of_Keeps _ _ h hk
    · rename_i mr1 mount heq
      rw [heq] at hk; exact RedemptionLive_of_Keeps _ _ h hk
  | SendStats fails =>
    show RedemptionLive (mr.SendStats fails).1
    unfold Resolver.SendStats
    split
    · exact h
    · split
      · exact h
      · split <;> exact h

theorem QuietRun_live :
    ∀ (ops : List Op) (s : Resolver), RedemptionLive s → QuietRun s ops →
      RedemptionLive (ops.foldl Resolver.perform s) := by
  intro ops
  induction ops with
  | nil => intro s h _; exact h
  | cons op rest ih =>
    intro s h hq
    rw [List.foldl_cons]
    exact ih _ (perform_live s op hq.1 h) hq.2

/-! ## Requests that are not due -/

/-- A record with a non-zero parent mount ID is a record of the heap. -/
theorem deref_parent_lt (heap : List Mount) (p : Ptr) (h : (deref heap p).ParentMountID ≠ 0) :
    p < heap.length := by
  by_contra hn
  apply h
  have hle : heap.length ≤ p := Nat.le_of_not_lt hn
  unfold deref
  rw [List.getD_eq_default _ _ hle]
  rfl

/-- A proc merge keeps a parent chain that returns to a visited mount. -/
theorem LoopChain_of_Grows (s t : Resolver) (chain : List Nat) (hg : Grows s t)
    (h : LoopChain s chain) : LoopChain t chain := by
  have hrec : ∀ id ∈ chain, ∀ p, s.mounts.Get id = some p →
      t.mounts.Get id = some p ∧ deref t.heap p = deref s.heap p := by
    intro id hid p hp
    exact ⟨hg.bindings id p hp, hg.records p (deref_parent_lt _ _ (h.parents id hid p hp))⟩
  refine ⟨h.distinct, ?_, ?_, ?_, ?_⟩
  · intro id hid
    obtain ⟨hv, p, hp, hpath, hmp⟩ := h.nodes id hid
    obtain ⟨hp2, hd⟩ := hrec id hid p hp
    refine ⟨?_, p, hp2, by rw [hd]; exact hpath, by rw [hd]; exact hmp⟩
    have hfl := hg.floorLe
    unfold Resolver.IsMountIDValid at hv ⊢
    split at hv
    · cases hv
    · rename_i h0
      rw [if_neg h0]
      split at hv
      · cases hv
      · rename_i hlt
        have : ¬ id < t.minMountID := by omega
        rw [if_neg this]
  · intro id hid p hp
    obtain ⟨hv, q, hq, hpath, hmp⟩ := h.nodes id hid
    obtain ⟨hq2, hd⟩ := hrec id hid q hq
    rw [hq2] at hp
    cases hp
    rw [hd]
    exact h.parents id hid _ hq
  · refine List.Chain'.imp ?_ (List.Chain'.iff_mem.1 h.links)
    rintro a b ⟨ha, -, hab⟩ p hp
    obtain ⟨hv, q, hq, hpath, hmp⟩ := h.nodes a ha
    obtain ⟨hq2, hd⟩ := hrec a ha q hq
    rw [hq2] at hp
    cases hp
    rw [hd]
    exact hab _ hq
  · obtain ⟨last, p, hl, hp, hin⟩ := h.back
    have hlast : last ∈ chain := List.mem_of_getLast?_eq_some hl
    obtain ⟨hp2, hd⟩ := hrec last hlast p hp
    exact ⟨last, p, hl, hp2, by rw [hd]; exact hin⟩

/-- Path construction on a parent chain that returns to a visited mount. -/
theorem getMountPath_LoopChain (mr : Resolver) (i : Nat) (chain : List Nat)
    (h : LoopChain mr (i :: chain)) :
    mr._getMountPath (mr.mounts.RealLen + 1) i []
      = some (mr, Except.error MountError.ErrMountLoop) ∧
    mr.getMountPath i = (mr, Except.error MountError.ErrMountLoop) := by
  have hlen := LoopChain_length_le mr (i :: chain) h
  simp only [List.length_cons] at hlen
  have h1 := getMountPath_loop mr chain i [] (mr.mounts.RealLen + 1) h.distinct h.nodes h.parents
    h.links
    (by
      obtain ⟨last, p, hl, hp, hin⟩ := h.back
      exact ⟨last, p, hl, hp, Or.inl hin⟩)
    (by simp) (by simp) (by omega)
  refine ⟨h1, ?_⟩
  unfold Resolver.getMountPath
  rw [h1]

/-- When no candidate has a readable mount table, `syncCache` returns the error
of the last scan. -/
theorem syncCacheLoop_unreadable_mem (env : Env) :
    ∀ (pids : List Nat) (mr : Resolver) (err : Option MountError),
      (∀ pid ∈ pids, env.ParseMountInfoFile pid = none) →
      (syncCacheLoop env pids mr err).2 =
        match pids.getLast? with
        | some pid => some (MountError.ErrProcScan pid)
        | none => err := by
  intro pids
  induction pids with
  | nil => intro mr err _; simp [syncCacheLoop]
  | cons pid rest ih =>
    intro mr err h
    rw [syncCacheLoop, syncPid_unreadable mr env pid (h pid (List.mem_cons_self _ _))]
    simp only []
    rw [ih _ _ (fun p hp => h p (List.mem_cons_of_mem _ hp))]
    cases rest with
    | nil => simp
    | cons b rest2 =>
      simp only [List.getLast?_cons_cons]
      cases hl : (b :: rest2).getLast? with
      | some l => rfl
      | none => simp [List.getLast?_eq_none_iff] at hl

/-- When a candidate has a readable mount table, `syncCache` succeeds. -/
theorem syncCacheLoop_readable (env : Env) :
    ∀ (pids : List Nat) (mr : Resolver) (err : Option MountError),
      (∃ pid ∈ pids, env.ParseMountInfoFile pid ≠ none) →
      (syncCacheLoop env pids mr err).2 = none := by
  intro pids
  induction pids with
  | nil => intro mr err h; obtain ⟨_, hp, _⟩ := h; cases hp
  | cons pid rest ih =>
    intro mr err h
    rw [syncCacheLoop]
    cases hs : env.ParseMountInfoFile pid with
    | some mnts =>
      have : (mr.syncPid env pid).2 = none := by
        unfold Resolver.syncPid; rw [hs]
      rw [this]
    | none =>
      rw [syncPid_unreadable mr env pid hs]
      simp only []
      apply ih
      obtain ⟨p, hp, hr⟩ := h
      rcases List.mem_cons.1 hp with rfl | hp2
      · exact absurd hs hr
      · exact ⟨p, hp2, hr⟩

/-- The public path resolution on a parent chain that returns to a visited
mount. -/
theorem resolveMountPath_LoopChain (mr : Resolver) (i : Nat) (chain : List Nat)
    (h : LoopChain mr (i :: chain)) (env : Env) (pid : Nat) (containerID : String) :
    (mr.opts.UseProcFS = false ∨ (mr.fallbackLimiter.IsAllowed env i).1 = false →
      (mr.ResolveMountPath env i pid containerID).2
        = Except.error (MountError.ErrMountNotFound i)) ∧
    (mr.opts.UseProcFS = true → (mr.fallbackLimiter.IsAllowed env i).1 = true →
      (∃ p ∈ resolveMountPathCandidates env containerID pid, env.ParseMountInfoFile p ≠ none) →
      (mr.ResolveMountPath env i pid containerID).2 = Except.error MountError.ErrMountLoop) ∧
    (mr.opts.UseProcFS = true → (mr.fallbackLimiter.IsAllowed env i).1 = true →
      (∀ p ∈ resolveMountPathCandidates env containerID pid, env.ParseMountInfoFile p = none) →
      ∃ last, (resolveMountPathCandidates env containerID pid).getLast? = some last ∧
        (mr.ResolveMountPath env i pid containerID).2
          = Except.error (MountError.ErrProcScan last)) := by
  obtain ⟨_, hg⟩ := getMountPath_LoopChain mr i chain h
  have hv : (mr.IsMountIDValid i).2 = none := (h.nodes i (List.mem_cons_self _ _)).1
  have hm := resolveMountPath_miss mr env i pid containerID hv MountError.ErrMountLoop
    (by rw [hg])
  rw [hg] at hm
  simp only [] at hm
  unfold Resolver.ResolveMountPath
  rw [hm]
  unfold Resolver.resolveMountPathMiss
  refine ⟨?_, ?_, ?_⟩
  · rintro (h1 | h1)
    · simp [h1]
    · by_cases h2 : mr.opts.UseProcFS = true <;> simp [h1, h2]
  · intro h1 h2 hread
    simp only [h1, h2, Bool.not_true, Bool.false_eq_true, if_false]
    have hs := syncCacheLoop_readable env _ { mr with
        cacheMissStats := mr.cacheMissStats + 1
        fallbackLimiter := (mr.fallbackLimiter.IsAllowed env i).2 } none hread
    have hgr := Grows_syncCache { mr with
        cacheMissStats := mr.cacheMissStats + 1
        fallbackLimiter := (mr.fallbackLimiter.IsAllowed env i).2 } env
        (resolveMountPathCandidates env containerID pid)
    unfold Resolver.syncCache at hgr ⊢
    cases hsc : syncCacheLoop env (resolveMountPathCandidates env containerID pid) { mr with
        cacheMissStats := mr.cacheMissStats + 1
        fallbackLimiter := (mr.fallbackLimiter.IsAllowed env i).2 } none with
    | mk mr1 e =>
      rw [hsc] at hs hgr
      simp only [] at hs hgr
      subst hs
      simp only []
      have hl0 : LoopChain { mr with
          cacheMissStats := mr.cacheMissStats + 1
          fallbackLimiter := (mr.fallbackLimiter.IsAllowed env i).2 } (i :: chain) :=
        ⟨h.distinct, h.nodes, h.parents, h.links, h.back⟩
      have hl1 := LoopChain_of_Grows _ mr1 (i :: chain) hgr hl0
      rw [(getMountPath_LoopChain mr1 i chain hl1).2]
  · intro h1 h2 hunread
    simp only [h1, h2, Bool.not_true, Bool.false_eq_true, if_false]
    have hne : ∃ last, (resolveMountPathCandidates env containerID pid).getLast? = some last := by
      cases hc : (resolveMountPathCandidates env containerID pid).getLast? with
      | some last => exact ⟨last, rfl⟩
      | none =>
        exfalso
        rw [List.getLast?_eq_none_iff] at hc
        unfold resolveMountPathCandidates at hc
        split at hc
        · simp at hc
        · split at hc <;> simp at hc
    obtain ⟨last, hlast⟩ := hne
    refine ⟨last, hlast, ?_⟩
    have hs := syncCacheLoop_unreadable_mem env _ { mr with
        cacheMissStats := mr.cacheMissStats + 1
        fallbackLimiter := (mr.fallbackLimiter.IsAllowed env i).2 } none hunread
    rw [hlast] at hs
    unfold Resolver.syncCache
    cases hsc : syncCacheLoop env (resolveMountPathCandidates env containerID pid) { mr with
        cacheMissStats := mr.cacheMissStats + 1
        fallbackLimiter := (mr.fallbackLimiter.IsAllowed env i).2 } none with
    | mk mr1 e =>
      rw [hsc] at hs
      simp only [] at hs
      subst hs
      rfl

/-- The mounts 4 and 6 of `loopedMounts` form a parent chain that returns to a
visited mount. -/
theorem loopedMounts_chain : LoopChain loopedMounts [4, 6] :=
  { distinct := by decide
    nodes := by
      intro id hid
      simp only [List.mem_cons, List.mem_singleton, List.not_mem_nil, or_false] at hid
      rcases hid with rfl | rfl
      · exact ⟨by decide, 1, by decide, by decide, by decide⟩
      · exact ⟨by decide, 2, by decide, by decide, by decide⟩
    parents := by
      intro id hid p hp
      simp only [List.mem_cons, List.mem_singleton, List.not_mem_nil, or_false] at hid
      rcases hid with rfl | rfl
      · have h1 : loopedMounts.mounts.Get 4 = some 1 := by decide
        rw [h1] at hp; cases hp; decide
      · have h1 : loopedMounts.mounts.Get 6 = some 2 := by decide
        rw [h1] at hp; cases hp; decide
    links := by
      refine List.chain'_pair.2 ?_
      intro p hp
      have h1 : loopedMounts.mounts.Get 4 = some 1 := by decide
      rw [h1] at hp; cases hp; decide
    back := ⟨6, 2, by decide, by decide, by decide⟩ }

/-- The same chain in `loopedMountsProc`. -/
theorem loopedMountsProc_chain : LoopChain loopedMountsProc [4, 6] :=
  { distinct := by decide
    nodes := by
      intro id hid
      simp only [List.mem_cons, List.mem_singleton, List.not_mem_nil, or_false] at hid
      rcases hid with rfl | rfl
      · exact ⟨by decide, 1, by decide, by decide, by decide⟩
      · exact ⟨by decide, 2, by decide, by decide, by decide⟩
    parents := by
      intro id hid p hp
      simp only [List.mem_cons, List.mem_singleton, List.not_mem_nil, or_false] at hid
      rcases hid with rfl | rfl
      · have h1 : loopedMountsProc.mounts.Get 4 = some 1 := by decide
        rw [h1] at hp; cases hp; decide
      · have h1 : loopedMountsProc.mounts.Get 6 = some 2 := by decide
        rw [h1] at hp; cases hp; decide
    links := by
      refine List.chain'_pair.2 ?_
      intro p hp
      have h1 : loopedMountsProc.mounts.Get 4 = some 1 := by decide
      rw [h1] at hp; cases hp; decide
    back := ⟨6, 2, by decide, by decide, by decide⟩ }

/-! ## The claims -/

/-- C1: cache-hit correctness.  For every resolver state and every record `e`
with a non-zero mount ID, `Insert e` returns no error, and `ResolveMount` of the
mount ID of `e`, for any process and container, then returns without error the
record that the insertion stored, whose fields are those of `e` with the mount
point normalised; the call reads no mount table and leaves the mount map and the
records unchanged. -/
theorem Insert_then_ResolveMount (mr : Resolver) (env : Env) (e : Mount) (pid : Nat)
    (containerID : String) (h : e.MountID ≠ 0) :
    (mr.Insert e).2 = none ∧
    ∃ p : Ptr,
      (mr.Insert e).1.mounts.Get e.MountID = some p ∧
      deref (mr.Insert e).1.heap p = { e with MountPointStr := (normalizeMount e).MountPointStr } ∧
      ((mr.Insert e).1.ResolveMount env e.MountID pid containerID).2 = Except.ok p ∧
      ((mr.Insert e).1.ResolveMount env e.MountID pid containerID).1.mounts
        = (mr.Insert e).1.mounts ∧
      ((mr.Insert e).1.ResolveMount env e.MountID pid containerID).1.heap
        = (mr.Insert e).1.heap ∧
      ((mr.Insert e).1.ResolveMount env e.MountID pid containerID).1.procScans
        = (mr.Insert e).1.procScans := by
  obtain ⟨hI, hG, hD, hM⟩ := Insert_stores mr e h
  refine ⟨by rw [hI], mr.heap.length, hG, ?_, ?_⟩
  · rw [hD]; unfold normalizeMount; split <;> rfl
  · exact resolveMount_hit _ env _ containerID [pid] _ h hM hG

/-- Witness of C1: mount 5 inserted in a fresh resolver, then resolved. -/
theorem Insert_then_ResolveMount_witness :
    (mountOf 5 0 0 "ext4" "/mnt").MountID ≠ 0 ∧
    ((NewResolver ⟨false⟩).Insert (mountOf 5 0 0 "ext4" "/mnt")).2 = none ∧
    (((NewResolver ⟨false⟩).Insert (mountOf 5 0 0 "ext4" "/mnt")).1.ResolveMount
      quietEnv 5 7 "").2 = Except.ok 0 ∧
    deref ((NewResolver ⟨false⟩).Insert (mountOf 5 0 0 "ext4" "/mnt")).1.heap 0
      = mountOf 5 0 0 "ext4" "mnt" :=
  ⟨by decide,
    (Insert_then_ResolveMount (NewResolver ⟨false⟩) quietEnv (mountOf 5 0 0 "ext4" "/mnt") 7 ""
      (by decide)).1,
    by decide, by decide⟩

/-- C2: `IsMountIDValid id` returns `(false, ErrMountUndefined)` exactly when
`id = 0`, whatever the state and `minMountID`; it returns
`(false, ErrMountKernelID)` exactly when `id ≠ 0` and `id < minMountID`; it
returns `(true, nil)` in every other case; and it reads nothing of the state
but `minMountID` (it returns no new state). -/
theorem IsMountIDValid_spec (mr : Resolver) (id : Nat) :
    (mr.IsMountIDValid id = (false, some MountError.ErrMountUndefined) ↔ id = 0) ∧
    (mr.IsMountIDValid id = (false, some MountError.ErrMountKernelID) ↔
      (id ≠ 0 ∧ id < mr.minMountID)) ∧
    (mr.IsMountIDValid id = (true, none) ↔ ¬ (id = 0) ∧ ¬ (id ≠ 0 ∧ id < mr.minMountID)) ∧
    (∀ mr2 : Resolver, mr2.minMountID = mr.minMountID →
      mr2.IsMountIDValid id = mr.IsMountIDValid id) := by
  unfold Resolver.IsMountIDValid
  refine ⟨?_, ?_, ?_, ?_⟩
  · by_cases h0 : id = 0
    · simp [h0]
    · by_cases h1 : id < mr.minMountID <;> simp [h0, h1]
  · by_cases h0 : id = 0
    · simp [h0]
    · by_cases h1 : id < mr.minMountID <;> simp [h0, h1]
  · by_cases h0 : id = 0
    · simp [h0]
    · by_cases h1 : id < mr.minMountID <;> simp [h0, h1]
  · intro mr2 h
    simp [h]

/-- C3: `Delete id` returns `ErrMountNotFound` carrying `id` if and only if the
mount map has no live record for `id`, and then the state is unchanged;
otherwise it returns no error, appends exactly one request (the live record,
deadline the current time plus 5 seconds) at the tail of the delete queue, and
changes neither the mount map nor the redemption cache nor the records. -/
theorem Delete_spec (mr : Resolver) (now id : Nat) :
    ((mr.Delete now id).2 = some (MountError.ErrMountNotFound id) ↔ mr.mounts.Get id = none) ∧
    (mr.mounts.Get id = none → (mr.Delete now id).1 = mr) ∧
    (∀ r, mr.mounts.Get id = some r →
      (mr.Delete now id).2 = none ∧
      (mr.Delete now id).1.deleteQueue = mr.deleteQueue ++ [⟨r, now + 5000000000⟩] ∧
      (mr.Delete now id).1.mounts = mr.mounts ∧
      (mr.Delete now id).1.redemption = mr.redemption ∧
      (mr.Delete now id).1.heap = mr.heap) := by
  unfold Resolver.Delete
  cases h : mr.mounts.Get id with
  | none => simp
  | some r => simp [deleteDelayTime]

/-- C6: supersession after the sweep.  In a well-formed state with a record
`pA` live under the mount ID of `B`, after `Delete` of that mount ID at time
`t`, a sweep at a time `now` past the deadline and `Insert B`, no other mount
ID whose parent chain reached that mount ID in the first map is bound any more,
the mount ID is bound to the fresh record, which is not `pA`, and
`ResolveMount` returns that record. -/
theorem supersession_after_sweep (mr : Resolver) (env : Env) (B : Mount) (pA : Ptr)
    (t now pid : Nat) (containerID : String) (hwf : mr.WF) (hid : B.MountID ≠ 0)
    (hA : mr.mounts.Get B.MountID = some pA) (_hnow : t + deleteDelayTime ≤ now) :
    (mr.Delete t B.MountID).2 = none ∧
    ((((mr.Delete t B.MountID).1.dequeue now).Insert B).2 = none) ∧
    (∀ k, k ≠ B.MountID → ChainTo mr.heap mr.mounts B.MountID k →
      (((mr.Delete t B.MountID).1.dequeue now).Insert B).1.mounts.Get k = none) ∧
    ∃ pB : Ptr, pB ≠ pA ∧
      (((mr.Delete t B.MountID).1.dequeue now).Insert B).1.mounts.Get B.MountID = some pB ∧
      deref (((mr.Delete t B.MountID).1.dequeue now).Insert B).1.heap pB = normalizeMount B ∧
      ((((mr.Delete t B.MountID).1.dequeue now).Insert B).1.ResolveMount env B.MountID pid
        containerID).2 = Except.ok pB := by
  have hmemA := mem_of_Get mr.mounts _ pA hA
  have hD : mr.Delete t B.MountID =
      ({ mr with deleteQueue := mr.deleteQueue ++ [⟨pA, t + deleteDelayTime⟩] }, none) := by
    unfold Resolver.Delete; rw [hA]
  rw [hD]
  simp only []
  have hwf1 : Resolver.WF { mr with deleteQueue := mr.deleteQueue ++ [⟨pA, t + deleteDelayTime⟩] } :=
    hwf
  obtain ⟨hwf2, hheap, _, hcl⟩ := dequeue_spec _ now mr.mounts hwf1 (ClosedIn_refl _ _)
  have hheap2 : (Resolver.dequeue { mr with deleteQueue :=
      mr.deleteQueue ++ [⟨pA, t + deleteDelayTime⟩] } now).heap = mr.heap := hheap
  obtain ⟨hI, _⟩ := Insert_stores (Resolver.dequeue { mr with deleteQueue :=
      mr.deleteQueue ++ [⟨pA, t + deleteDelayTime⟩] } now) B hid
  obtain ⟨hG, hDr, hM, hgone⟩ := Insert_supersedes _ mr.mounts B hwf2
    (by rw [hheap2]; exact hwf.1) (by rw [hheap2]; exact hwf.2.1)
    (by rw [hheap2]; exact hcl) hid ((mem_keys _ _).2 ⟨pA, hmemA⟩)
  rw [hheap2] at hG hDr hgone
  refine ⟨trivial, by rw [hI], hgone, mr.heap.length, ?_, hG, hDr, ?_⟩
  · exact Nat.ne_of_gt (hwf.2.1 _ hmemA)
  · exact (resolveMount_hit _ env _ containerID [pid] _ hid hM hG).1

/-- Witness of C6: in `rootAndData`, mount 1 (parent of mount 2) is deleted at
time 0, swept at 5 s and inserted again: mount 2 is gone and mount 1 resolves to
the new record. -/
theorem supersession_after_sweep_witness :
    rootAndData.WF ∧ (mountOf 1 0 0 "ext4" "/").MountID ≠ 0 ∧
    rootAndData.mounts.Get (mountOf 1 0 0 "ext4" "/").MountID = some 0 ∧
    0 + deleteDelayTime ≤ 5000000000 ∧
    (((rootAndData.Delete 0 1).1.dequeue 5000000000).Insert
      (mountOf 1 0 0 "ext4" "/")).1.mounts.Get 2 = none ∧
    (((rootAndData.Delete 0 1).1.dequeue 5000000000).Insert
      (mountOf 1 0 0 "ext4" "/")).1.mounts.entries = [(1, 2)] :=
  ⟨by decide, by decide, by decide, by decide,
    (supersession_after_sweep rootAndData quietEnv (mountOf 1 0 0 "ext4" "/") 0 0 5000000000 7 ""
      (by decide) (by decide) (by decide) (by decide)).2.2.1 2 (by decide)
      (ChainTo.child 2 1 (by decide) (by decide)),
    by decide⟩

/-- C7, the code at the failing input: in the state reached by the operations of
`staleRedemption` and a second `Insert` of mount 2, the map binds mount 2 to the
record 3, no entry of the redemption cache holds that record, and the cache
holds an older record of mount 2 under the key 2.  A further `Insert` of
mount 2 binds it to the new record 4, and the redemption cache has changed: the
entry of the older record is gone. -/
theorem Insert_over_live_record_stale :
    (staleRedemption.Insert (mountOf 2 1 8 "ext4" "data")).1.WF ∧
    (staleRedemption.Insert (mountOf 2 1 8 "ext4" "data")).1.mounts.Get 2 = some 3 ∧
    (∀ e ∈ (staleRedemption.Insert (mountOf 2 1 8 "ext4" "data")).1.redemption.items,
      e.2 ≠ 3) ∧
    (staleRedemption.Insert (mountOf 2 1 8 "ext4" "data")).1.redemption.items = [(2, 1)] ∧
    ((staleRedemption.Insert (mountOf 2 1 8 "ext4" "data")).1.Insert
      (mountOf 2 1 8 "ext4" "data")).1.mounts.Get 2 = some 4 ∧
    ((staleRedemption.Insert (mountOf 2 1 8 "ext4" "data")).1.Insert
      (mountOf 2 1 8 "ext4" "data")).1.redemption.items = [] ∧
    ((staleRedemption.Insert (mountOf 2 1 8 "ext4" "data")).1.Insert
      (mountOf 2 1 8 "ext4" "data")).1.redemption
      ≠ (staleRedemption.Insert (mountOf 2 1 8 "ext4" "data")).1.redemption := by
  decide

/-- C7, what the code does: insert over a live record.  In a well-formed state
whose map binds the mount ID of `e` to a record `pA` and whose redemption cache
has no entry under that mount ID, `Insert e` finalizes `pA` at once: the new map is the map finalized from `pA`
with the fresh record bound to the mount ID, no mount ID whose parent chain
reached that mount ID before the call is bound any more, and the redemption
cache is unchanged. -/
theorem Insert_over_live_record (mr : Resolver) (e : Mount) (pA : Ptr) (hwf : mr.WF)
    (hid : e.MountID ≠ 0) (hA : mr.mounts.Get e.MountID = some pA)
    (hred : mr.redemption.Contains e.MountID = false) :
    (mr.Insert e).2 = none ∧
    (mr.Insert e).1.mounts =
      ((mr.alloc e).1.finalize pA).mounts.Insert e.MountID mr.heap.length ∧
    (mr.Insert e).1.mounts.Get e.MountID = some mr.heap.length ∧
    mr.heap.length ≠ pA ∧
    deref (mr.Insert e).1.heap mr.heap.length = normalizeMount e ∧
    (∀ k, k ≠ e.MountID → ChainTo mr.heap mr.mounts e.MountID k →
      (mr.Insert e).1.mounts.Get k = none) ∧
    (mr.Insert e).1.redemption = mr.redemption := by
  have hmemA := mem_of_Get mr.mounts _ pA hA
  obtain ⟨hI, _⟩ := Insert_stores mr e hid
  obtain ⟨hG, hD, _, hgone⟩ := Insert_supersedes mr mr.mounts e hwf hwf.1 hwf.2.1
    (ClosedIn_refl _ _) hid ((mem_keys _ _).2 ⟨pA, hmemA⟩)
  have hlen : mr.heap.length < (mr.alloc e).1.heap.length := by simp [Resolver.alloc]
  have hd : deref (mr.alloc e).1.heap mr.heap.length = e := by simp [Resolver.alloc, deref_alloc]
  have hpA : pA < mr.heap.length := hwf.2.1 _ hmemA
  have hidA : (deref (mr.alloc e).1.heap pA).MountID = e.MountID := by
    show (deref (mr.heap ++ [e]) pA).MountID = e.MountID
    rw [deref_append_old _ _ _ hpA]
    exact hwf.1.2 _ hmemA
  have hlook : mr.redemption.items.lookup e.MountID = none := by
    unfold LRU.Contains at hred
    cases hl : mr.redemption.items.lookup e.MountID with
    | none => rfl
    | some v => rw [hl] at hred; simp at hred
  have hum : (mr.alloc e).1.insertUmount mr.heap.length = (mr.alloc e).1.finalize pA := by
    unfold Resolver.insertUmount
    rw [hd]
    have : (mr.alloc e).1.mounts.Get e.MountID = some pA := hA
    rw [this]
    simp only [hidA]
    have hr : (mr.alloc e).1.redemption.Remove e.MountID = ((mr.alloc e).1.redemption, none) := by
      unfold LRU.Remove
      have : (mr.alloc e).1.redemption.items.lookup e.MountID = none := hlook
      rw [this]
    rw [hr]
    simp
  refine ⟨by rw [hI], ?_, hG, Nat.ne_of_gt hpA, hD, hgone, ?_⟩
  · rw [hI]
    simp only []
    rw [insert_mounts _ _ hlen, hd, hum]
  · rw [hI]
    simp only []
    rw [insert_redemption, hum]
    rfl

/-- Witness of C7: in `rootAndData`, mount 1 (parent of mount 2, not in the
redemption cache) is inserted again: mount 2 is gone and the map binds mount 1
to the new record. -/
theorem Insert_over_live_record_witness :
    rootAndData.WF ∧ (mountOf 1 0 0 "ext4" "/").MountID ≠ 0 ∧
    rootAndData.mounts.Get (mountOf 1 0 0 "ext4" "/").MountID = some 0 ∧
    rootAndData.redemption.Contains (mountOf 1 0 0 "ext4" "/").MountID = false ∧
    (rootAndData.Insert (mountOf 1 0 0 "ext4" "/")).1.mounts.Get 2 = none ∧
    (rootAndData.Insert (mountOf 1 0 0 "ext4" "/")).1.redemption = rootAndData.redemption ∧
    (rootAndData.Insert (mountOf 1 0 0 "ext4" "/")).1.mounts.entries = [(1, 2)] :=
  ⟨by decide, by decide, by decide, by decide,
    (Insert_over_live_record rootAndData (mountOf 1 0 0 "ext4" "/") 0 (by decide) (by decide)
      (by decide) (by decide)).2.2.2.2.2.1 2 (by decide)
      (ChainTo.child 2 1 (by decide) (by decide)),
    (Insert_over_live_record rootAndData (mountOf 1 0 0 "ext4" "/") 0 (by decide) (by decide)
      (by decide) (by decide)).2.2.2.2.2.2,
    by decide⟩

/-- C8: finalization removes the whole subtree.  For every resolver state whose
mount map is well formed and every record `m`, the loop of `finalize` empties
its work stack, and afterwards the map has no binding for the mount ID of `m`
nor for any mount ID whose chain of parent mount IDs, followed in the map as it
was before the call, reaches the mount ID of `m`. -/
theorem finalize_removes_subtree (mr : Resolver) (m : Ptr) (hwf : MapWF mr.heap mr.mounts) :
    (finalizeLoop mr.heap (finalizeFuel mr.mounts.RealLen) [m] mr.mounts).1 = [] ∧
    (mr.finalize m).mounts.Get (deref mr.heap m).MountID = none ∧
    ∀ k, ChainTo mr.heap mr.mounts (deref mr.heap m).MountID k →
      (mr.finalize m).mounts.Get k = none := by
  obtain ⟨_, hc, hk, hpar⟩ := finalizeMap_spec mr.heap mr.mounts m hwf
  refine ⟨finalizeLoop_complete mr.heap mr.mounts m hwf, ?_, ?_⟩
  · exact (Get_eq_none_iff _ _).2 hk
  · intro k hch
    exact (Get_eq_none_iff _ _).2 (ChainTo_removed mr.heap mr.mounts _ _ hwf hc hpar k hch)

/-- Witness of C8: finalizing the grandparent of `threeLevels` removes the
grandparent, the parent and the child, and leaves the unrelated mount. -/
theorem finalize_removes_subtree_witness :
    MapWF threeLevels.heap threeLevels.mounts ∧
    (threeLevels.finalize 0).mounts.Get 1 = none ∧
    (threeLevels.finalize 0).mounts.Get 2 = none ∧
    (threeLevels.finalize 0).mounts.Get 3 = none ∧
    (threeLevels.finalize 0).mounts.entries = [(4, 3)] :=
  ⟨by decide,
    (finalize_removes_subtree threeLevels 0 (by decide)).2.1,
    (finalize_removes_subtree threeLevels 0 (by decide)).2.2 2
      (ChainTo.child 2 1 (by decide) (by decide)),
    (finalize_removes_subtree threeLevels 0 (by decide)).2.2 3
      (ChainTo.step 3 2 (by decide) (ChainTo.child 2 1 (by decide) (by decide))),
    by decide⟩

/-- C9: overlay teardown.  For every resolver state whose mount map is well
formed and every record `m` of an overlay filesystem, after `finalize m` no
record left in the map has the device number of `m`, whatever its parent. -/
theorem finalize_overlay_teardown (mr : Resolver) (m : Ptr) (hwf : MapWF mr.heap mr.mounts)
    (hov : (deref mr.heap m).IsOverlayFS = true) :
    ∀ e ∈ (mr.finalize m).mounts.entries,
      (deref mr.heap e.2).Device ≠ (deref mr.heap m).Device := by
  have hdone := finalizeLoop_complete mr.heap mr.mounts m hwf
  have hwf2 := MapWF_Delete mr.heap mr.mounts (deref mr.heap m).MountID hwf
  unfold Resolver.finalize finalizeMap
  unfold finalizeFuel at hdone ⊢
  rw [finalizeLoop_cons] at hdone ⊢
  apply finalizeLoop_device mr.heap _ _ _ _ hwf2 _ hdone
  intro e he hd
  apply List.mem_append_left
  rw [mem_pushList]
  refine ⟨e, he, rfl, Or.inr ⟨hov, ?_⟩⟩
  unfold isDeviceSibling
  have hne := ((mem_Delete _ _ e).1 he).2
  rw [hwf2.2 e he, hd]
  simp
  exact fun h => hne h.symm

/-- Witness of C9: finalizing overlay mount 1 of `overlayPair` removes mount 2,
which shares its device and is not its child, and leaves mount 3. -/
theorem finalize_overlay_teardown_witness :
    MapWF overlayPair.heap overlayPair.mounts ∧
    (deref overlayPair.heap 0).IsOverlayFS = true ∧
    (deref overlayPair.heap 1).ParentMountID ≠ (deref overlayPair.heap 0).MountID ∧
    (∀ e ∈ (overlayPair.finalize 0).mounts.entries,
      (deref overlayPair.heap e.2).Device ≠ (deref overlayPair.heap 0).Device) ∧
    (overlayPair.finalize 0).mounts.entries = [(3, 2)] :=
  ⟨by decide, by decide, by decide,
    finalize_overlay_teardown overlayPair 0 (by decide) (by decide),
    by decide⟩

/-- Counterexample to C10 as stated: the chain of mounts 1 and 2 of `cachedRoot`
has distinct valid live mount IDs, mount 1 has mount point "/", mount 2 has
parent 1, a mount point other than "/" and no cached path, and the path of
mount 2 resolves to "/foo/data", which is not the cleaned join "/data" of "/"
with "data". -/
theorem path_of_chain_counterexample :
    cachedRoot.mounts.Get 1 = some 0 ∧ cachedRoot.mounts.Get 2 = some 1 ∧
    (cachedRoot.IsMountIDValid 1).2 = none ∧ (cachedRoot.IsMountIDValid 2).2 = none ∧
    (deref cachedRoot.heap 0).MountPointStr = "/" ∧
    (deref cachedRoot.heap 1).ParentMountID = 1 ∧
    (deref cachedRoot.heap 1).MountPointStr ≠ "/" ∧
    (deref cachedRoot.heap 1).Path = "" ∧
    (cachedRoot.ResolveMountPath quietEnv 2 7 "").2 = Except.ok "/foo/data" ∧
    Join ["/", (deref cachedRoot.heap 1).MountPointStr] = "/data" := by
  decide

/-- C10 (amended): path construction.  For every chain of live mounts
`m_0, ..., m_k` with distinct valid mount IDs, where `m_0` has mount point "/"
and no cached path other than "/", and every `m_j` with `j ≥ 1` has parent mount
ID that of `m_(j-1)`, a mount point other than "/" and no cached path, the path
resolution of `m_k` succeeds and returns the cleaned join (`path.Join`) of "/"
with the mount points of `m_1, ..., m_k` in that order, which is also the path
obtained by joining and cleaning one mount point after the other. -/
theorem path_of_chain (mr : Resolver) (env : Env) (chain : List (Nat × Ptr)) (mk : Nat × Ptr)
    (pid : Nat) (containerID : String) (hc : PathChain mr chain)
    (hlast : chain.getLast? = some mk) :
    (mr.getMountPath mk.1).2 =
      Except.ok (Join ("/" :: chain.tail.map (fun m => (deref mr.heap m.2).MountPointStr))) ∧
    (mr.ResolveMountPath env mk.1 pid containerID).2 =
      Except.ok (Join ("/" :: chain.tail.map (fun m => (deref mr.heap m.2).MountPointStr))) ∧
    Join ("/" :: chain.tail.map (fun m => (deref mr.heap m.2).MountPointStr))
      = chainPath mr chain := by
  have hj : Join ("/" :: chain.tail.map (fun m => (deref mr.heap m.2).MountPointStr))
      = chainPath mr chain := (foldJoin_eq_Join _).symm
  rw [hj]
  obtain ⟨mr1, h1⟩ := getMountPath_chain mr chain hc mk [] (mr.mounts.RealLen + 1) hlast
    (fun _ _ => by simp) (by have := PathChain_length_le mr chain hc; omega)
  have hg : mr.getMountPath mk.1 = (mr1, Except.ok (chainPath mr chain)) := by
    unfold Resolver.getMountPath
    rw [h1]
  refine ⟨by rw [hg], ?_, rfl⟩
  unfold Resolver.ResolveMountPath Resolver.resolveMountPath
  rw [(hc.live mk (List.mem_of_mem_getLast? hlast)).1, hg]

/-- Witness of C10: in the scenario of the spec, mounts 1 and 2 form a chain and
`ResolveMountPath` of mount 2 returns "/data". -/
theorem path_of_chain_witness :
    PathChain rootAndData [(1, 0), (2, 1)] ∧
    (rootAndData.ResolveMountPath quietEnv 2 7 "").2
      = Except.ok (Join ("/" :: [(1, 0), (2, 1)].tail.map
          (fun m => (deref rootAndData.heap m.2).MountPointStr))) ∧
    Join ("/" :: [(1, 0), (2, 1)].tail.map
      (fun m => (deref rootAndData.heap m.2).MountPointStr)) = "/data" :=
  ⟨⟨by decide, by decide, ⟨(1, 0), rfl, by decide, Or.inl (by decide)⟩,
      List.chain'_pair.2 (by decide)⟩,
    (path_of_chain rootAndData quietEnv [(1, 0), (2, 1)] (2, 1) 7 ""
      ⟨by decide, by decide, ⟨(1, 0), rfl, by decide, Or.inl (by decide)⟩,
        List.chain'_pair.2 (by decide)⟩ rfl).2.1,
    by decide⟩

/-- C11, the code at the failing input: `ResolveMountPath` of mount 2 of
`rootAndData` returns "/data" and caches it on the record; after `SyncCache(1)`
with a mount table of process 1 that lists a mount of ID 0, the map still binds
mount 2 to that record, whose cached path is still "/data", and path resolution
of mount 2 fails with `ErrMountKernelID`. -/
theorem path_memoized_floor :
    (rootAndData.ResolveMountPath quietEnv 2 7 "").2 = Except.ok "/data" ∧
    (rootAndData.ResolveMountPath quietEnv 2 7 "").1.mounts.Get 2 = some 1 ∧
    (deref (rootAndData.ResolveMountPath quietEnv 2 7 "").1.heap 1).MountPointStr ≠ "/" ∧
    (deref (rootAndData.ResolveMountPath quietEnv 2 7 "").1.heap 1).Path = "/data" ∧
    ((rootAndData.ResolveMountPath quietEnv 2 7 "").1.SyncCache zeroMountEnv 1).1.mounts.Get 2
      = some 1 ∧
    (deref ((rootAndData.ResolveMountPath quietEnv 2 7 "").1.SyncCache zeroMountEnv 1).1.heap
      1).Path = "/data" ∧
    ((rootAndData.ResolveMountPath quietEnv 2 7 "").1.SyncCache zeroMountEnv 1).1.minMountID
      = 7 ∧
    (((rootAndData.ResolveMountPath quietEnv 2 7 "").1.SyncCache zeroMountEnv 1).1.getMountPath
      2).2 = Except.error MountError.ErrMountKernelID ∧
    (((rootAndData.ResolveMountPath quietEnv 2 7 "").1.SyncCache zeroMountEnv
      1).1.ResolveMountPath quietEnv 2 7 "").2 = Except.error MountError.ErrMountKernelID := by
  decide

/-- C11, what the code does: path memoization.  In every reachable state, when `ResolveMountPath`
of a mount whose mount point is not "/" succeeds with result `p`, the cached
path of the record is `p`, which is not empty.  After every sequence of
operations that follows, the record is unchanged, and for as long as the map
binds the mount ID to that record, every path resolution of the valid mount ID
returns exactly `p` from the record, in the first call of the path construction
and without a write, whatever became of its ancestors; the mount ID is valid
there whenever the floor of the mount IDs was below the live mount IDs and no
mount ID 0, which the resolver takes for undefined, is listed by a scanned
mount table. -/
theorem path_memoized (s : Resolver) (env : Env) (id pid : Nat) (containerID : String)
    (p : String) (ptr : Ptr) (hr : Reachable s)
    (hres : (s.ResolveMountPath env id pid containerID).2 = Except.ok p)
    (hlive : (s.ResolveMountPath env id pid containerID).1.mounts.Get id = some ptr)
    (hmp : (deref (s.ResolveMountPath env id pid containerID).1.heap ptr).MountPointStr ≠ "/") :
    (deref (s.ResolveMountPath env id pid containerID).1.heap ptr).Path = p ∧ p ≠ "" ∧
    ∀ ops : List Op,
      deref (ops.foldl Resolver.perform (s.ResolveMountPath env id pid containerID).1).heap ptr
        = deref (s.ResolveMountPath env id pid containerID).1.heap ptr ∧
      ((ops.foldl Resolver.perform (s.ResolveMountPath env id pid containerID).1).mounts.Get id
          = some ptr →
        (((ops.foldl Resolver.perform
            (s.ResolveMountPath env id pid containerID).1).IsMountIDValid id).2 = none →
          ReturnsCached
            (ops.foldl Resolver.perform (s.ResolveMountPath env id pid containerID).1) id p) ∧
        (FloorInv s → ¬ env.lists 0 → (∀ op ∈ ops, ¬ op.inserts 0) →
          ReturnsCached
            (ops.foldl Resolver.perform (s.ResolveMountPath env id pid containerID).1) id p)) := by
  have hwf := Reachable_WF s hr
  cases hs1 : s.ResolveMountPath env id pid containerID with
  | mk s1 r =>
    rw [hs1] at hres hlive hmp
    simp only [] at hres hlive hmp ⊢
    subst hres
    obtain ⟨hpath, hne, hptr⟩ := resolveMountPath_sets s hwf env id pid containerID s1 p ptr hs1
      hlive hmp
    refine ⟨hpath, hne, ?_⟩
    intro ops
    have hkept := (Evolves_ops (fun _ => True) ops s1 (fun _ _ _ _ => trivial)).cached ptr hptr
      (by rw [hpath]; exact hne)
    refine ⟨hkept, ?_⟩
    intro hg
    have hcached : ∀ hv : ((ops.foldl Resolver.perform s1).IsMountIDValid id).2 = none,
        ReturnsCached (ops.foldl Resolver.perform s1) id p := by
      intro hv
      have := ReturnsCached_of_cached (ops.foldl Resolver.perform s1) id ptr hv hg
        (by rw [hkept, hpath]; exact hne)
      rw [hkept, hpath] at this
      exact this
    refine ⟨hcached, ?_⟩
    intro hf henv hops
    apply hcached
    have hf1 : FloorInv s1 := by
      have := FloorInv_of_Steps env.lists (fun k hk h0 => henv (h0 ▸ hk)) s _
        (Steps_resolveMountPath s env id containerID pid) hf
      unfold Resolver.ResolveMountPath at hs1
      rw [hs1] at this
      exact this
    have hft := FloorInv_ops ops s1 hops hf1
    rw [FloorInv_valid _ hft id ptr hg]

/-- Witness of C11: in the scenario of the spec, `ResolveMountPath` of mount 2
returns "/data"; after the deletion and the sweep of the root mount 1, the
insertion of a mount 9 and a report of the counters, it still does. -/
theorem path_memoized_witness :
    (rootAndData.ResolveMountPath quietEnv 2 7 "").2 = Except.ok "/data" ∧
    (rootAndData.ResolveMountPath quietEnv 2 7 "").1.mounts.Get 2 = some 1 ∧
    (deref (rootAndData.ResolveMountPath quietEnv 2 7 "").1.heap 1).MountPointStr ≠ "/" ∧
    (deref (rootAndData.ResolveMountPath quietEnv 2 7 "").1.heap 1).Path = "/data" ∧
    ReturnsCached
      ([Op.Delete 0 1, Op.dequeue deleteDelayTime, Op.Insert (mountOf 9 1 0 "ext4" "x"),
          Op.SendStats (fun _ => false)].foldl Resolver.perform
        (rootAndData.ResolveMountPath quietEnv 2 7 "").1) 2 "/data" :=
  have hr : Reachable rootAndData :=
    Reachable.Insert _ _ (Reachable.Insert _ _ (Reachable.init ⟨false⟩))
  ⟨by decide, by decide, by decide,
    (path_memoized rootAndData quietEnv 2 7 "" "/data" 1 hr (by decide) (by decide)
      (by decide)).1,
    (((path_memoized rootAndData quietEnv 2 7 "" "/data" 1 hr (by decide) (by decide)
      (by decide)).2.2
        [Op.Delete 0 1, Op.dequeue deleteDelayTime, Op.Insert (mountOf 9 1 0 "ext4" "x"),
          Op.SendStats (fun _ => false)]).2 (by decide)).2
      (by
        show ∀ k ∈ rootAndData.mounts.keys, k ≠ 0 ∧ rootAndData.minMountID ≤ k
        decide)
      (fun ⟨_, _, h, _⟩ => by cases h)
      (by
        intro op hop hk
        simp only [List.mem_cons, List.mem_singleton, List.not_mem_nil, or_false] at hop
        rcases hop with rfl | rfl | rfl | rfl
        · exact hk
        · exact hk
        · exact hk.2 rfl
        · exact hk)⟩

/-- C12, counterexample: the mounts 4 and 6 of `loopedMounts` are parents of each
other, the path construction of mount 4 fails with `ErrMountLoop`, and
`ResolveMountPath` of mount 4, the proc fallback being disabled, fails with
`ErrMountNotFound`. -/
theorem cycle_detected_counterexample :
    LoopChain loopedMounts [4, 6] ∧
    loopedMounts.getMountPath 4 = (loopedMounts, Except.error MountError.ErrMountLoop) ∧
    loopedMounts.opts.UseProcFS = false ∧
    (loopedMounts.ResolveMountPath quietEnv 4 7 "").2
      = Except.error (MountError.ErrMountNotFound 4) :=
  ⟨loopedMounts_chain, by decide, by decide, by decide⟩

/-- C12, amended: cycle detection.  When the parent chain that starts at the
valid live mount ID `i` returns to a mount already visited, every mount of the
chain being live, valid, without cached path, with a mount point other than "/"
and a non-zero parent, the path construction of `i` returns within the nested
calls that `getMountPath` grants, fails with `ErrMountLoop` and changes
nothing; `ResolveMountPath` of `i` fails with `ErrMountNotFound` when the proc
fallback is disabled or denied by the limiter, with `ErrMountLoop` when the
fallback runs and a candidate process has a readable mount table, and with the
error of the last failed scan when the fallback runs and no candidate has one;
and on every mount map and for every mount ID the path construction returns
within those calls. -/
theorem cycle_detected (mr : Resolver) (i : Nat) (chain : List Nat)
    (h : LoopChain mr (i :: chain)) :
    mr._getMountPath (mr.mounts.RealLen + 1) i []
      = some (mr, Except.error MountError.ErrMountLoop) ∧
    mr.getMountPath i = (mr, Except.error MountError.ErrMountLoop) ∧
    (∀ (env : Env) (pid : Nat) (containerID : String),
      (mr.opts.UseProcFS = false ∨ (mr.fallbackLimiter.IsAllowed env i).1 = false →
        (mr.ResolveMountPath env i pid containerID).2
          = Except.error (MountError.ErrMountNotFound i)) ∧
      (mr.opts.UseProcFS = true → (mr.fallbackLimiter.IsAllowed env i).1 = true →
        (∃ p ∈ resolveMountPathCandidates env containerID pid,
          env.ParseMountInfoFile p ≠ none) →
        (mr.ResolveMountPath env i pid containerID).2
          = Except.error MountError.ErrMountLoop) ∧
      (mr.opts.UseProcFS = true → (mr.fallbackLimiter.IsAllowed env i).1 = true →
        (∀ p ∈ resolveMountPathCandidates env containerID pid,
          env.ParseMountInfoFile p = none) →
        ∃ last, (resolveMountPathCandidates env containerID pid).getLast? = some last ∧
          (mr.ResolveMountPath env i pid containerID).2
            = Except.error (MountError.ErrProcScan last))) ∧
    (∀ (s : Resolver) (id : Nat),
      ∃ r, s._getMountPath (s.mounts.RealLen + 1) id [] = some r ∧ s.getMountPath id = r) := by
  obtain ⟨h1, h2⟩ := getMountPath_LoopChain mr i chain h
  exact ⟨h1, h2, fun env pid containerID => resolveMountPath_LoopChain mr i chain h env pid
    containerID, fun s id => getMountPath_total s id⟩

/-- Witness of C12: mounts 4 and 6 of `loopedMounts` are parents of each other,
and mount 3 is its own parent.  With the proc fallback disabled
`ResolveMountPath` of mount 4 fails with `ErrMountNotFound`; with the fallback
enabled and the mount table of process 7 readable it fails with
`ErrMountLoop`, and with no readable mount table it fails with the error of
the scan of process 1, the last candidate. -/
theorem cycle_detected_witness :
    LoopChain loopedMounts [4, 6] ∧ LoopChain loopedMountsProc [4, 6] ∧
    loopedMounts.getMountPath 4 = (loopedMounts, Except.error MountError.ErrMountLoop) ∧
    loopedMounts.getMountPath 3 = (loopedMounts, Except.error MountError.ErrMountLoop) ∧
    (loopedMounts.ResolveMountPath quietEnv 4 7 "").2
      = Except.error (MountError.ErrMountNotFound 4) ∧
    (loopedMountsProc.ResolveMountPath listingEnv 4 7 "").2
      = Except.error MountError.ErrMountLoop ∧
    (∃ last, (resolveMountPathCandidates unreadableEnv "" 7).getLast? = some last ∧
      (loopedMountsProc.ResolveMountPath unreadableEnv 4 7 "").2
        = Except.error (MountError.ErrProcScan last)) ∧
    (loopedMountsProc.ResolveMountPath unreadableEnv 4 7 "").2
      = Except.error (MountError.ErrProcScan 1) :=
  ⟨loopedMounts_chain, loopedMountsProc_chain,
    (cycle_detected loopedMounts 4 [6] loopedMounts_chain).2.1, by decide,
    ((cycle_detected loopedMounts 4 [6] loopedMounts_chain).2.2.1 quietEnv 7 "").1
      (Or.inl (by decide)),
    ((cycle_detected loopedMountsProc 4 [6] loopedMountsProc_chain).2.2.1 listingEnv 7 "").2.1
      (by decide) (by decide) ⟨7, by decide, by decide⟩,
    ((cycle_detected loopedMountsProc 4 [6] loopedMountsProc_chain).2.2.1 unreadableEnv 7
      "").2.2 (by decide) (by decide) (by decide),
    by decide⟩

/-- C13: no fallback, no scan.  For every valid mount ID without live record,
when the proc fallback is disabled by configuration, or enabled but denied by
the fallback limiter, `ResolveMount` returns `ErrMountNotFound` carrying the
mount ID, reads no mount table and leaves the mount map and the records
unchanged. -/
theorem no_fallback_no_scan (mr : Resolver) (env : Env) (id pid : Nat) (containerID : String)
    (hvalid : (mr.IsMountIDValid id).2 = none) (hmiss : mr.mounts.Get id = none)
    (hoff : mr.opts.UseProcFS = false ∨
      (mr.opts.UseProcFS = true ∧ (mr.fallbackLimiter.IsAllowed env id).1 = false)) :
    (mr.ResolveMount env id pid containerID).2
      = Except.error (MountError.ErrMountNotFound id) ∧
    (mr.ResolveMount env id pid containerID).1.procScans = mr.procScans ∧
    (mr.ResolveMount env id pid containerID).1.mounts = mr.mounts ∧
    (mr.ResolveMount env id pid containerID).1.heap = mr.heap := by
  unfold Resolver.ResolveMount
  rw [resolveMount_miss mr env id containerID [pid] hvalid hmiss]
  unfold Resolver.resolveMountMiss
  rcases hoff with h | ⟨h1, h2⟩
  · simp [h]
  · simp [h1, h2]

/-- Witness of C13: `ResolveMount` of mount 5 on an empty cache with the proc
fallback disabled. -/
theorem no_fallback_no_scan_witness :
    ((NewResolver ⟨false⟩).IsMountIDValid 5).2 = none ∧
    (NewResolver ⟨false⟩).mounts.Get 5 = none ∧
    ((NewResolver ⟨false⟩).ResolveMount unreadableEnv 5 7 "").2
      = Except.error (MountError.ErrMountNotFound 5) ∧
    ((NewResolver ⟨false⟩).ResolveMount unreadableEnv 5 7 "").1.procScans = [] :=
  ⟨by decide, by decide,
    (no_fallback_no_scan (NewResolver ⟨false⟩) unreadableEnv 5 7 "" (by decide) (by decide)
      (Or.inl (by decide))).1,
    (no_fallback_no_scan (NewResolver ⟨false⟩) unreadableEnv 5 7 "" (by decide) (by decide)
      (Or.inl (by decide))).2.1⟩

/-- C15: `dequeue(now)` handles exactly the requests of the longest prefix of
the delete queue whose deadlines are not after `now`, in queue order, stops at
the first request whose deadline is after `now` even when due requests follow
it, and leaves as the new queue exactly the remaining suffix. -/
theorem dequeue_handles_due_requests (mr : Resolver) (now : Nat) :
    mr.dequeue now =
      ((mr.deleteQueue.takeWhile (deleteRequest.due now)).foldl dequeueHandle mr).withDeleteQueue
        (mr.deleteQueue.dropWhile (deleteRequest.due now)) ∧
    mr.deleteQueue =
      mr.deleteQueue.takeWhile (deleteRequest.due now) ++ (mr.dequeue now).deleteQueue ∧
    (∀ r ∈ mr.deleteQueue.takeWhile (deleteRequest.due now), r.timeoutAt ≤ now) ∧
    (∀ r, (mr.dequeue now).deleteQueue.head? = some r → now < r.timeoutAt) := by
  have hdrop := drop_takeWhile_length (deleteRequest.due now)
    mr.deleteQueue
  have hlen := (@List.takeWhile_sublist _ mr.deleteQueue (deleteRequest.due now)).length_le
  have h1 : mr.dequeue now =
      ((mr.deleteQueue.takeWhile (deleteRequest.due now)).foldl dequeueHandle mr).withDeleteQueue
        (mr.deleteQueue.dropWhile (deleteRequest.due now)) := by
    unfold Resolver.dequeue
    rw [dequeueLoop_takeWhile]
    simp only []
    split
    · rename_i hge
      have hfull : (mr.deleteQueue.takeWhile (deleteRequest.due now)).length
          = mr.deleteQueue.length := by omega
      rw [← hdrop, hfull, List.drop_length]
      rfl
    · split
      · rw [hdrop]
        rfl
      · rename_i h0
        have hz : (mr.deleteQueue.takeWhile (deleteRequest.due now)).length = 0 := by
          omega
        have hnil := List.length_eq_zero.1 hz
        rw [← hdrop, hz, hnil]
        rfl
  refine ⟨h1, ?_, ?_, ?_⟩
  · rw [h1]
    exact (List.takeWhile_append_dropWhile (deleteRequest.due now) mr.deleteQueue).symm
  · intro r hr
    simpa [deleteRequest.due] using List.mem_takeWhile_imp hr
  · intro r hr
    rw [h1] at hr
    change (mr.deleteQueue.dropWhile (deleteRequest.due now)).head? = some r at hr
    have := List.head?_dropWhile_not (deleteRequest.due now)
      mr.deleteQueue
    rw [hr] at this
    simp [deleteRequest.due] at this
    omega

/-- C16: supersession is decided by record identity.  A due delete request
whose queued record is not the record that the map binds to its mount ID is
dropped by the sweep, whatever the fields of the two records: in every state
with an empty delete queue, after `Insert` of A, `Delete` of its mount ID,
`Insert` of B under the same mount ID (the fields of B may equal those of A)
and a sweep past the deadline, B is the live record, the redemption cache has
no entry for the mount ID, and the sweep has changed nothing but the queue,
which is empty. -/
theorem supersession_by_identity (s : Resolver) (a b : Mount) (t now : Nat)
    (ha : a.MountID ≠ 0) (hb : b.MountID = a.MountID) (hq : s.deleteQueue = [])
    (hnow : t + deleteDelayTime ≤ now) :
    (∀ (mr : Resolver) (req : deleteRequest),
      mr.mounts.Get (deref mr.heap req.mount).MountID ≠ some req.mount →
      dequeueHandle mr req = mr) ∧
    (((s.Insert a).1.Delete t a.MountID).1.Insert b).1.deleteQueue
      = [⟨s.heap.length, t + deleteDelayTime⟩] ∧
    ((((s.Insert a).1.Delete t a.MountID).1.Insert b).1.dequeue now)
      = (((s.Insert a).1.Delete t a.MountID).1.Insert b).1.withDeleteQueue [] ∧
    ((((s.Insert a).1.Delete t a.MountID).1.Insert b).1.dequeue now).mounts.Get a.MountID
      = some (s.heap.length + 1) ∧
    deref ((((s.Insert a).1.Delete t a.MountID).1.Insert b).1.dequeue now).heap (s.heap.length + 1)
      = normalizeMount b ∧
    deref ((((s.Insert a).1.Delete t a.MountID).1.Insert b).1.dequeue now).heap s.heap.length
      = normalizeMount a ∧
    ((((s.Insert a).1.Delete t a.MountID).1.Insert b).1.dequeue now).redemption.Peek a.MountID
      = none := by
  obtain ⟨hI1, hG1, hD1, -⟩ := Insert_stores s a ha
  have hlen1 : (s.Insert a).1.heap.length = s.heap.length + 1 := by
    rw [hI1]; simp [insert_heap, Resolver.alloc]
  have hq1 : (s.Insert a).1.deleteQueue = [] := by
    rw [hI1]; simp only []; rw [(insert_frame _ _).2.1]; exact hq
  have hDel : (s.Insert a).1.Delete t a.MountID =
      ((s.Insert a).1.withDeleteQueue [⟨s.heap.length, t + deleteDelayTime⟩], none) := by
    unfold Resolver.Delete
    rw [hG1, hq1]
    rfl
  rw [hDel]
  simp only []
  generalize hs2 : (s.Insert a).1.withDeleteQueue [⟨s.heap.length, t + deleteDelayTime⟩] = s2
  have hheap2 : s2.heap = (s.Insert a).1.heap := by rw [← hs2]; rfl
  have hmounts2 : s2.mounts = (s.Insert a).1.mounts := by rw [← hs2]; rfl
  have hq2 : s2.deleteQueue = [⟨s.heap.length, t + deleteDelayTime⟩] := by rw [← hs2]; rfl
  have hb0 : b.MountID ≠ 0 := by rw [hb]; exact ha
  obtain ⟨hI3, hG3, hD3, -⟩ := Insert_stores s2 b hb0
  have hlen2 : s2.heap.length = s.heap.length + 1 := by rw [hheap2, hlen1]
  rw [hlen2, hb] at hG3
  rw [hlen2] at hD3
  have hq3 : (s2.Insert b).1.deleteQueue = [⟨s.heap.length, t + deleteDelayTime⟩] := by
    rw [hI3]; simp only []; rw [(insert_frame _ _).2.1]; exact hq2
  have hA3 : deref (s2.Insert b).1.heap s.heap.length = normalizeMount a := by
    rw [hI3]
    simp only [insert_heap]
    rw [deref_set_other _ _ _ _ (by rw [hlen2]; exact Nat.ne_of_gt (Nat.lt_succ_self _))]
    simp only [Resolver.alloc]
    rw [deref_append_old _ _ _ (by rw [hlen2]; exact Nat.lt_succ_self _), hheap2]
    exact hD1
  have hP3 : (s2.Insert b).1.redemption.Peek a.MountID = none := by
    rw [hI3]
    simp only []
    rw [insert_redemption]
    have hdn : deref (s2.alloc b).1.heap s2.heap.length = b := by
      simp [Resolver.alloc, deref_alloc]
    have hdp : deref (s2.alloc b).1.heap s.heap.length = normalizeMount a := by
      simp only [Resolver.alloc]
      rw [deref_append_old _ _ _ (by rw [hlen2]; exact Nat.lt_succ_self _), hheap2]
      exact hD1
    have := insertUmount_Peek (s2.alloc b).1 s2.heap.length s.heap.length
      (by rw [hdn, hb]; show s2.mounts.Get a.MountID = _; rw [hmounts2]; exact hG1)
      (by rw [hdn, hdp, normalizeMount_MountID, hb])
    rw [hdn, hb] at this
    exact this
  have hdq : (s2.Insert b).1.dequeue now = (s2.Insert b).1.withDeleteQueue [] := by
    unfold Resolver.dequeue
    have hloop : dequeueLoop now (s2.Insert b).1.deleteQueue (s2.Insert b).1
        = (1, (s2.Insert b).1) := by
      rw [hq3, dequeueLoop_cons_due now _ _ _ hnow]
      rw [dequeueHandle_superseded _ _ (by
        show (s2.Insert b).1.mounts.Get (deref (s2.Insert b).1.heap s.heap.length).MountID ≠ _
        rw [hA3, normalizeMount_MountID, hG3]
        intro h
        have := Option.some.inj h
        exact absurd this (Nat.succ_ne_self _))]
      rfl
    rw [hloop, hq3]
    simp only [List.length_singleton, ge_iff_le, le_refl, if_true]
    rfl
  refine ⟨fun mr req h => dequeueHandle_superseded mr req h, hq3, hdq, ?_, ?_, ?_, ?_⟩
  · rw [hdq]; exact hG3
  · rw [hdq]; exact hD3
  · rw [hdq]; exact hA3
  · rw [hdq]; exact hP3

/-- Witness of C16: on a fresh resolver, `Insert` of mount 5, `Delete(5)` at
time 0, `Insert` of a record with the same fields and a sweep at the deadline. -/
theorem supersession_by_identity_witness :
    (((((NewResolver ⟨false⟩).Insert (mountOf 5 1 8 "ext4" "/data")).1.Delete 0 5).1.Insert
        (mountOf 5 1 8 "ext4" "/data")).1.dequeue deleteDelayTime).mounts.Get 5 = some 1 ∧
    (((((NewResolver ⟨false⟩).Insert (mountOf 5 1 8 "ext4" "/data")).1.Delete 0 5).1.Insert
        (mountOf 5 1 8 "ext4" "/data")).1.dequeue deleteDelayTime).redemption.Peek 5 = none :=
  ⟨(supersession_by_identity (NewResolver ⟨false⟩) (mountOf 5 1 8 "ext4" "/data")
      (mountOf 5 1 8 "ext4" "/data") 0 deleteDelayTime (by decide) rfl rfl (by decide)).2.2.2.1,
   (supersession_by_identity (NewResolver ⟨false⟩) (mountOf 5 1 8 "ext4" "/data")
      (mountOf 5 1 8 "ext4" "/data") 0 deleteDelayTime (by decide) rfl rfl (by decide)).2.2.2.2.2.2⟩

/-- C17, counterexample: after `SyncCache(1)` has set the floor to 20,
`IsMountIDValid(5)` returns `ErrMountKernelID`; after `Insert` of a mount of ID 5
it returns no error. -/
theorem kernel_floor_counterexample :
    Reachable booted ∧
    booted.IsMountIDValid 5 = (false, some MountError.ErrMountKernelID) ∧
    Reachable (booted.Insert (mountOf 5 20 8 "ext4" "data")).1 ∧
    (booted.Insert (mountOf 5 20 8 "ext4" "data")).1.IsMountIDValid 5 = (true, none) :=
  ⟨Reachable.SyncCache _ bootEnv 1 (Reachable.init ⟨false⟩), by decide,
    Reachable.Insert _ _ (Reachable.SyncCache _ bootEnv 1 (Reachable.init ⟨false⟩)), by decide⟩

/-- C17, amended: the rejection below the kernel floor lasts as long as no mount
ID at or below the rejected one is inserted.  If `IsMountIDValid(id)` returns
`ErrMountKernelID` in a state where every live mount ID is above `id`, then it
returns `ErrMountKernelID` after every sequence of `Insert`, `Delete`, sweeps,
`SyncCache`, the `Resolve` operations and `SendStats` that inserts only mount
IDs above `id`, by `Insert` or from a scanned mount table, and every live mount
ID is still above `id`; whereas in every state an `Insert` of a mount with a
non-zero ID at or below `id` makes `id` valid. -/
theorem kernel_floor_rejection (s : Resolver) (id : Nat) (ops : List Op)
    (hrej : (s.IsMountIDValid id).2 = some MountError.ErrMountKernelID)
    (hlive : ∀ k ∈ s.mounts.keys, id < k)
    (hops : ∀ op ∈ ops, ∀ k, op.inserts k → id < k) :
    (ops.foldl Resolver.perform s).IsMountIDValid id
      = (false, some MountError.ErrMountKernelID) ∧
    (∀ k ∈ (ops.foldl Resolver.perform s).mounts.keys, id < k) ∧
    (∀ (t : Resolver) (e : Mount), e.MountID ≠ 0 → e.MountID ≤ id →
      (t.Insert e).1.IsMountIDValid id = (true, none)) := by
  obtain ⟨h0, hlt⟩ := (IsMountIDValid_kernel s id).1 hrej
  have hev := Evolves_ops (fun k => id < k) ops s hops
  have hkeys : ∀ k ∈ (ops.foldl Resolver.perform s).mounts.keys, id < k := by
    intro k hk
    rcases hev.keys k hk with h | h
    · exact hlive k h
    · exact h
  have hfloor : id < (ops.foldl Resolver.perform s).minMountID := by
    rcases hev.floor with h | h | h
    · rw [h]; exact hlt
    · exact hlive _ h
    · exact h
  refine ⟨?_, hkeys, ?_⟩
  · unfold Resolver.IsMountIDValid
    have h1 : (id == 0) = false := by simpa using h0
    simp [h1, hfloor]
  · intro t e he hle
    have hmin := (Insert_stores t e he).2.2.2
    unfold Resolver.IsMountIDValid
    have h1 : (id == 0) = false := by simpa using h0
    have h2 : ¬ id < (t.Insert e).1.minMountID := by omega
    simp [h1, h2]

/-- Witness of C17: mount ID 5 stays rejected in `booted` through the insertion,
deletion and sweep of mount 30, a scan of process 1 and a lookup of mount 31. -/
theorem kernel_floor_rejection_witness :
    (booted.IsMountIDValid 5).2 = some MountError.ErrMountKernelID ∧
    (∀ k ∈ booted.mounts.keys, 5 < k) ∧
    ([Op.Insert (mountOf 30 20 8 "ext4" "data"), Op.Delete 0 30, Op.dequeue deleteDelayTime,
        Op.SyncCache bootEnv 1, Op.ResolveMount bootEnv 31 1 ""].foldl Resolver.perform
      booted).IsMountIDValid 5 = (false, some MountError.ErrMountKernelID) :=
  ⟨by decide, by decide,
    (kernel_floor_rejection booted 5
      [Op.Insert (mountOf 30 20 8 "ext4" "data"), Op.Delete 0 30, Op.dequeue deleteDelayTime,
        Op.SyncCache bootEnv 1, Op.ResolveMount bootEnv 31 1 ""]
      (by decide) (by decide)
      (by
        intro op hop k hk
        simp only [List.mem_cons, List.mem_singleton, List.not_mem_nil, or_false] at hop
        rcases hop with rfl | rfl | rfl | rfl | rfl
        · have h30 : k = 30 := hk.1
          omega
        · exact absurd hk (fun h => h)
        · exact absurd hk (fun h => h)
        · have := bootEnv_lists k hk
          omega
        · have := bootEnv_lists k hk
          omega)).1⟩

/-- C18, counterexample: in the reachable state `staleFloor` the floor of the
mount IDs is 5, left by a mount that has been finalized since; after
`SyncCache(1)` succeeds the live mounts are 20 and 30 and the floor is still 5,
not the minimum 20 of the live map. -/
theorem SyncCache_floor_counterexample :
    Reachable staleFloor ∧
    staleFloor.minMountID = 5 ∧
    (staleFloor.SyncCache bootEnv 1).2 = none ∧
    (staleFloor.SyncCache bootEnv 1).1.mounts.keys = [20, 30] ∧
    (staleFloor.SyncCache bootEnv 1).1.minMountID = 5 :=
  ⟨Reachable_ops _ _ (Reachable.init ⟨false⟩), by decide, by decide, by decide, by decide⟩

/-- C18, amended: after `SyncCache(1)` returns, if no live mount has the ID 0,
`minMountID` is at most every live mount ID; when `minMountID` was 0 (unset)
before the call and the map is not empty, it is the minimum mount ID of the
live map; when it was not 0, it is the smaller of its former value and of that
minimum, so a former value below every live mount ID is kept. -/
theorem SyncCache_floor (mr : Resolver) (env : Env)
    (h0 : 0 ∉ (mr.SyncCache env 1).1.mounts.keys) :
    (∀ k ∈ (mr.SyncCache env 1).1.mounts.keys, (mr.SyncCache env 1).1.minMountID ≤ k) ∧
    (mr.minMountID = 0 → (mr.SyncCache env 1).1.mounts.keys ≠ [] →
      (mr.SyncCache env 1).1.minMountID ∈ (mr.SyncCache env 1).1.mounts.keys) ∧
    (mr.minMountID ≠ 0 →
      (mr.SyncCache env 1).1.minMountID ≠ 0 ∧
      (mr.SyncCache env 1).1.minMountID ≤ mr.minMountID ∧
      ((mr.SyncCache env 1).1.minMountID = mr.minMountID ∨
        (mr.SyncCache env 1).1.minMountID ∈ (mr.SyncCache env 1).1.mounts.keys)) := by
  obtain ⟨hm, hmin⟩ := SyncCache_one mr env
  have hg := Grows_syncCache mr env [1]
  rw [hm] at h0
  rw [hm, hmin]
  have hnz : ∀ e ∈ (mr.syncCache env [1]).1.mounts.entries, e.1 ≠ 0 := by
    intro e he h
    exact h0 ((mem_keys _ 0).2 ⟨e.2, by rw [← h]; exact he⟩)
  obtain ⟨a, b, c⟩ := forEachLoop_min (mr.syncCache env [1]).1.mounts.entries
    (mr.syncCache env [1]).1.minMountID hnz
  refine ⟨?_, ?_, ?_⟩
  · intro k hk
    obtain ⟨p, hp⟩ := (mem_keys _ k).1 hk
    exact a (k, p) hp
  · intro hz hne
    exact c (hg.unset hz) (by
      intro hnil
      apply hne
      unfold MountMap.keys
      rw [hnil]
      rfl)
  · intro hz
    have h1 : (mr.syncCache env [1]).1.minMountID ≠ 0 := by
      rcases hg.floor with h | h
      · rw [h]; exact hz
      · intro h2
        rw [h2] at h
        exact h0 h
    obtain ⟨b1, b2⟩ := b h1
    refine ⟨b2, Nat.le_trans b1 hg.floorLe, ?_⟩
    rcases forEachLoop_floor (mr.syncCache env [1]).1.mounts.entries
      (mr.syncCache env [1]).1.minMountID with h | h
    · rw [h]
      exact hg.floor
    · exact Or.inr h

/-- Witness of C18: on a fresh resolver, `SyncCache(1)` with a mount table that
lists the mounts 23, 20 and 25 sets the floor to 20. -/
theorem SyncCache_floor_witness :
    0 ∉ ((NewResolver ⟨false⟩).SyncCache threeMountsEnv 1).1.mounts.keys ∧
    ((NewResolver ⟨false⟩).SyncCache threeMountsEnv 1).1.mounts.keys = [23, 20, 25] ∧
    ((NewResolver ⟨false⟩).SyncCache threeMountsEnv 1).1.minMountID = 20 ∧
    (∀ k ∈ ((NewResolver ⟨false⟩).SyncCache threeMountsEnv 1).1.mounts.keys,
      ((NewResolver ⟨false⟩).SyncCache threeMountsEnv 1).1.minMountID ≤ k) :=
  ⟨by decide, by decide, by decide,
    (SyncCache_floor (NewResolver ⟨false⟩) threeMountsEnv (by decide)).1⟩

/-- C19, the code at the failing input: with an empty container ID and no
workload known, `resolveMount` offers the processes `[pid, 1]` to the proc scan
for every `pid`, hence `[1, 1]` for process 1, where `resolveMountPath` offers
`[1]`; on a cache miss of `ResolveMount` for process 1 whose mount table cannot
be read, process 1 is scanned twice, and once by `ResolveMountPath`. -/
theorem candidates_of_process_one :
    (∀ pid, resolveMountCandidates unreadableEnv "" [pid] = [pid, 1]) ∧
    (∀ pid, resolveMountPathCandidates unreadableEnv "" pid = if pid = 1 then [1] else [pid, 1]) ∧
    (NewResolver ⟨true⟩).ResolveMount unreadableEnv 5 1 ""
      = (NewResolver ⟨true⟩).resolveMountMiss unreadableEnv 5 [1, 1] ∧
    ((NewResolver ⟨true⟩).ResolveMount unreadableEnv 5 1 "").1.procScans = [1, 1] ∧
    ((NewResolver ⟨true⟩).ResolveMountPath unreadableEnv 5 1 "").1.procScans = [1] := by
  refine ⟨fun pid => rfl, ?_, ?_, by decide, by decide⟩
  · intro pid
    unfold resolveMountPathCandidates
    by_cases h : pid = 1
    · subst h; rfl
    · simp [h, unreadableEnv]
  · exact resolveMount_miss (NewResolver ⟨true⟩) unreadableEnv 5 "" [1] (by decide) (by decide)

/-- C20, what the code does: a `ResolveMount` call that finds the live record
directly increments the cache-tier hit counter alone; a call that misses the
cache and returns a record, which it does only after a successful proc scan,
increments the cache-tier miss counter and the proc-tier miss counter by one
each and leaves the proc-tier hit counter unchanged. -/
theorem proc_hit_counters (mr : Resolver) (env : Env) (id pid : Nat) (containerID : String)
    (ptr : Ptr) (hok : (mr.ResolveMount env id pid containerID).2 = Except.ok ptr) :
    (∀ m, mr.mounts.Get id = some m →
      (mr.ResolveMount env id pid containerID).1.cacheHitsStats = mr.cacheHitsStats + 1 ∧
      (mr.ResolveMount env id pid containerID).1.cacheMissStats = mr.cacheMissStats ∧
      (mr.ResolveMount env id pid containerID).1.procHitsStats = mr.procHitsStats ∧
      (mr.ResolveMount env id pid containerID).1.procMissStats = mr.procMissStats) ∧
    (mr.mounts.Get id = none →
      mr.opts.UseProcFS = true ∧
      (mr.ResolveMount env id pid containerID).1.mounts.Get id = some ptr ∧
      (mr.ResolveMount env id pid containerID).1.cacheHitsStats = mr.cacheHitsStats ∧
      (mr.ResolveMount env id pid containerID).1.cacheMissStats = mr.cacheMissStats + 1 ∧
      (mr.ResolveMount env id pid containerID).1.procHitsStats = mr.procHitsStats ∧
      (mr.ResolveMount env id pid containerID).1.procMissStats = mr.procMissStats + 1) := by
  have hv : (mr.IsMountIDValid id).2 = none := by
    unfold Resolver.ResolveMount Resolver.resolveMount at hok
    cases hv : (mr.IsMountIDValid id).2 with
    | none => rfl
    | some e => rw [hv] at hok; simp at hok
  refine ⟨?_, ?_⟩
  · intro m hm
    unfold Resolver.ResolveMount Resolver.resolveMount
    rw [hv, hm]
    exact ⟨rfl, rfl, rfl, rfl⟩
  · intro hmiss
    unfold Resolver.ResolveMount at hok ⊢
    rw [resolveMount_miss mr env id containerID [pid] hv hmiss] at hok ⊢
    obtain ⟨a, b, c, d, e, f⟩ := resolveMountMiss_counters mr env id _ ptr hok
    exact ⟨e, f, a, b, c, d⟩

/-- Witness of C20: the lookup of mount 5 for process 7 on a fresh resolver with
the proc fallback enabled, the mount table of process 7 listing mount 5: the
record is returned after one scan, with the proc-tier miss counter at 1 and the
proc-tier hit counter at 0, where the same lookup through `ResolveMountPath`
leaves the proc-tier hit counter at 1 and the proc-tier miss counter at 0. -/
theorem proc_hit_counters_witness :
    ((NewResolver ⟨true⟩).ResolveMount listingEnv 5 7 "").2 = Except.ok 0 ∧
    (NewResolver ⟨true⟩).mounts.Get 5 = none ∧
    ((NewResolver ⟨true⟩).ResolveMount listingEnv 5 7 "").1.procScans = [7] ∧
    ((NewResolver ⟨true⟩).ResolveMount listingEnv 5 7 "").1.cacheMissStats = 0 + 1 ∧
    ((NewResolver ⟨true⟩).ResolveMount listingEnv 5 7 "").1.procHitsStats = 0 ∧
    ((NewResolver ⟨true⟩).ResolveMount listingEnv 5 7 "").1.procMissStats = 0 + 1 ∧
    ((NewResolver ⟨true⟩).ResolveMountPath listingEnv 5 7 "").2 = Except.ok "/data" ∧
    ((NewResolver ⟨true⟩).ResolveMountPath listingEnv 5 7 "").1.cacheMissStats = 1 ∧
    ((NewResolver ⟨true⟩).ResolveMountPath listingEnv 5 7 "").1.procHitsStats = 1 ∧
    ((NewResolver ⟨true⟩).ResolveMountPath listingEnv 5 7 "").1.procMissStats = 0 :=
  ⟨by decide, by decide, by decide,
    ((proc_hit_counters (NewResolver ⟨true⟩) listingEnv 5 7 "" 0 (by decide)).2
      (by decide)).2.2.2.1,
    ((proc_hit_counters (NewResolver ⟨true⟩) listingEnv 5 7 "" 0 (by decide)).2
      (by decide)).2.2.2.2.1,
    ((proc_hit_counters (NewResolver ⟨true⟩) listingEnv 5 7 "" 0 (by decide)).2
      (by decide)).2.2.2.2.2,
    by decide, by decide, by decide, by decide⟩

/-- C21: the proc merge is idempotent and never overwrites.  When the mount table
of the process is read as `mnts`, `syncPid` on a well-formed state succeeds; a
mount ID that was live is bound to the same record, whose fields are unchanged;
a scanned mount ID that was not live is bound to one new record, made from the
first line of `mnts` that bears the ID; every live mount ID was live or is a
scanned one; and a second merge of `mnts` changes neither the map, nor the
records, nor the floor of the mount IDs, nor the redemption cache. -/
theorem proc_merge_idempotent (mr : Resolver) (env : Env) (pid : Nat) (mnts : List MountInfo)
    (hwf : mr.WF) (hscan : env.ParseMountInfoFile pid = some mnts) :
    (mr.syncPid env pid).2 = none ∧
    (∀ k p, mr.mounts.Get k = some p →
      (mr.syncPid env pid).1.mounts.Get k = some p ∧
        deref (mr.syncPid env pid).1.heap p = deref mr.heap p) ∧
    (∀ k mnt, mr.mounts.Get k = none → mnts.find? (fun m => m.ID % 2 ^ 32 == k) = some mnt →
      ∃ p, (mr.syncPid env pid).1.mounts.Get k = some p ∧ mr.heap.length ≤ p ∧
        deref (mr.syncPid env pid).1.heap p = newMountFromMountInfo mnt) ∧
    (mr.syncPid env pid).1.mounts.keys.Nodup ∧
    (∀ k ∈ (mr.syncPid env pid).1.mounts.keys, k ∈ mr.mounts.keys ∨ scannedIDs mnts k) ∧
    syncPidLoop mnts (mr.syncPid env pid).1 = (mr.syncPid env pid).1 ∧
    ((mr.syncPid env pid).1.syncPid env pid).2 = none ∧
    ((mr.syncPid env pid).1.syncPid env pid).1.mounts = (mr.syncPid env pid).1.mounts ∧
    ((mr.syncPid env pid).1.syncPid env pid).1.heap = (mr.syncPid env pid).1.heap ∧
    ((mr.syncPid env pid).1.syncPid env pid).1.minMountID = (mr.syncPid env pid).1.minMountID ∧
    ((mr.syncPid env pid).1.syncPid env pid).1.redemption = (mr.syncPid env pid).1.redemption := by
  have hg := Grows_syncPid mr env pid
  have hwf2 := WF_syncPid mr env pid hwf
  have hskip : ∀ (t : Resolver), t.mounts = (mr.syncPid env pid).1.mounts →
      syncPidLoop mnts t = t := by
    intro t ht
    apply syncPidLoop_skip
    intro mnt hm
    rw [ht, syncPid_readable mr env pid mnts hscan]
    exact syncPidLoop_live mnts _ mnt hm
  have h2 := syncPid_readable (mr.syncPid env pid).1 env pid mnts hscan
  rw [hskip { (mr.syncPid env pid).1 with
    procScans := (mr.syncPid env pid).1.procScans ++ [pid] } rfl] at h2
  refine ⟨?_, ?_, ?_, hwf2.1.1, ?_, hskip _ rfl, ?_, ?_, ?_, ?_, ?_⟩
  · rw [syncPid_readable mr env pid mnts hscan]
  · intro k p hk
    exact ⟨hg.bindings k p hk, hg.records p (hwf.2.1 (k, p) (mem_of_Get _ _ _ hk))⟩
  · intro k mnt hk hf
    rw [syncPid_readable mr env pid mnts hscan]
    exact syncPidLoop_first k mnt mnts { mr with procScans := mr.procScans ++ [pid] } hk hf
  · intro k hk
    rw [syncPid_readable mr env pid mnts hscan] at hk
    exact (Evolves_of_Steps _ _ _ (Steps_syncPidLoop mnts
      { mr with procScans := mr.procScans ++ [pid] })).keys k hk
  · rw [h2]
  · rw [h2]
  · rw [h2]
  · rw [h2]
  · rw [h2]

/-- Witness of C21: the table of process 7 lists the live mount 1 and twice the
mount 5, which is not live.  The record of mount 1 is kept, and mount 5 gets the
record of its first line. -/
theorem proc_merge_idempotent_witness :
    rootAndData.WF ∧
      repeatingEnv.ParseMountInfoFile 7 =
        some [⟨1, 0, 8, 0, "/", "/other", "ext4"⟩, ⟨5, 1, 8, 0, "/", "/data", "ext4"⟩,
          ⟨5, 1, 8, 0, "/", "/again", "ext4"⟩] ∧
      (rootAndData.syncPid repeatingEnv 7).1.mounts.keys = [1, 2, 5] ∧
      ((rootAndData.syncPid repeatingEnv 7).1.mounts.Get 1 = some 0 ∧
        deref (rootAndData.syncPid repeatingEnv 7).1.heap 0 = deref rootAndData.heap 0) ∧
      (∃ p, (rootAndData.syncPid repeatingEnv 7).1.mounts.Get 5 = some p ∧
        rootAndData.heap.length ≤ p ∧
        deref (rootAndData.syncPid repeatingEnv 7).1.heap p
          = newMountFromMountInfo ⟨5, 1, 8, 0, "/", "/data", "ext4"⟩) ∧
      ((rootAndData.syncPid repeatingEnv 7).1.syncPid repeatingEnv 7).1.mounts
        = (rootAndData.syncPid repeatingEnv 7).1.mounts :=
  ⟨by decide, rfl, by decide,
    (proc_merge_idempotent rootAndData repeatingEnv 7 _ (by decide) rfl).2.1 1 0 (by decide),
    (proc_merge_idempotent rootAndData repeatingEnv 7 _ (by decide) rfl).2.2.1 5
      ⟨5, 1, 8, 0, "/", "/data", "ext4"⟩ (by decide) (by decide),
    (proc_merge_idempotent rootAndData repeatingEnv 7 _ (by decide) rfl).2.2.2.2.2.2.2.1⟩

/-- C22: the delete queue is deadline-ordered.  In the state reached from
`NewResolver` through any operations in which the times read by `Delete` are
non-decreasing, the deadlines of the delete queue are non-decreasing from head
to tail, and after `dequeue` at the time `now` every request left in the queue
has its deadline after `now`. -/
theorem delete_queue_ordered (opts : ResolverOpts) (ops : List Op) (now : Nat)
    (h : ClockOrdered ops) :
    DeadlineOrdered (ops.foldl Resolver.perform (NewResolver opts)).deleteQueue ∧
      ∀ r ∈ ((ops.foldl Resolver.perform (NewResolver opts)).dequeue now).deleteQueue,
        ¬ r.timeoutAt ≤ now := by
  have hq : DeadlineOrdered (ops.foldl Resolver.perform (NewResolver opts)).deleteQueue :=
    DeadlineOrdered_ops ops (NewResolver opts) List.Pairwise.nil
      (fun r hr => by cases hr) h
  refine ⟨hq, ?_⟩
  intro r hr
  rw [dequeue_deleteQueue] at hr
  exact Nat.not_le.2 (dropWhile_due_ordered _ now hq r hr)

/-- Witness of C22: two mounts are inserted and deleted at the times 10 and 20,
and the sweep at the time 10 plus 5 s leaves the second request alone. -/
theorem delete_queue_ordered_witness :
    ClockOrdered [Op.Insert (mountOf 1 0 8 "ext4" "/"), Op.Insert (mountOf 2 1 8 "ext4" "data"),
        Op.Delete 10 1, Op.Delete 20 2] ∧
      ((([Op.Insert (mountOf 1 0 8 "ext4" "/"), Op.Insert (mountOf 2 1 8 "ext4" "data"),
        Op.Delete 10 1, Op.Delete 20 2].foldl Resolver.perform
          (NewResolver ⟨false⟩)).dequeue (10 + deleteDelayTime)).deleteQueue.map
            deleteRequest.timeoutAt = [20 + deleteDelayTime]) ∧
      (DeadlineOrdered ([Op.Insert (mountOf 1 0 8 "ext4" "/"),
          Op.Insert (mountOf 2 1 8 "ext4" "data"), Op.Delete 10 1,
          Op.Delete 20 2].foldl Resolver.perform (NewResolver ⟨false⟩)).deleteQueue ∧
        ∀ r ∈ (([Op.Insert (mountOf 1 0 8 "ext4" "/"), Op.Insert (mountOf 2 1 8 "ext4" "data"),
          Op.Delete 10 1, Op.Delete 20 2].foldl Resolver.perform
            (NewResolver ⟨false⟩)).dequeue (10 + deleteDelayTime)).deleteQueue,
          ¬ r.timeoutAt ≤ 10 + deleteDelayTime) :=
  ⟨by simp [ClockOrdered, Op.deleteTime], by decide,
    delete_queue_ordered ⟨false⟩ _ (10 + deleteDelayTime) (by simp [ClockOrdered, Op.deleteTime])⟩

/-- C24, counterexample: `Insert` of a record without resolved path whose mount
point is "//data" stores the mount point "/data", which starts with a path
separator. -/
theorem Insert_normalises_counterexample :
    (mountOf 5 1 8 "ext4" "//data").MountID ≠ 0 ∧
    (mountOf 5 1 8 "ext4" "//data").Path = "" ∧
    (mountOf 5 1 8 "ext4" "//data").MountPointStr ≠ "/" ∧
    ((NewResolver ⟨false⟩).Insert (mountOf 5 1 8 "ext4" "//data")).1.mounts.Get 5 = some 0 ∧
    (deref ((NewResolver ⟨false⟩).Insert (mountOf 5 1 8 "ext4" "//data")).1.heap 0).MountPointStr
      = "/data" ∧
    (deref ((NewResolver ⟨false⟩).Insert
      (mountOf 5 1 8 "ext4" "//data")).1.heap 0).MountPointStr.data.head? = some '/' := by
  decide

/-- C24, amended: `Insert` normalises the mount point.  For every state and
every record `e` with a non-zero mount ID, the record stored under the mount ID
is `e` with, as mount point, that of `e` with one leading path separator
stripped when `e` has no resolved path and its mount point is not "/", and that
of `e` unchanged when its mount point is "/" or `e` carries a resolved path.
After the normalisation of a record without resolved path whose mount point is
not "/", the stored mount point starts with a path separator exactly when the
mount point of `e` starts with two. -/
theorem Insert_normalises (mr : Resolver) (e : Mount) (h : e.MountID ≠ 0) :
    (mr.Insert e).1.mounts.Get e.MountID = some mr.heap.length ∧
    deref (mr.Insert e).1.heap mr.heap.length
      = { e with MountPointStr := (deref (mr.Insert e).1.heap mr.heap.length).MountPointStr } ∧
    (e.Path = "" → e.MountPointStr ≠ "/" →
      (deref (mr.Insert e).1.heap mr.heap.length).MountPointStr
        = TrimPrefix e.MountPointStr "/" ∧
      (deref (mr.Insert e).1.heap mr.heap.length).MountPointStr.data
        = (match e.MountPointStr.data with
          | '/' :: rest => rest
          | other => other) ∧
      ((deref (mr.Insert e).1.heap mr.heap.length).MountPointStr.data.head? = some '/' ↔
        ∃ rest, e.MountPointStr.data = '/' :: '/' :: rest)) ∧
    (e.MountPointStr = "/" ∨ e.Path ≠ "" →
      (deref (mr.Insert e).1.heap mr.heap.length).MountPointStr = e.MountPointStr) := by
  obtain ⟨-, hG, hD, -⟩ := Insert_stores mr e h
  obtain ⟨n1, n2⟩ := normalizeMount_spec e
  rw [hD]
  refine ⟨hG, ?_, ?_, ?_⟩
  · unfold normalizeMount
    split <;> rfl
  · intro hp hm
    rw [n1 hp hm]
    exact ⟨rfl, TrimPrefix_slash _, TrimPrefix_slash_head _⟩
  · intro hc
    rw [n2 hc]

/-- Witness of C24: `Insert` of mount 2 with mount point "/data" and no
resolved path on a fresh resolver stores the mount point "data". -/
theorem Insert_normalises_witness :
    (mountOf 2 1 0 "ext4" "/data").MountID ≠ 0 ∧
    (deref ((NewResolver ⟨false⟩).Insert (mountOf 2 1 0 "ext4" "/data")).1.heap 0).MountPointStr
      = "data" ∧
    (deref ((NewResolver ⟨false⟩).Insert (mountOf 2 1 0 "ext4" "/data")).1.heap
      (NewResolver ⟨false⟩).heap.length).MountPointStr
        = TrimPrefix (mountOf 2 1 0 "ext4" "/data").MountPointStr "/" :=
  ⟨by decide, by decide,
    ((Insert_normalises (NewResolver ⟨false⟩) (mountOf 2 1 0 "ext4" "/data") (by decide)).2.2.1
      (by decide) (by decide)).1⟩

/-- C25, what the code does: in every state reached from a fresh resolver by
operations that merge no mount of ID 0 from a mount table, `minMountID` is at
most the ID of every live mount, no live mount has the ID 0 and
`IsMountIDValid` succeeds for every live mount ID; an `Insert` that is not
refused leaves `minMountID` at the minimum of its former value and of the
inserted mount ID.  When the mount table of process 1 lists a mount of ID 0,
`SyncCache(1)` inserts it and takes the floor 0 for unset: on a resolver holding
the mounts 1 and 2, with a table listing the mounts 0 and 7, `minMountID` ends
at 7 and `IsMountIDValid` rejects the live mount IDs 1 and 2. -/
theorem floor_below_live (opts : ResolverOpts) (ops : List Op)
    (h0 : ∀ op ∈ ops, ¬ op.inserts 0) :
    (∀ k ∈ (ops.foldl Resolver.perform (NewResolver opts)).mounts.keys,
      k ≠ 0 ∧ (ops.foldl Resolver.perform (NewResolver opts)).minMountID ≤ k) ∧
    (∀ id p, (ops.foldl Resolver.perform (NewResolver opts)).mounts.Get id = some p →
      (ops.foldl Resolver.perform (NewResolver opts)).IsMountIDValid id = (true, none)) ∧
    (∀ (s : Resolver) (e : Mount), e.MountID ≠ 0 →
      (s.Insert e).1.minMountID = min s.minMountID e.MountID) ∧
    ((rootAndData.SyncCache zeroMountEnv 1).1.mounts.keys = [1, 2, 0, 7] ∧
      (rootAndData.SyncCache zeroMountEnv 1).1.minMountID = 7 ∧
      (rootAndData.SyncCache zeroMountEnv 1).1.IsMountIDValid 1
        = (false, some MountError.ErrMountKernelID) ∧
      (rootAndData.SyncCache zeroMountEnv 1).1.IsMountIDValid 2
        = (false, some MountError.ErrMountKernelID)) := by
  have hf := FloorInv_ops ops (NewResolver opts) h0 (FloorInv_NewResolver opts)
  exact ⟨hf, fun id p hg => FloorInv_valid _ hf id p hg, fun s e he => Insert_minMountID s e he,
    by decide, by decide, by decide, by decide⟩

/-- Witness of C25: a scan of process 1 listing the mounts 23, 20 and 25, the
insertion of mount 5, its deletion and a sweep merge no mount of ID 0; the floor
is then 5. -/
theorem floor_below_live_witness :
    ([Op.SyncCache threeMountsEnv 1, Op.Insert (mountOf 5 20 8 "ext4" "data"), Op.Delete 0 5,
        Op.dequeue deleteDelayTime].foldl Resolver.perform (NewResolver ⟨false⟩)).minMountID = 5 ∧
    (∀ k ∈ ([Op.SyncCache threeMountsEnv 1, Op.Insert (mountOf 5 20 8 "ext4" "data"),
        Op.Delete 0 5, Op.dequeue deleteDelayTime].foldl Resolver.perform
          (NewResolver ⟨false⟩)).mounts.keys,
      k ≠ 0 ∧ ([Op.SyncCache threeMountsEnv 1, Op.Insert (mountOf 5 20 8 "ext4" "data"),
        Op.Delete 0 5, Op.dequeue deleteDelayTime].foldl Resolver.perform
          (NewResolver ⟨false⟩)).minMountID ≤ k) :=
  ⟨by decide,
    (floor_below_live ⟨false⟩
      [Op.SyncCache threeMountsEnv 1, Op.Insert (mountOf 5 20 8 "ext4" "data"), Op.Delete 0 5,
        Op.dequeue deleteDelayTime]
      (by
        intro op hop hk
        simp only [List.mem_cons, List.mem_singleton, List.not_mem_nil, or_false] at hop
        rcases hop with rfl | rfl | rfl | rfl
        · obtain ⟨pid, mnts, hm, mnt, hin, hid⟩ := hk
          unfold threeMountsEnv at hm
          simp only [] at hm
          split at hm
          · cases hm
            simp only [List.mem_cons, List.mem_singleton, List.not_mem_nil, or_false] at hin
            rcases hin with rfl | rfl | rfl <;> simp at hid
          · cases hm
        · exact hk.2 rfl
        · exact hk
        · exact hk)).1⟩

/-- C26: `finalize` terminates.  On a map that binds every record under its own
mount ID, whatever the parent mount IDs and the devices of the records, and for
every starting record, the loop of `finalize` run for `finalizeFuel` rounds or
more ends with an empty work stack, and with the map that `finalize` returns. -/
theorem finalize_terminates (heap : List Mount) (m : MountMap) (first : Ptr) (fuel : Nat)
    (hwf : MapWF heap m) (hfuel : finalizeFuel m.RealLen ≤ fuel) :
    finalizeLoop heap fuel [first] m = ([], finalizeMap heap m first) := by
  have hdone := finalizeLoop_complete heap m first hwf
  rw [finalizeLoop_mono heap _ fuel [first] m hfuel hdone]
  exact Prod.ext hdone rfl

/-- Witness of C26: three overlay mounts of one device with a self-referential
and a cyclic parent relation.  After two rounds the record of mount 4 is on the
work stack three times, and the stack is empty after 25 rounds. -/
theorem finalize_terminates_witness :
    MapWF tangledOverlays.heap tangledOverlays.mounts ∧
      finalizeFuel tangledOverlays.mounts.RealLen ≤ 25 ∧
      (finalizeLoop tangledOverlays.heap 2 [0] tangledOverlays.mounts).1 = [1, 1, 1] ∧
      finalizeLoop tangledOverlays.heap 25 [0] tangledOverlays.mounts
        = ([], finalizeMap tangledOverlays.heap tangledOverlays.mounts 0) :=
  ⟨by decide, by decide, by decide,
    finalize_terminates tangledOverlays.heap tangledOverlays.mounts 0 25 (by decide) (by decide)⟩

/-- C27: `finalize` removes nothing else.  A mount ID that is live and that no
record reached from the starting record bears (by child edges, and from an
overlay record by edges to the records of the same device) is bound to the same
record after `finalize`, and the record is unchanged; and `finalize` of a record
that is not an overlay mount and has no child but itself removes the binding of
its own mount ID at most. -/
theorem finalize_removes_nothing_else (mr : Resolver) (first : Ptr) (k : Nat) (p : Ptr)
    (hlive : mr.mounts.Get k = some p)
    (hun : ∀ x, FinReach mr.heap mr.mounts first x → (deref mr.heap x).MountID ≠ k) :
    (mr.finalize first).mounts.Get k = some p ∧
      deref (mr.finalize first).heap p = deref mr.heap p ∧
      ((deref mr.heap first).IsOverlayFS = false →
        (∀ e ∈ mr.mounts.entries,
          (deref mr.heap e.2).ParentMountID = (deref mr.heap first).MountID →
            e.1 = (deref mr.heap first).MountID) →
        (mr.finalize first).mounts = mr.mounts.Delete (deref mr.heap first).MountID) := by
  refine ⟨?_, rfl, fun ho hc => finalizeMap_leaf mr.heap mr.mounts first ho hc⟩
  show (finalizeMap mr.heap mr.mounts first).Get k = some p
  unfold finalizeMap
  rw [finalizeLoop_frame mr.heap mr.mounts first k hun _ _ _ (fun _ h => h)
    (fun x hx => by rw [List.mem_singleton.1 hx]; exact FinReach.first)]
  exact hlive

/-- Witness of C27: in `threeLevels`, `finalize` of mount 2 removes the mounts 2
and 3 and leaves the unrelated mount 4 bound to its record; and `finalize` of
mount 4, which has no child, removes the binding of mount 4 alone. -/
theorem finalize_removes_nothing_else_witness :
    threeLevels.mounts.Get 4 = some 3 ∧ (threeLevels.finalize 1).mounts.keys = [1, 4] ∧
      ((threeLevels.finalize 1).mounts.Get 4 = some 3 ∧
        deref (threeLevels.finalize 1).heap 3 = deref threeLevels.heap 3) ∧
      (threeLevels.finalize 3).mounts
        = threeLevels.mounts.Delete (deref threeLevels.heap 3).MountID :=
  ⟨by decide, by decide,
    ⟨(finalize_removes_nothing_else threeLevels 1 4 3 (by decide) (fun x hx => by
      have key : ∀ x ∈ [1, 2], (deref threeLevels.heap x).MountID ≠ 4 := by decide
      exact key x (threeLevels_reach x hx))).1,
     (finalize_removes_nothing_else threeLevels 1 4 3 (by decide) (fun x hx => by
      have key : ∀ x ∈ [1, 2], (deref threeLevels.heap x).MountID ≠ 4 := by decide
      exact key x (threeLevels_reach x hx))).2.1⟩,
    (finalize_removes_nothing_else threeLevels 3 1 0 (by decide) (fun x hx => by
      have key : ∀ x ∈ [3], (deref threeLevels.heap x).MountID ≠ 1 := by decide
      exact key x (threeLevels_reach_leaf x hx))).2.2 (by decide) (by decide)⟩

/-- C28: redemption entries and live records.  In the state reached from
`NewResolver` through operations none of which runs a finalization (no `Insert`
of a live mount ID, no sweep that overflows the redemption cache), every entry
of the redemption cache is the record that the map binds to its key.  A
finalization breaks it.  In `staleRedemption` the second `Insert` of mount 1
has finalized mount 2 with the first record of mount 1, and the record of
mount 2 is still in the redemption cache; after a second `Insert` of mount 2
the map binds 2 to the new record and the cache holds the old one, and the
eviction callback run on that entry removes the new record from the map.  In
`fullRedemption`, after `Insert` of a mount of ID 1, the sweep at 11 s overflows
the cache, whose oldest entry is an old record of ID 1, and the eviction removes
the new record of mount 1 from the map. -/
theorem redemption_entries_live (opts : ResolverOpts) (ops : List Op)
    (h : QuietRun (NewResolver opts) ops) :
    RedemptionLive (ops.foldl Resolver.perform (NewResolver opts)) ∧
    (staleRedemption.redemption.items = [(2, 1)] ∧ staleRedemption.mounts.Get 2 = none ∧
      (staleRedemption.Insert (mountOf 2 1 8 "ext4" "data")).1.redemption.items = [(2, 1)] ∧
      (staleRedemption.Insert (mountOf 2 1 8 "ext4" "data")).1.mounts.entries
        = [(1, 2), (2, 3)] ∧
      ¬ RedemptionLive (staleRedemption.Insert (mountOf 2 1 8 "ext4" "data")).1 ∧
      ((staleRedemption.Insert (mountOf 2 1 8 "ext4" "data")).1.onEvict
        (some (2, 1))).mounts.entries = [(1, 2)]) ∧
    ((fullRedemption.Insert (mountOf 1 0 0 "ext4" "fresh")).1.mounts.Get 1 = some 1027 ∧
      (fullRedemption.Insert (mountOf 1 0 0 "ext4" "fresh")).1.redemption.Peek 1 = some 1 ∧
      ((fullRedemption.Insert (mountOf 1 0 0 "ext4" "fresh")).1.dequeue
        11000000000).mounts.Get 1 = none) := by
  refine ⟨QuietRun_live ops _ (fun e he => by cases he) h, by decide, by decide!⟩

/-- Witness of C28: mount 1 and its child 2 are inserted, mount 2 is deleted and
swept into the redemption cache, and resolved; the entry of the cache is the
live record of mount 2. -/
theorem redemption_entries_live_witness :
    QuietRun (NewResolver ⟨false⟩)
        [Op.Insert (mountOf 1 0 8 "ext4" "/"), Op.Insert (mountOf 2 1 8 "ext4" "data"),
          Op.Delete 0 2, Op.dequeue deleteDelayTime, Op.ResolveMount quietEnv 2 7 ""] ∧
      ([Op.Insert (mountOf 1 0 8 "ext4" "/"), Op.Insert (mountOf 2 1 8 "ext4" "data"),
          Op.Delete 0 2, Op.dequeue deleteDelayTime,
          Op.ResolveMount quietEnv 2 7 ""].foldl Resolver.perform
            (NewResolver ⟨false⟩)).redemption.items = [(2, 1)] ∧
      RedemptionLive ([Op.Insert (mountOf 1 0 8 "ext4" "/"),
          Op.Insert (mountOf 2 1 8 "ext4" "data"), Op.Delete 0 2, Op.dequeue deleteDelayTime,
          Op.ResolveMount quietEnv 2 7 ""].foldl Resolver.perform (NewResolver ⟨false⟩)) :=
  ⟨by decide, by decide, (redemption_entries_live ⟨false⟩ _ (by decide)).1⟩

/-- C29: the empty-path branch is unreachable.  For every resolver state, every
mount ID and every set of visited mount IDs, a call of the path construction
that returns does not fail with `ErrMountPathEmpty` and returns a non-empty
path on success; so do `getMountPath`, which always returns, and
`ResolveMountPath`. -/
theorem path_never_empty (mr : Resolver) (id : Nat) :
    (∀ (fuel : Nat) (cache : List Nat) (mr1 : Resolver) (r : Except MountError String),
      mr._getMountPath fuel id cache = some (mr1, r) →
      r ≠ Except.error MountError.ErrMountPathEmpty ∧ ∀ p, r = Except.ok p → p ≠ "") ∧
    (∃ r, mr._getMountPath (mr.mounts.RealLen + 1) id [] = some r ∧ mr.getMountPath id = r) ∧
    (mr.getMountPath id).2 ≠ Except.error MountError.ErrMountPathEmpty ∧
    (∀ p, (mr.getMountPath id).2 = Except.ok p → p ≠ "") ∧
    (∀ (env : Env) (pid : Nat) (containerID : String),
      (mr.ResolveMountPath env id pid containerID).2
        ≠ Except.error MountError.ErrMountPathEmpty ∧
      ∀ p, (mr.ResolveMountPath env id pid containerID).2 = Except.ok p → p ≠ "") := by
  have hne : ∀ p : String, p.length ≠ 0 → p ≠ "" := by
    intro p hp he
    rw [he] at hp
    exact hp rfl
  refine ⟨?_, getMountPath_total mr id, (getMountPath_nonempty_total mr id).1, ?_, ?_⟩
  · intro fuel cache mr1 r h
    obtain ⟨a, b⟩ := getMountPath_nonempty mr fuel id cache mr1 r h
    exact ⟨a, fun p hp => hne p (b p hp)⟩
  · intro p hp
    exact hne p ((getMountPath_nonempty_total mr id).2 p hp)
  · intro env pid containerID
    obtain ⟨a, b⟩ := resolveMountPath_nonempty mr env id pid containerID
    exact ⟨a, fun p hp => hne p (b p hp)⟩

/-- C30, what the code does: for every unsigned 64-bit nanosecond value `ns`,
the loop of `nsTimestampToFloat` ends within 64 rounds with `ns` halved `k`
times and at most 1024; the integer converted to float is `(ns >> k) << k`; it
is at most `ns` and differs from `ns` by at most one part in 512, not in 1024:
at `ns = 2051` it is 2048 and `(2051 - 2048) * 1024 > 2051`. -/
theorem nsTimestamp_precision (ns : Nat) (h : ns < 2 ^ 64) :
    (∃ k, nsTimestampLoop 64 ns 0 = (ns / 2 ^ k, k) ∧ ns / 2 ^ k ≤ 1024 ∧
      nsTimestampTrunc ns = (ns >>> k) <<< k) ∧
    nsTimestampTrunc ns ≤ ns ∧
    (ns - nsTimestampTrunc ns) * 512 ≤ ns ∧
    nsTimestampTrunc 2051 = 2048 ∧
    ¬ (2051 - nsTimestampTrunc 2051) * 1024 ≤ 2051 := by
  obtain ⟨k, hk, hle, hv, h1, h2⟩ := nsTimestampTrunc_spec ns h
  refine ⟨⟨k, hk, hle, ?_⟩, h1, h2, by decide, by decide⟩
  rw [hv, Nat.shiftLeft_eq, Nat.shiftRight_eq_div_pow]

/-- Witness of C30: the timestamp 2051 is halved twice, down to 512, and 2048
is converted to float. -/
theorem nsTimestamp_precision_witness :
    (2051 : Nat) < 2 ^ 64 ∧ nsTimestampLoop 64 2051 0 = (512, 2) ∧
    nsTimestampTrunc 2051 ≤ 2051 ∧ (2051 - nsTimestampTrunc 2051) * 512 ≤ 2051 :=
  ⟨by decide, by decide, (nsTimestamp_precision 2051 (by decide)).2.1,
    (nsTimestamp_precision 2051 (by decide)).2.2.1⟩

end MountResolver
